import Mathlib

/-! # Traceshark: the `LoadBuffer` hand-off protocol, the settings, the error functions

A verification development for `src/threads/loadbuffer.h`, `src/misc/setting.cpp`
and `src/vtl/error.cpp`.

The six synchronisation functions of `LoadBuffer` are transcribed statement by
statement (`Stmt`), the statements are given a small-step semantics over the
fields of the class (`execStmt`), and the three role threads are interleaved by
an explicit schedule (`Pipeline.step`, `Pipeline.exec`).

`QMutex` is modelled by its holder, a `QWaitCondition` by the threads that are
blocked in its `wait`. There is one thread per role, as the comment of the class
requires, so a thread is named by its role.

The fill of a buffer (`fill`) follows the design document, the header declaring
`produceBuffer` without its body. The settings are the static members of
`class Setting` as an explicit state (`Settings`), with the functions of
`setting.cpp` over it and the file as a list of characters. The functions of
`error.cpp` yield the list of their effects and the way they end (`Run`).
-/

namespace Traceshark

/-! ## Data model -/

/-- The lifecycle values, `loadbufferstate_t`. -/
inductive loadbufferstate_t
  | LOADSTATE_EMPTY
  | LOADSTATE_LOADED
  | LOADSTATE_TOKENIZED
  deriving DecidableEq, Repr

/-- The three thread categories of the class comment: the loader (IO thread),
the tokenizer and the consumer. -/
inductive Role
  | Loader
  | Tokenizer
  | Consumer
  deriving DecidableEq, Repr

/-- Names of the three `QWaitCondition` members of `LoadBuffer`. -/
inductive CondVar
  | consumptionComplete
  | loadingComplete
  | parsingComplete
  deriving DecidableEq, Repr

/-- The members of `class LoadBuffer`. Pointers are addresses; `mutex` is the
thread holding the `QMutex`, if any; each `QWaitCondition` is the list of
threads blocked in its `wait`. -/
structure LoadBuffer where
  buffer : Nat
  memory : Nat
  readBegin : Nat
  bufSize : Nat
  nRead : Nat
  filePos : Int
  IOerror : Bool
  IOerrno : Int
  state : loadbufferstate_t
  mutex : Option Role
  consumptionComplete : List Role
  loadingComplete : List Role
  parsingComplete : List Role
  eof : Bool
  deriving DecidableEq, Repr

/-- The threads blocked on one of the condition variables of a buffer. -/
def LoadBuffer.waiters (b : LoadBuffer) : CondVar → List Role
  | .consumptionComplete => b.consumptionComplete
  | .loadingComplete => b.loadingComplete
  | .parsingComplete => b.parsingComplete

/-- Replace the threads blocked on one of the condition variables. -/
def LoadBuffer.setWaiters (b : LoadBuffer) (cv : CondVar) (ws : List Role) : LoadBuffer :=
  match cv with
  | .consumptionComplete => { b with consumptionComplete := ws }
  | .loadingComplete => { b with loadingComplete := ws }
  | .parsingComplete => { b with parsingComplete := ws }

/-! ## The code of `loadbuffer.h` -/

/-- The statements that occur in the synchronisation functions. -/
inductive Stmt
  /-- The statement `mutex.lock();`. -/
  | lock
  /-- The loop `while(state != s) { cv.wait(&mutex); }`. -/
  | waitUntil (s : loadbufferstate_t) (cv : CondVar)
  /-- The assignment `state = s;`. -/
  | assign (s : loadbufferstate_t)
  /-- The statement `cv.wakeOne();`. -/
  | wakeOne (cv : CondVar)
  /-- The statement `mutex.unlock();`. -/
  | unlock
  deriving DecidableEq, Repr

/-- The body of `LoadBuffer::waitForLoadingComplete`. -/
def waitForLoadingComplete : List Stmt :=
  [.lock, .waitUntil .LOADSTATE_LOADED .loadingComplete]

/-- The body of `LoadBuffer::completeLoading`. -/
def completeLoading : List Stmt :=
  [.assign .LOADSTATE_LOADED, .wakeOne .loadingComplete, .unlock]

/-- The body of `LoadBuffer::waitForTokenizationComplete`. -/
def waitForTokenizationComplete : List Stmt :=
  [.lock, .waitUntil .LOADSTATE_TOKENIZED .parsingComplete]

/-- The body of `LoadBuffer::completeTokenization`. -/
def completeTokenization : List Stmt :=
  [.assign .LOADSTATE_TOKENIZED, .wakeOne .parsingComplete, .unlock]

/-- The body of `LoadBuffer::waitForConsumptionComplete`. -/
def waitForConsumptionComplete : List Stmt :=
  [.lock, .waitUntil .LOADSTATE_EMPTY .consumptionComplete]

/-- The body of `LoadBuffer::completeConsumption`. -/
def completeConsumption : List Stmt :=
  [.assign .LOADSTATE_EMPTY, .wakeOne .consumptionComplete, .unlock]

/-- The function `LoadBuffer::isEOF`, a `const` member: it returns `eof`, and
the object is handed back as it was received. -/
def isEOF (b : LoadBuffer) : Bool × LoadBuffer :=
  (b.eof, b)

/-! ## Semantics of the statements -/

/-- What an attempt to execute a statement yields: it takes effect, the thread
cannot proceed now (it is blocked), or the call is an error of the primitive
(unlocking or waiting with a mutex the caller does not hold). -/
inductive Outcome (α : Type)
  | done (a : α)
  | blocked
  | fault
  deriving DecidableEq, Repr

/-- The effect of one step of a statement: the buffer afterwards, whether the
thread is now inside `wait`, and whether the statement is finished. -/
structure StmtResult where
  buf : LoadBuffer
  inWait : Bool
  finished : Bool
  deriving DecidableEq, Repr

/-- One step of thread `t` on statement `st` of buffer `b`. `inWait` tells
whether `t` is inside `cv.wait(&mutex)`; `pick` is the scheduler's choice of the
thread that `wakeOne` wakes.

* `lock` succeeds only on a free mutex.
* The loop tests `state`; when the test fails it calls `wait`, which releases
  the mutex and enqueues `t` in one atomic step. Inside `wait` the thread is
  blocked while it is enqueued; once dequeued it needs the mutex again, and
  then the loop test is made anew.
* `wakeOne` dequeues one waiting thread if there is any.
* `unlock` releases the mutex. -/
def execStmt (t : Role) (pick : Nat) (st : Stmt) (inWait : Bool) (b : LoadBuffer) :
    Outcome StmtResult :=
  match st with
  | .lock =>
    match b.mutex with
    | none => .done ⟨{ b with mutex := some t }, false, true⟩
    | some _ => .blocked
  | .waitUntil s cv =>
    if inWait then
      if t ∈ b.waiters cv then .blocked
      else
        match b.mutex with
        | none => .done ⟨{ b with mutex := some t }, false, false⟩
        | some _ => .blocked
    else if b.state ≠ s then
      if b.mutex = some t then
        .done ⟨{ b.setWaiters cv (t :: b.waiters cv) with mutex := none }, true, false⟩
      else .fault
    else .done ⟨b, false, true⟩
  | .assign s => .done ⟨{ b with state := s }, false, true⟩
  | .wakeOne cv =>
    .done ⟨b.setWaiters cv ((b.waiters cv).eraseIdx (pick % (b.waiters cv).length)), false, true⟩
  | .unlock =>
    if b.mutex = some t then .done ⟨{ b with mutex := none }, false, true⟩
    else .fault

/-- Run a function body that contains no loop from its first statement to its
last, as one thread with no other thread in between. -/
def execBody (t : Role) (pick : Nat) : List Stmt → LoadBuffer → Outcome LoadBuffer
  | [], b => .done b
  | st :: rest, b =>
    match execStmt t pick st false b with
    | .done res => if res.finished then execBody t pick rest res.buf else .blocked
    | .blocked => .blocked
    | .fault => .fault

/-! ## The three role threads -/

/-- Modelled from the spec: the begin-phase of a role (`beginProduceBuffer`,
`beginTokenizeBuffer`, `beginConsumeBuffer` are declared in the header, their
bodies are not part of the sources). The Loader waits for `EMPTY`, the Tokenizer
for `LOADED`, the Consumer for `TOKENIZED`. -/
def beginPhase : Role → List Stmt
  | .Loader => waitForConsumptionComplete
  | .Tokenizer => waitForLoadingComplete
  | .Consumer => waitForTokenizationComplete

/-- Modelled from the spec: the end-phase of a role (`endProduceBuffer`,
`endTokenizeBuffer`, `endConsumeBuffer`). The Loader publishes `LOADED`, the
Tokenizer `TOKENIZED`, the Consumer `EMPTY`. -/
def endPhase : Role → List Stmt
  | .Loader => completeLoading
  | .Tokenizer => completeTokenization
  | .Consumer => completeConsumption

/-- Modelled from the spec: one round of a role thread on the buffer at its
cursor, the begin-phase followed by the end-phase. The work on the contents of
the buffer lies between the two and touches no synchronisation member. -/
def roundCode (r : Role) : List Stmt :=
  beginPhase r ++ endPhase r

/-- The lifecycle value a role waits for in its begin-phase. -/
def Role.awaited : Role → loadbufferstate_t
  | .Loader => .LOADSTATE_EMPTY
  | .Tokenizer => .LOADSTATE_LOADED
  | .Consumer => .LOADSTATE_TOKENIZED

/-- The lifecycle value a role writes in its end-phase. -/
def Role.published : Role → loadbufferstate_t
  | .Loader => .LOADSTATE_LOADED
  | .Tokenizer => .LOADSTATE_TOKENIZED
  | .Consumer => .LOADSTATE_EMPTY

/-- The condition variable a role waits on in its begin-phase. -/
def Role.waitsOn : Role → CondVar
  | .Loader => .consumptionComplete
  | .Tokenizer => .loadingComplete
  | .Consumer => .parsingComplete

/-- The condition variable a role signals in its end-phase. -/
def Role.signals : Role → CondVar
  | .Loader => .loadingComplete
  | .Tokenizer => .parsingComplete
  | .Consumer => .consumptionComplete

/-- The control state of a role thread: the ring index of the buffer it works
on, the index of its next statement in `roundCode`, and whether it is inside
`wait`. -/
structure ThreadState where
  cursor : Nat
  pc : Nat
  inWait : Bool
  deriving DecidableEq, Repr

/-- The ring of buffers and the three role threads. -/
structure Pipeline where
  pool : List LoadBuffer
  loader : ThreadState
  tokenizer : ThreadState
  consumer : ThreadState
  deriving DecidableEq, Repr

/-- The thread of a role. -/
def Pipeline.thread (s : Pipeline) : Role → ThreadState
  | .Loader => s.loader
  | .Tokenizer => s.tokenizer
  | .Consumer => s.consumer

/-- Replace the thread of a role. -/
def Pipeline.setThread (s : Pipeline) (r : Role) (th : ThreadState) : Pipeline :=
  match r with
  | .Loader => { s with loader := th }
  | .Tokenizer => { s with tokenizer := th }
  | .Consumer => { s with consumer := th }

/-- A scheduling decision: thread `r` executes its next statement (`pick`
chooses the thread a `wakeOne` wakes), or thread `r` is woken from a `wait`
without a `wakeOne` (a spurious wake-up). -/
inductive Action
  | run (r : Role) (pick : Nat)
  | spurious (r : Role)
  deriving DecidableEq, Repr

/-- Remove a thread from the condition variable it is waiting on. -/
def LoadBuffer.dequeue (b : LoadBuffer) (cv : CondVar) (t : Role) : LoadBuffer :=
  b.setWaiters cv ((b.waiters cv).filter (fun w => w != t))

/-- Replace the buffer at a ring index. -/
def Pipeline.setBuf (s : Pipeline) (i : Nat) (b : LoadBuffer) : Pipeline :=
  { s with pool := s.pool.set i b }

/-- The role a scheduling decision is about. -/
def Action.role : Action → Role
  | .run r _ => r
  | .spurious r => r

/-- Modelled from the spec: one step of the pipeline. A role thread executes
the next statement of its round on the buffer at its cursor; after the last
statement of the round the cursor moves to the next buffer of the ring, modulo
the pool size. A spurious wake-up takes a thread that is inside `wait` out of
the queue of the condition variable and does nothing otherwise. -/
def Pipeline.step (s : Pipeline) : Action → Outcome Pipeline
  | .run r pick =>
    let th := s.thread r
    match s.pool[th.cursor]?, (roundCode r)[th.pc]? with
    | some b, some st =>
      match execStmt r pick st th.inWait b with
      | .done res =>
        let pc1 := if res.finished then th.pc + 1 else th.pc
        let th1 : ThreadState :=
          if pc1 < (roundCode r).length then ⟨th.cursor, pc1, res.inWait⟩
          else ⟨(th.cursor + 1) % s.pool.length, 0, false⟩
        .done ((s.setBuf th.cursor res.buf).setThread r th1)
      | .blocked => .blocked
      | .fault => .fault
    | _, _ => .fault
  | .spurious r =>
    let th := s.thread r
    match s.pool[th.cursor]?, (roundCode r)[th.pc]? with
    | some b, some (.waitUntil _ cv) =>
      if th.inWait then .done (s.setBuf th.cursor (b.dequeue cv r))
      else .done s
    | _, _ => .done s

/-- Run a schedule; `none` when some action of it cannot be taken. -/
def Pipeline.exec (s : Pipeline) : List Action → Option Pipeline
  | [] => some s
  | a :: rest =>
    match s.step a with
    | .done s1 => s1.exec rest
    | _ => none

/-- A buffer as constructed: `EMPTY`, mutex free, nobody waiting. -/
def LoadBuffer.isFresh (b : LoadBuffer) : Bool :=
  b.state == .LOADSTATE_EMPTY && b.mutex == none && b.consumptionComplete == [] &&
    b.loadingComplete == [] && b.parsingComplete == []

/-- A pipeline at start: a non-empty ring of fresh buffers, every thread about
to begin its first round on buffer 0. -/
def Pipeline.isInitial (s : Pipeline) : Bool :=
  s.pool != [] && s.pool.all LoadBuffer.isFresh &&
    s.loader == ⟨0, 0, false⟩ && s.tokenizer == ⟨0, 0, false⟩ && s.consumer == ⟨0, 0, false⟩

/-! ## What is observed of a state -/

/-- The value a statement writes to the lifecycle state, if it writes it. -/
def Stmt.written : Stmt → Option loadbufferstate_t
  | .assign v => some v
  | _ => none

/-- The condition variable a statement signals, if it signals one. -/
def Stmt.signalled : Stmt → Option CondVar
  | .wakeOne cv => some cv
  | _ => none

/-- The condition variable a statement waits on, if it waits. -/
def Stmt.waitedOn : Stmt → Option CondVar
  | .waitUntil _ cv => some cv
  | _ => none

/-- The role that may touch a buffer in a given lifecycle state. -/
def loadbufferstate_t.owner : loadbufferstate_t → Role
  | .LOADSTATE_EMPTY => .Loader
  | .LOADSTATE_LOADED => .Tokenizer
  | .LOADSTATE_TOKENIZED => .Consumer

/-- A role is at work on the buffer at its cursor: its begin-phase has returned
and its end-phase has not been called yet. -/
def Pipeline.working (s : Pipeline) (r : Role) : Prop :=
  (s.thread r).pc = (beginPhase r).length

instance (s : Pipeline) (r : Role) : Decidable (s.working r) := by
  unfold Pipeline.working; infer_instance

/-- A role holds buffer `i` between the return of its begin-phase and the
completion of its end-phase. -/
def Pipeline.atWork (s : Pipeline) (r : Role) (i : Nat) : Prop :=
  (s.thread r).cursor = i ∧ 2 ≤ (s.thread r).pc

instance (s : Pipeline) (r : Role) (i : Nat) : Decidable (s.atWork r i) := by
  unfold Pipeline.atWork; infer_instance

/-- A role is blocked in the wait of its begin-phase: it is inside `wait` and
still queued on its condition variable. -/
def Pipeline.asleep (s : Pipeline) (r : Role) : Bool :=
  (s.thread r).inWait &&
    match s.pool[(s.thread r).cursor]? with
    | some b => decide (r ∈ b.waiters r.waitsOn)
    | none => false

/-- The lifecycle value of the buffer at a ring index, if the index is in the ring. -/
def Pipeline.stateAt (s : Pipeline) (i : Nat) : Option loadbufferstate_t :=
  (s.pool[i]?).map (fun b => b.state)

/-! ## The events of a schedule -/

/-- What can be observed of the protocol on a buffer: the begin-phase of a role
has returned, or the end-phase of a role has completed. -/
inductive Event
  | beginReturned (r : Role) (buf : Nat)
  | endCompleted (r : Role) (buf : Nat)
  deriving DecidableEq, Repr

/-- The ring index of the buffer an event is about. -/
def Event.buf : Event → Nat
  | .beginReturned _ i => i
  | .endCompleted _ i => i

/-- The role whose end-phase an event completes on buffer `i`, if it is such
an event. -/
def Event.endedOn (i : Nat) : Event → Option Role
  | .beginReturned _ _ => none
  | .endCompleted r j => if j = i then some r else none

/-- The events of one step: the thread leaves its begin-phase, or it finishes
its end-phase and is back at the start of a round. -/
def Pipeline.eventsOf (s s1 : Pipeline) : Action → List Event
  | .spurious _ => []
  | .run r _ =>
    if (s.thread r).pc < (beginPhase r).length ∧ (s1.thread r).pc = (beginPhase r).length then
      [.beginReturned r (s.thread r).cursor]
    else if (beginPhase r).length ≤ (s.thread r).pc ∧ (s1.thread r).pc = 0 then
      [.endCompleted r (s.thread r).cursor]
    else []

/-- The events of a schedule, up to its first action that cannot be taken. -/
def Pipeline.trace (s : Pipeline) : List Action → List Event
  | [] => []
  | a :: rest =>
    match s.step a with
    | .done s1 => s.eventsOf s1 a ++ s1.trace rest
    | _ => []

/-- The roles in the order of the cycle: Loader, Tokenizer, Consumer, Loader, ... -/
def cycleRole (k : Nat) : Role :=
  match k % 3 with
  | 0 => .Loader
  | 1 => .Tokenizer
  | _ => .Consumer

/-- The events of buffer `i` in the order of the cycle: the Loader begins, the
Loader ends, the Tokenizer begins, the Tokenizer ends, the Consumer begins, the
Consumer ends, the Loader begins, ... -/
def cycleEvent (i k : Nat) : Event :=
  if k % 2 = 0 then .beginReturned (cycleRole (k / 2)) i
  else .endCompleted (cycleRole (k / 2)) i

/-! ## Invariants -/

/-- The moves of the pipeline, one constructor for each way in which
`Pipeline.step` takes effect: `lock` acquires the mutex; the loop test fails
and the thread enters `wait` (`sleep`) or succeeds (`pass`); a thread taken out
of the queue gets the mutex back (`relock`); the three statements of the
end-phase (`assign`, `wake`, `unlock`); a spurious wake-up, with effect
(`spurious`) or without (`stutter`). -/
inductive Trans (s : Pipeline) : Action → Pipeline → Prop
  | lock (r : Role) (pick : Nat) (b : LoadBuffer) (hb : s.pool[(s.thread r).cursor]? = some b)
      (hpc : (s.thread r).pc = 0) (hm : b.mutex = none) :
      Trans s (.run r pick) ((s.setBuf (s.thread r).cursor { b with mutex := some r }).setThread r
        ⟨(s.thread r).cursor, 1, false⟩)
  | sleep (r : Role) (pick : Nat) (b : LoadBuffer) (hb : s.pool[(s.thread r).cursor]? = some b)
      (hpc : (s.thread r).pc = 1) (hw : (s.thread r).inWait = false)
      (hs : b.state ≠ r.awaited) (hm : b.mutex = some r) :
      Trans s (.run r pick) ((s.setBuf (s.thread r).cursor
        { b.setWaiters r.waitsOn (r :: b.waiters r.waitsOn) with mutex := none }).setThread r
        ⟨(s.thread r).cursor, 1, true⟩)
  | pass (r : Role) (pick : Nat) (b : LoadBuffer) (hb : s.pool[(s.thread r).cursor]? = some b)
      (hpc : (s.thread r).pc = 1) (hw : (s.thread r).inWait = false)
      (hs : b.state = r.awaited) :
      Trans s (.run r pick) ((s.setBuf (s.thread r).cursor b).setThread r
        ⟨(s.thread r).cursor, 2, false⟩)
  | relock (r : Role) (pick : Nat) (b : LoadBuffer) (hb : s.pool[(s.thread r).cursor]? = some b)
      (hpc : (s.thread r).pc = 1) (hw : (s.thread r).inWait = true)
      (hn : r ∉ b.waiters r.waitsOn) (hm : b.mutex = none) :
      Trans s (.run r pick) ((s.setBuf (s.thread r).cursor { b with mutex := some r }).setThread r
        ⟨(s.thread r).cursor, 1, false⟩)
  | assign (r : Role) (pick : Nat) (b : LoadBuffer) (hb : s.pool[(s.thread r).cursor]? = some b)
      (hpc : (s.thread r).pc = 2) :
      Trans s (.run r pick) ((s.setBuf (s.thread r).cursor
        { b with state := r.published }).setThread r ⟨(s.thread r).cursor, 3, false⟩)
  | wake (r : Role) (pick : Nat) (b : LoadBuffer) (hb : s.pool[(s.thread r).cursor]? = some b)
      (hpc : (s.thread r).pc = 3) :
      Trans s (.run r pick) ((s.setBuf (s.thread r).cursor
        (b.setWaiters r.signals
          ((b.waiters r.signals).eraseIdx (pick % (b.waiters r.signals).length)))).setThread r
        ⟨(s.thread r).cursor, 4, false⟩)
  | unlock (r : Role) (pick : Nat) (b : LoadBuffer) (hb : s.pool[(s.thread r).cursor]? = some b)
      (hpc : (s.thread r).pc = 4) (hm : b.mutex = some r) :
      Trans s (.run r pick) ((s.setBuf (s.thread r).cursor { b with mutex := none }).setThread r
        ⟨((s.thread r).cursor + 1) % s.pool.length, 0, false⟩)
  | spurious (r : Role) (b : LoadBuffer) (hb : s.pool[(s.thread r).cursor]? = some b)
      (hpc : (s.thread r).pc = 1) (hw : (s.thread r).inWait = true) :
      Trans s (.spurious r) (s.setBuf (s.thread r).cursor (b.dequeue r.waitsOn r))
  | stutter (r : Role) : Trans s (.spurious r) s

/-- What holds of a buffer of the ring in every reachable state: the mutex is
held exactly by a thread that is on this buffer past its `lock` and not inside
`wait`; a thread between its two phases sees the value it waited for; a thread
inside its end-phase, past the assignment, sees the value it wrote; a thread
queued on a condition variable is inside the `wait` of its begin-phase on this
buffer; and no queue holds more than one thread. -/
structure BufOk (s : Pipeline) (i : Nat) (b : LoadBuffer) : Prop where
  mutex : ∀ r, b.mutex = some r ↔
    ((s.thread r).cursor = i ∧ (s.thread r).inWait = false ∧ 1 ≤ (s.thread r).pc)
  awaited : ∀ r, (s.thread r).cursor = i → (s.thread r).pc = 2 → b.state = r.awaited
  published : ∀ r, (s.thread r).cursor = i → 3 ≤ (s.thread r).pc → b.state = r.published
  waiters : ∀ r cv, r ∈ b.waiters cv →
    (s.thread r).cursor = i ∧ (s.thread r).pc = 1 ∧ (s.thread r).inWait = true ∧ cv = r.waitsOn
  short : ∀ cv, (b.waiters cv).length ≤ 1

/-- The invariant of the pipeline. -/
structure Inv (s : Pipeline) : Prop where
  pos : 0 < s.pool.length
  thr : ∀ r, (s.thread r).cursor < s.pool.length ∧ (s.thread r).pc < 5 ∧
    ((s.thread r).inWait = true → (s.thread r).pc = 1)
  buf : ∀ i b, s.pool[i]? = some b → BufOk s i b

/-- No wake-up is lost: a thread queued on a condition variable while the
lifecycle already has the value it waits for is about to be woken, the thread
that wrote the value being at its `wakeOne` on the same buffer. -/
def NoLostWakeup (s : Pipeline) : Prop :=
  ∀ r b, s.pool[(s.thread r).cursor]? = some b → r ∈ b.waiters r.waitsOn →
    b.state = r.awaited →
    ∃ p, p.signals = r.waitsOn ∧ (s.thread p).cursor = (s.thread r).cursor ∧ (s.thread p).pc = 3

/-- The lifecycle value of the buffer of fill number `m` when `l` buffers have
been published as loaded and `t` as tokenized. -/
def ringState (l t m : Nat) : loadbufferstate_t :=
  if m < t then .LOADSTATE_TOKENIZED
  else if m < l then .LOADSTATE_LOADED
  else .LOADSTATE_EMPTY

/-- The cursor of a role that has published `k` times: it moves on when the
end-phase is completed, after the assignment. -/
def Pipeline.cursorAt (s : Pipeline) (r : Role) (k : Nat) : Prop :=
  if 3 ≤ (s.thread r).pc then 1 ≤ k ∧ (s.thread r).cursor = (k - 1) % s.pool.length
  else (s.thread r).cursor = k % s.pool.length

/-- The ring invariant: `l`, `t` and `c` count the assignments made so far by
the Loader, the Tokenizer and the Consumer. -/
structure Ring (s : Pipeline) (l t c : Nat) : Prop where
  ct : c ≤ t
  tl : t ≤ l
  lc : l ≤ c + s.pool.length
  loader : s.cursorAt .Loader l
  tokenizer : s.cursorAt .Tokenizer t
  consumer : s.cursorAt .Consumer c
  states : ∀ m, c ≤ m → m < c + s.pool.length →
    s.stateAt (m % s.pool.length) = some (ringState l t m)

/-- The position of a role in the cycle. -/
def Role.idx : Role → Nat
  | .Loader => 0
  | .Tokenizer => 1
  | .Consumer => 2

/-- How far buffer `i` is in its cycle, as the index of its next event. -/
def Pipeline.phase (s : Pipeline) (i : Nat) : Nat :=
  if s.atWork .Loader i then 1
  else if s.atWork .Tokenizer i then 3
  else if s.atWork .Consumer i then 5
  else
    match s.stateAt i with
    | some st => 2 * st.owner.idx
    | none => 0

/-! ## Concrete states -/

/-- A buffer as the constructor leaves it, with a capacity of 16 bytes. -/
def demoBuffer : LoadBuffer :=
  ⟨0, 0, 0, 16, 0, 0, false, 0, .LOADSTATE_EMPTY, none, [], [], [], false⟩

/-- A ring of two buffers with the three threads at the start of their first round. -/
def demoPipeline : Pipeline :=
  ⟨[demoBuffer, demoBuffer], ⟨0, 0, false⟩, ⟨0, 0, false⟩, ⟨0, 0, false⟩⟩

/-- Buffer 0 of the demo ring while the Loader holds it. -/
def demoHeld : LoadBuffer :=
  { demoBuffer with mutex := some .Loader }

/-- Buffer 0 of the demo ring after the Loader has written `LOADED`. -/
def demoLoaded : LoadBuffer :=
  { demoBuffer with mutex := some .Loader, state := .LOADSTATE_LOADED }

/-- The demo ring after the Loader has passed its begin-phase on buffer 0. -/
def demoLoaderAtWork : Pipeline :=
  ⟨[demoHeld, demoBuffer], ⟨0, 2, false⟩, ⟨0, 0, false⟩, ⟨0, 0, false⟩⟩

/-- The demo ring after the Loader has written `LOADED` to buffer 0. -/
def demoLoaderAssigned : Pipeline :=
  ⟨[demoLoaded, demoBuffer], ⟨0, 3, false⟩, ⟨0, 0, false⟩, ⟨0, 0, false⟩⟩

/-- The demo ring with the Loader at the loop test of its begin-phase, holding
buffer 0. -/
def demoLoaderAtTest : Pipeline :=
  ⟨[demoHeld, demoBuffer], ⟨0, 1, false⟩, ⟨0, 0, false⟩, ⟨0, 0, false⟩⟩

/-- The demo ring after the Tokenizer has found buffer 0 `EMPTY` and gone to
sleep on `loadingComplete`. -/
def demoTokenizerAsleep : Pipeline :=
  ⟨[{ demoBuffer with loadingComplete := [.Tokenizer] }, demoBuffer],
    ⟨0, 0, false⟩, ⟨0, 1, true⟩, ⟨0, 0, false⟩⟩

/-- The demo ring with the Loader at its `wakeOne` on buffer 0 and the Tokenizer
asleep on `loadingComplete` of that buffer. -/
def demoLoaderSignals : Pipeline :=
  ⟨[{ demoLoaded with loadingComplete := [.Tokenizer] }, demoBuffer],
    ⟨0, 3, false⟩, ⟨0, 1, true⟩, ⟨0, 0, false⟩⟩

/-- A schedule that takes the demo ring to `demoLoaderSignals`. -/
def demoSignalSchedule : List Action :=
  [.run .Tokenizer 0, .run .Tokenizer 0, .run .Loader 0, .run .Loader 0, .run .Loader 0]

/-- A schedule in which the Loader and then the Tokenizer complete a round on
buffer 0 and the Consumer passes its begin-phase and writes `EMPTY`. -/
def demoRoundSchedule : List Action :=
  [.run .Loader 0, .run .Loader 0, .run .Loader 0, .run .Loader 0, .run .Loader 0,
    .run .Tokenizer 0, .run .Tokenizer 0, .run .Tokenizer 0, .run .Tokenizer 0,
    .run .Tokenizer 0, .run .Consumer 0, .run .Consumer 0, .run .Consumer 0]


/-- The ring index of the buffer on which an event completes the end-phase of
role `r`, if it is such an event. -/
def Event.endOf (r : Role) : Event → Option Nat
  | .beginReturned _ _ => none
  | .endCompleted q j => if q = r then some j else none

/-- The rounds a role completes along a schedule: the ring indices of the
buffers of its completed end-phases, in order. -/
def Pipeline.rounds (s : Pipeline) (r : Role) (acts : List Action) : List Nat :=
  (s.trace acts).filterMap (Event.endOf r)


/-! ## The settings: `misc/setting.h` and `misc/setting.cpp` -/

/-- What `setting.cpp` takes from headers and libraries that are not part of
the sources: the error numbers of `misc/errors.h`, the constants of
`misc/traceshark.h`, `translate_FileError`, the screen, and the conversions
`QObject::tr`, `QString::number` and `QString::toInt` (`none` when the
conversion sets `ok` to false). -/
structure SettingEnv where
  TS_ERROR_UNSPEC : Int
  TS_ERROR_EOF : Int
  TS_ERROR_FILEFORMAT : Int
  TS_ERROR_NEWFORMAT : Int
  TS_ERROR_INTERNAL : Int
  MAX_LINE_WIDTH_OPENGL : Int
  DEFAULT_LINE_WIDTH_OPENGL : Int
  DEFAULT_LINE_WIDTH : Int
  MAX_NR_MIGRATIONS : Int
  has_opengl : Bool
  desktopWidth : Int
  desktopHeight : Int
  translate_FileError : Nat → Int
  tr : String → String
  number : Int → String
  toInt : String → Option Int

/-- The class `SettingDependency`. -/
structure SettingDependency where
  index : Int
  desiredValue : Bool
  deriving DecidableEq, Repr

/-- The non-static members of `class Setting`. -/
structure Setting where
  enabled : Bool
  name : String
  dependency : List SettingDependency
  dependent : List SettingDependency
  nrDep : Nat
  nrDependents : Nat
  deriving DecidableEq, Repr

/-- The length of the arrays `dependency` and `dependent`, which is what
`sizeof(settings[idx].dependency) / sizeof(SettingDependency)` evaluates to. -/
def Setting.arrayLength : Nat := 4

/-- The constructor `Setting::Setting()`. -/
def Setting.new : Setting :=
  { enabled := true, name := "",
    dependency := List.replicate Setting.arrayLength ⟨0, false⟩,
    dependent := List.replicate Setting.arrayLength ⟨0, false⟩,
    nrDep := 0, nrDependents := 0 }

/-! The values of `enum SettingIndex`. -/

/-- The enumerator `SHOW_SCHED_GRAPHS`. -/
def Setting.SHOW_SCHED_GRAPHS : Int := 0
/-- The enumerator `HORIZONTAL_WAKEUP`. -/
def Setting.HORIZONTAL_WAKEUP : Int := 1
/-- The enumerator `VERTICAL_WAKEUP`. -/
def Setting.VERTICAL_WAKEUP : Int := 2
/-- The enumerator `SHOW_CPUFREQ_GRAPHS`. -/
def Setting.SHOW_CPUFREQ_GRAPHS : Int := 3
/-- The enumerator `SHOW_CPUIDLE_GRAPHS`. -/
def Setting.SHOW_CPUIDLE_GRAPHS : Int := 4
/-- The enumerator `SHOW_MIGRATION_GRAPHS`. -/
def Setting.SHOW_MIGRATION_GRAPHS : Int := 5
/-- The enumerator `SHOW_MIGRATION_UNLIMITED`. -/
def Setting.SHOW_MIGRATION_UNLIMITED : Int := 6
/-- The enumerator `NR_SETTINGS`. -/
def Setting.NR_SETTINGS : Int := 7
/-- The enumerator `OPENGL_ENABLED`. -/
def Setting.OPENGL_ENABLED : Int := 8
/-- The enumerator `LINE_WIDTH`. -/
def Setting.LINE_WIDTH : Int := 9
/-- The enumerator `END_SETTINGS`. -/
def Setting.END_SETTINGS : Int := 10

/-- The static members of `class Setting`: the array `settings[NR_SETTINGS]`,
`line_width`, `opengl`, and `fileKeyMap`, a `QMap` kept as the list of its
entries in the order of the keys. -/
structure Settings where
  settings : List Setting
  line_width : Int
  opengl : Bool
  fileKeyMap : List (String × Int)
  deriving DecidableEq, Repr

/-- The static member `this_version`. -/
def Setting.this_version : Int := 1

/-- The macro `TRACESHARK_VERSION_KEY`. -/
def TRACESHARK_VERSION_KEY : String := "TRACESHARK_FILE_VERSION"

/-- The static members as the definitions of `setting.cpp` initialise them. -/
def Settings.initial : Settings :=
  { settings := List.replicate Setting.NR_SETTINGS.toNat Setting.new,
    line_width := 0, opengl := false, fileKeyMap := [] }

/-- Apply a function to the element of a list at an index. -/
def updateAt {α : Type} (f : α → α) : List α → Nat → List α
  | [], _ => []
  | a :: rest, 0 => f a :: rest
  | a :: rest, n + 1 => a :: updateAt f rest n

/-- Read `settings[idx]`. -/
def Settings.get (st : Settings) (idx : Int) : Setting :=
  if 0 ≤ idx then st.settings.getD idx.toNat Setting.new else Setting.new

/-- Write to `settings[idx]`. An index outside the array leaves the model
unchanged. -/
def Settings.modify (st : Settings) (idx : Int) (f : Setting → Setting) : Settings :=
  if 0 ≤ idx then { st with settings := updateAt f st.settings idx.toNat } else st

/-- The order of `QString`: the first difference decides, and a proper
initial part comes first. -/
def QString.lt : List Char → List Char → Bool
  | [], [] => false
  | [], _ :: _ => true
  | _ :: _, [] => false
  | c :: s, d :: t =>
    if c.toNat < d.toNat then true
    else if d.toNat < c.toNat then false
    else QString.lt s t

/-- The assignment `map[key] = idx` of a `QMap`: the entry of the key is
replaced, or a new entry is put at its place in the order of the keys. -/
def QMap.insert (key : String) (idx : Int) : List (String × Int) → List (String × Int)
  | [] => [(key, idx)]
  | (k, v) :: rest =>
    if key = k then (key, idx) :: rest
    else if QString.lt key.data k.data then (key, idx) :: (k, v) :: rest
    else (k, v) :: QMap.insert key idx rest

/-- The lookup `map.find(key)` of a `QMap`; `none` stands for `end()`. -/
def QMap.find (key : String) : List (String × Int) → Option Int
  | [] => none
  | (k, v) :: rest => if key = k then some v else QMap.find key rest

/-- The function `Setting::isLowResScreen`. -/
def Setting.isLowResScreen (E : SettingEnv) : Bool :=
  decide (E.desktopWidth < 1700) && decide (E.desktopHeight < 1220)

/-- The function `Setting::isWideScreen`. -/
def Setting.isWideScreen (E : SettingEnv) : Bool :=
  decide (E.desktopWidth > 1800)

/-- The function `Setting::setName`. -/
def Setting.setName (st : Settings) (idx : Int) (n : String) : Settings :=
  st.modify idx (fun s => { s with name := n })

/-- The function `Setting::setEnabled`. -/
def Setting.setEnabled (st : Settings) (idx : Int) (e : Bool) : Settings :=
  st.modify idx (fun s => { s with enabled := e })

/-- The function `Setting::clearDependencies`. -/
def Setting.clearDependencies (st : Settings) (idx : Int) : Settings :=
  st.modify idx (fun s => { s with nrDep := 0 })

/-- The function `Setting::addDependency`. -/
def Setting.addDependency (st : Settings) (idx : Int) (d : SettingDependency) : Settings :=
  let nrDep := (st.get idx).nrDep
  if nrDep ≥ Setting.arrayLength then st
  else
    let st1 := st.modify idx
      (fun s => { s with dependency := s.dependency.set nrDep d, nrDep := nrDep + 1 })
    let dy : SettingDependency := { index := idx, desiredValue := d.desiredValue }
    let nrDependents := (st1.get d.index).nrDependents
    if nrDependents ≥ Setting.arrayLength then st1
    else
      st1.modify d.index
        (fun s => { s with dependent := s.dependent.set nrDependents dy,
                           nrDependents := nrDependents + 1 })

/-- The function `Setting::getNrDependencies`. -/
def Setting.getNrDependencies (st : Settings) (idx : Int) : Nat :=
  (st.get idx).nrDep

/-- The function `Setting::getNrDependents`. -/
def Setting.getNrDependents (st : Settings) (idx : Int) : Nat :=
  (st.get idx).nrDependents

/-- The function `Setting::getName`. -/
def Setting.getName (st : Settings) (idx : Int) : String :=
  (st.get idx).name

/-- The function `Setting::isEnabled`. -/
def Setting.isEnabled (st : Settings) (idx : Int) : Bool :=
  (st.get idx).enabled

/-- The function `Setting::getDependency`. -/
def Setting.getDependency (st : Settings) (idx : Int) (nr : Nat) : SettingDependency :=
  (st.get idx).dependency.getD nr ⟨0, false⟩

/-- The function `Setting::getDependent`. -/
def Setting.getDependent (st : Settings) (idx : Int) (nr : Nat) : SettingDependency :=
  (st.get idx).dependent.getD nr ⟨0, false⟩

/-- The function `Setting::setLineWidth`. -/
def Setting.setLineWidth (st : Settings) (width : Int) : Settings :=
  { st with line_width := width }

/-- The function `Setting::getLineWidth`. -/
def Setting.getLineWidth (st : Settings) : Int :=
  st.line_width

/-- The function `Setting::isOpenGLEnabled`. -/
def Setting.isOpenGLEnabled (st : Settings) : Bool :=
  st.opengl

/-- The function `Setting::setOpenGLEnabled`. -/
def Setting.setOpenGLEnabled (st : Settings) (e : Bool) : Settings :=
  { st with opengl := e }

/-- The function `Setting::setKey`. -/
def Setting.setKey (st : Settings) (idx : Int) (key : String) : Settings :=
  { st with fileKeyMap := QMap.insert key idx st.fileKeyMap }

/-- The function `Setting::setOpenGLEnabledKey`. -/
def Setting.setOpenGLEnabledKey (st : Settings) (key : String) : Settings :=
  Setting.setKey st Setting.OPENGL_ENABLED key

/-- The function `Setting::setLineWidthKey`. -/
def Setting.setLineWidthKey (st : Settings) (key : String) : Settings :=
  Setting.setKey st Setting.LINE_WIDTH key

/-- The function `Setting::setupSettings`. -/
def Setting.setupSettings (E : SettingEnv) (st : Settings) : Settings :=
  let schedDep : SettingDependency :=
    { index := Setting.SHOW_SCHED_GRAPHS, desiredValue := true }
  let unlimitedDep : SettingDependency :=
    { index := Setting.SHOW_MIGRATION_GRAPHS, desiredValue := true }
  let st := Setting.setName st Setting.HORIZONTAL_WAKEUP (E.tr "Show horizontal wakeup")
  let st := Setting.setKey st Setting.HORIZONTAL_WAKEUP "HORIZONTAL_WAKEUP"
  let st := Setting.setEnabled st Setting.HORIZONTAL_WAKEUP false
  let st := Setting.addDependency st Setting.HORIZONTAL_WAKEUP schedDep
  let st := Setting.setName st Setting.VERTICAL_WAKEUP (E.tr "Show vertical wakeup")
  let st := Setting.setKey st Setting.VERTICAL_WAKEUP "VERTICAL_WAKEUP"
  let st := Setting.setEnabled st Setting.VERTICAL_WAKEUP true
  let st := Setting.addDependency st Setting.VERTICAL_WAKEUP schedDep
  let st := Setting.setName st Setting.SHOW_SCHED_GRAPHS (E.tr "Show scheduling graphs")
  let st := Setting.setKey st Setting.SHOW_SCHED_GRAPHS "SHOW_SCHED_GRAPHS"
  let st := Setting.setEnabled st Setting.SHOW_SCHED_GRAPHS true
  let st := Setting.setName st Setting.SHOW_CPUFREQ_GRAPHS (E.tr "Show CPU frequency graphs")
  let st := Setting.setKey st Setting.SHOW_CPUFREQ_GRAPHS "SHOW_CPUFREQ_GRAPHS"
  let st := Setting.setEnabled st Setting.SHOW_CPUFREQ_GRAPHS true
  let st := Setting.setName st Setting.SHOW_CPUIDLE_GRAPHS (E.tr "Show CPU idle graphs")
  let st := Setting.setKey st Setting.SHOW_CPUIDLE_GRAPHS "SHOW_CPUIDLE_GRAPHS"
  let st := Setting.setEnabled st Setting.SHOW_CPUIDLE_GRAPHS true
  let maxstr := E.number (Int.tdiv E.MAX_NR_MIGRATIONS 1000)
  let maxstr := maxstr ++ "k"
  let st := Setting.setName st Setting.SHOW_MIGRATION_GRAPHS
    (E.tr "Show migrations if < " ++ maxstr)
  let st := Setting.setKey st Setting.SHOW_MIGRATION_GRAPHS "SHOW_MIGRATION_GRAPHS"
  let st := Setting.setEnabled st Setting.SHOW_MIGRATION_GRAPHS true
  let st := Setting.setName st Setting.SHOW_MIGRATION_UNLIMITED (E.tr "Unlimited migrations")
  let st := Setting.setKey st Setting.SHOW_MIGRATION_UNLIMITED "SHOW_MIGRATION_UNLIMITED"
  let st := Setting.setEnabled st Setting.SHOW_MIGRATION_UNLIMITED false
  let st := Setting.addDependency st Setting.SHOW_MIGRATION_UNLIMITED unlimitedDep
  let opengl := E.has_opengl && !Setting.isLowResScreen E
  let width := if opengl then E.DEFAULT_LINE_WIDTH_OPENGL else E.DEFAULT_LINE_WIDTH
  let st := Setting.setOpenGLEnabled st opengl
  let st := Setting.setOpenGLEnabledKey st "OPENGL_ENABLED"
  let st := Setting.setLineWidth st width
  Setting.setLineWidthKey st "SCHED_GRAPH_LINE_WIDTH"


/-! ### Reading and writing the settings file -/

/-- The character that ends a line. -/
def newline : Char := Char.ofNat 10

/-- The character at which a line is split into key and value. -/
def blank : Char := Char.ofNat 32

/-- The pieces of `QString::split(' ', QString::SkipEmptyParts)`: `cur` is the
piece collected so far. -/
def splitAux : List Char → List Char → List String
  | cur, [] => if cur = [] then [] else [String.mk cur]
  | cur, c :: rest =>
    if c = blank then
      if cur = [] then splitAux [] rest else String.mk cur :: splitAux [] rest
    else splitAux (cur ++ [c]) rest

/-- The call `line.split(' ', QString::SkipEmptyParts)`. -/
def QString.split (line : String) : List String :=
  splitAux [] line.data

/-- The call `stream.readLine()` of a `QTextStream`, given as the characters
still to be read: the line without its end, and the stream after it. -/
def QTextStream.readLine (stream : List Char) : String × List Char :=
  (String.mk (stream.takeWhile (fun c => c != newline)),
    (stream.dropWhile (fun c => c != newline)).tail)

/-- The call `stream.atEnd()`. -/
def QTextStream.atEnd (stream : List Char) : Bool :=
  stream.isEmpty

/-- The settings file as `QFile` finds it: it does not exist, it cannot be
opened and `file.error()` is the given code (0 for `NoError`), or it can be
read and has the given text. -/
inductive QFile
  | missing
  | unreadable (error : Nat)
  | readable (text : String)
  deriving DecidableEq, Repr

/-- How the file system answers `saveSettings`: whether `open` fails, and if
so with which `file.error()`, and the `file.error()` after the flush (0 for
`NoError`). -/
structure QFileWrite where
  openFails : Option Nat
  errorAfterFlush : Nat
  deriving DecidableEq, Repr

/-- The function `Setting::boolToQString`. -/
def Setting.boolToQString (b : Bool) : String :=
  if b then "true" else "false"

/-- The function `Setting::boolFromValue`: the value of `*ok` and the result. -/
def Setting.boolFromValue (value : String) : Bool × Bool :=
  if value = "true" ∨ value = "TRUE" then (true, true)
  else if value = "false" ∨ value = "FALSE" then (true, false)
  else (false, false)

/-- The function `Setting::isIrregularIndex`. -/
def Setting.isIrregularIndex (idx : Int) : Bool :=
  decide (idx > Setting.NR_SETTINGS) && decide (idx < Setting.END_SETTINGS)

/-- The function `Setting::isRegularIndex`. -/
def Setting.isRegularIndex (idx : Int) : Bool :=
  decide (idx ≥ 0) && decide (idx < Setting.NR_SETTINGS)

/-- The function `Setting::handleRegularIndex`. -/
def Setting.handleRegularIndex (st : Settings) (idx : Int) (value : String) : Settings :=
  let (ok, enabled) := Setting.boolFromValue value
  if ok then st.modify idx (fun s => { s with enabled := enabled }) else st

/-- The function `Setting::handleIrregularIndex`. -/
def Setting.handleIrregularIndex (E : SettingEnv) (st : Settings) (idx : Int)
    (value : String) : Settings :=
  if idx = Setting.OPENGL_ENABLED then
    let (ok, enabled) := Setting.boolFromValue value
    if ok then { st with opengl := enabled } else st
  else if idx = Setting.LINE_WIDTH then
    match E.toInt value with
    | some width =>
      if width ≥ 1 ∧ width ≤ E.MAX_LINE_WIDTH_OPENGL then { st with line_width := width }
      else st
    | none => st
  else st

/-- The function `Setting::handleOlderVersion`. -/
def Setting.handleOlderVersion (E : SettingEnv) (_oldver _newver : Int) : Int :=
  -E.TS_ERROR_INTERNAL

/-- The loop `do { lineList = line.split(...); } while (lineList.size() == 0 &&
!stream.atEnd());` of `readKeyValuePair`, run for at most `fuel` rounds: the
list it leaves, or `none` when the loop is still running after `fuel` rounds.
Neither `line` nor the stream is changed by the body. -/
def Setting.splitLoop (line : String) (stream : List Char) : Nat → Option (List String)
  | 0 => none
  | fuel + 1 =>
    let lineList := QString.split line
    if lineList.length = 0 ∧ ¬ QTextStream.atEnd stream then
      Setting.splitLoop line stream fuel
    else some lineList

/-- The function `Setting::readKeyValuePair`: the return value, the stream, and
`key` and `value` afterwards; `none` when its loop is still running after
`fuel` rounds. -/
def Setting.readKeyValuePair (E : SettingEnv) (fuel : Nat) (stream : List Char)
    (key value : String) : Option (Int × List Char × String × String) :=
  let (line, stream) := QTextStream.readLine stream
  match Setting.splitLoop line stream fuel with
  | none => none
  | some lineList =>
    if lineList.length ≠ 2 then some (-E.TS_ERROR_FILEFORMAT, stream, key, value)
    else some (0, stream, lineList.getD 0 "", lineList.getD 1 "")

/-- How the loop `while (!stream.atEnd())` of `loadSettings` ends: with a
`return` from its body, or by its condition, with `rval` as it is then. -/
inductive LoadLoopEnd
  | returned (rval : Int) (st : Settings)
  | finished (rval : Int) (st : Settings)
  deriving DecidableEq, Repr

/-- The loop `while (!stream.atEnd())` of `loadSettings`, for at most `fuel`
rounds; `none` when it, or a call it makes, is still running after that. -/
def Setting.loadLoop (E : SettingEnv) : Nat → Settings → List Char → String → String → Int →
    Option LoadLoopEnd
  | 0, _, _, _, _, _ => none
  | fuel + 1, st, stream, key, value, rval =>
    if QTextStream.atEnd stream then some (.finished rval st)
    else
      match Setting.readKeyValuePair E (fuel + 1) stream key value with
      | none => none
      | some (rval, stream, key, value) =>
        if rval ≠ 0 then some (.returned rval st)
        else
          match QMap.find key st.fileKeyMap with
          | none => Setting.loadLoop E fuel st stream key value rval
          | some idx =>
            if Setting.isIrregularIndex idx then
              Setting.loadLoop E fuel (Setting.handleIrregularIndex E st idx value)
                stream key value rval
            else if Setting.isRegularIndex idx then
              Setting.loadLoop E fuel (Setting.handleRegularIndex st idx value)
                stream key value rval
            else some (.returned (-E.TS_ERROR_INTERNAL) st)

/-- The function `Setting::loadSettings`: the return value and the static
members afterwards; `none` when it is still running after `fuel` rounds of
each of its loops. -/
def Setting.loadSettings (E : SettingEnv) (fuel : Nat) (st : Settings) (file : QFile) :
    Option (Int × Settings) :=
  match file with
  | .missing => some (0, st)
  | .unreadable error =>
    if error ≠ 0 then some (-E.translate_FileError error, st)
    else some (-E.TS_ERROR_UNSPEC, st)
  | .readable text =>
    let stream := text.data
    if ¬ QTextStream.atEnd stream then
      match Setting.readKeyValuePair E fuel stream "" "" with
      | none => none
      | some (rval, stream, key, value) =>
        if rval ≠ 0 then some (rval, st)
        else if key ≠ TRACESHARK_VERSION_KEY then some (-E.TS_ERROR_FILEFORMAT, st)
        else
          match E.toInt value with
          | none => some (-E.TS_ERROR_FILEFORMAT, st)
          | some version =>
            if version > Setting.this_version then some (-E.TS_ERROR_NEWFORMAT, st)
            else
              match Setting.loadLoop E fuel st stream key value rval with
              | none => none
              | some (.returned rval st) => some (rval, st)
              | some (.finished rval st) =>
                if version < Setting.this_version then
                  some (Setting.handleOlderVersion E version Setting.this_version, st)
                else some (rval, st)
    else some (-E.TS_ERROR_EOF, st)

/-- The lines that the loop of `saveSettings` writes for the entries of
`fileKeyMap`. -/
def Setting.saveEntries (E : SettingEnv) (st : Settings) : List (String × Int) → String
  | [] => ""
  | (key, idx) :: rest =>
    (if idx ≥ 0 ∧ idx < Setting.NR_SETTINGS then
      key ++ " " ++ Setting.boolToQString (st.get idx).enabled ++ "\n"
    else if idx = Setting.OPENGL_ENABLED then
      key ++ " " ++ Setting.boolToQString st.opengl ++ "\n"
    else if idx = Setting.LINE_WIDTH then
      key ++ " " ++ E.number st.line_width ++ "\n"
    else "") ++ Setting.saveEntries E st rest

/-- The function `Setting::saveSettings`: the return value and the text
written to the file, if the file was opened. -/
def Setting.saveSettings (E : SettingEnv) (st : Settings) (w : QFileWrite) :
    Int × Option String :=
  match w.openFails with
  | some error =>
    if error ≠ 0 then (-E.translate_FileError error, none)
    else (-E.TS_ERROR_UNSPEC, none)
  | none =>
    let text := TRACESHARK_VERSION_KEY ++ " " ++ E.number Setting.this_version ++ "\n" ++
      Setting.saveEntries E st st.fileKeyMap
    if w.errorAfterFlush ≠ 0 then (-E.translate_FileError w.errorAfterFlush, some text)
    else (0, some text)

/-- A key or a value as it stands in a line of the settings file: not empty,
and free of blanks and line ends. -/
def IsToken (s : String) : Prop :=
  s.data ≠ [] ∧ ∀ c ∈ s.data, c ≠ blank ∧ c ≠ newline

instance (s : String) : Decidable (IsToken s) := by
  unfold IsToken; infer_instance

/-- The map that `setupSettings` builds from the empty one. -/
def setupKeyMap : List (String × Int) :=
  [("HORIZONTAL_WAKEUP", 1), ("OPENGL_ENABLED", 8), ("SCHED_GRAPH_LINE_WIDTH", 9),
    ("SHOW_CPUFREQ_GRAPHS", 3), ("SHOW_CPUIDLE_GRAPHS", 4), ("SHOW_MIGRATION_GRAPHS", 5),
    ("SHOW_MIGRATION_UNLIMITED", 6), ("SHOW_SCHED_GRAPHS", 0), ("VERTICAL_WAKEUP", 2)]

/-- The value `saveSettings` writes for an index of the key map. -/
def Setting.savedValue (E : SettingEnv) (st : Settings) (idx : Int) : String :=
  if idx ≥ 0 ∧ idx < Setting.NR_SETTINGS then Setting.boolToQString (st.get idx).enabled
  else if idx = Setting.OPENGL_ENABLED then Setting.boolToQString st.opengl
  else E.number st.line_width

/-- An index for which `saveSettings` writes a line. -/
def Setting.isSaved (idx : Int) : Prop :=
  (idx ≥ 0 ∧ idx < Setting.NR_SETTINGS) ∨ idx = Setting.OPENGL_ENABLED ∨
    idx = Setting.LINE_WIDTH

/-- What the loop of `loadSettings` makes of the lines written for a list of
entries: each value is handed to the handler of its index. -/
def Setting.restore (E : SettingEnv) (S : Settings) : List (String × Int) → Settings → Settings
  | [], st => st
  | (_, idx) :: rest, st =>
    Setting.restore E S rest
      (if Setting.isIrregularIndex idx then
        Setting.handleIrregularIndex E st idx (Setting.savedValue E S idx)
      else Setting.handleRegularIndex st idx (Setting.savedValue E S idx))

instance (idx : Int) : Decidable (Setting.isSaved idx) := by
  unfold Setting.isSaved; infer_instance

/-- The static members with every `enabled`, and `opengl`, taken from `S`, and
`line_width` as the handler of `LINE_WIDTH` leaves it. -/
def Setting.restored (E : SettingEnv) (S st : Settings) : Settings :=
  Setting.restore E S setupKeyMap st

/-- The decimal digit of the units of a number. -/
def digitChar (n : Nat) : Char := Char.ofNat (48 + n % 10)

/-- The decimal digits of a number, most significant first. -/
def natDigits : Nat → Nat → List Char
  | 0, _ => []
  | fuel + 1, n => if n < 10 then [digitChar n] else natDigits fuel (n / 10) ++ [digitChar n]

/-- A decimal `QString::number` for the concrete environment. -/
def demoNumber (i : Int) : String :=
  if i < 0 then String.mk ('-' :: natDigits 20 i.natAbs) else String.mk (natDigits 20 i.natAbs)

/-- The value of a string of decimal digits, `none` if it is empty or holds
another character. -/
def parseDigits : List Char → Option Nat → Option Nat
  | [], acc => acc
  | c :: cs, acc =>
    if 48 ≤ c.toNat ∧ c.toNat ≤ 57 then
      parseDigits cs (some (acc.getD 0 * 10 + (c.toNat - 48)))
    else none

/-- A decimal `QString::toInt` for the concrete environment. -/
def demoToInt (s : String) : Option Int :=
  match s.data with
  | '-' :: cs => (parseDigits cs none).map (fun n => - (n : Int))
  | cs => (parseDigits cs none).map (fun n => (n : Int))

/-- A concrete environment: error numbers 1 to 5, a line width of at most 4,
a full HD screen with OpenGL, decimal conversions. -/
def demoEnv : SettingEnv :=
  { TS_ERROR_UNSPEC := 1, TS_ERROR_EOF := 2, TS_ERROR_FILEFORMAT := 3, TS_ERROR_NEWFORMAT := 4,
    TS_ERROR_INTERNAL := 5, MAX_LINE_WIDTH_OPENGL := 4, DEFAULT_LINE_WIDTH_OPENGL := 2,
    DEFAULT_LINE_WIDTH := 1, MAX_NR_MIGRATIONS := 200000, has_opengl := true,
    desktopWidth := 1920, desktopHeight := 1080, translate_FileError := fun n => 100 + n,
    tr := id, number := demoNumber, toInt := demoToInt }

/-- The settings after `setupSettings`, with line width 3 and OpenGL off. -/
def demoSaved : Settings :=
  { Setting.setupSettings demoEnv Settings.initial with line_width := 3, opengl := false }

/-- The settings after `setupSettings`, as a fresh process has them. -/
def demoFresh : Settings := Setting.setupSettings demoEnv Settings.initial

/-- The text that `saveSettings` writes in the state `demoSaved`. -/
def demoText : String :=
  TRACESHARK_VERSION_KEY ++ " " ++ demoEnv.number Setting.this_version ++ "\n" ++
    Setting.saveEntries demoEnv demoSaved demoSaved.fileKeyMap

/-- A device on which opening and writing succeed. -/
def demoDevice : QFileWrite := { openFails := none, errorAfterFlush := 0 }

/-- An index that the dispatch of `loadSettings` hands to one of its two
handlers. -/
def Setting.isClassified (idx : Int) : Bool :=
  Setting.isIrregularIndex idx || Setting.isRegularIndex idx

/-- The text of a file with the given lines, the last of them with or without
a line end. -/
def linesText : List (List Char) → Bool → List Char
  | [], _ => []
  | [l], terminated => l ++ (if terminated then [newline] else [])
  | l :: l2 :: rest, terminated => l ++ newline :: linesText (l2 :: rest) terminated

/-- A line that is a well-formed key/value pair: it splits into exactly two
fields. -/
def Setting.isPairLine (l : List Char) : Prop :=
  (∀ c ∈ l, c ≠ newline) ∧ (QString.split (String.mk l)).length = 2

instance (l : List Char) : Decidable (Setting.isPairLine l) := by
  unfold Setting.isPairLine; infer_instance

/-- A call of one of the functions of `setting.cpp` that write to the
dependency tables. -/
inductive SettingCall
  | setupSettings
  | addDependency (idx : Int) (d : SettingDependency)
  | clearDependencies (idx : Int)
  deriving DecidableEq, Repr

/-- The indices of a call are indices of regular settings. -/
def SettingCall.valid : SettingCall → Prop
  | .setupSettings => True
  | .addDependency idx d =>
    0 ≤ idx ∧ idx < Setting.NR_SETTINGS ∧ 0 ≤ d.index ∧ d.index < Setting.NR_SETTINGS
  | .clearDependencies idx => 0 ≤ idx ∧ idx < Setting.NR_SETTINGS

instance (c : SettingCall) : Decidable c.valid := by
  cases c <;> unfold SettingCall.valid <;> infer_instance

/-- The static members after a call. -/
def Setting.call (E : SettingEnv) (st : Settings) : SettingCall → Settings
  | .setupSettings => Setting.setupSettings E st
  | .addDependency idx d => Setting.addDependency st idx d
  | .clearDependencies idx => Setting.clearDependencies st idx

/-- The static members after a sequence of calls. -/
def Setting.calls (E : SettingEnv) (st : Settings) : List SettingCall → Settings
  | [] => st
  | c :: rest => Setting.calls E (Setting.call E st c) rest

/-- The counts of a setting are within its two arrays, which have their four
elements. -/
def Setting.inBounds (s : Setting) : Prop :=
  s.nrDep ≤ Setting.arrayLength ∧ s.nrDependents ≤ Setting.arrayLength ∧
    s.dependency.length = Setting.arrayLength ∧ s.dependent.length = Setting.arrayLength

/-- The array `settings` has its `NR_SETTINGS` elements and each of them is
within bounds. -/
def Settings.bounded (st : Settings) : Prop :=
  st.settings.length = Setting.NR_SETTINGS.toNat ∧ ∀ s ∈ st.settings, s.inBounds

/-- The array elements that a call of `Setting::addDependency` assigns to, in
order: `settings[idx].dependency[*nrDep]`, then
`settings[d.index].dependent[*nrDependents]`, each given by the index into
`settings` and the position in the array of dependencies or of dependents. -/
def Setting.addDependencyWrites (st : Settings) (idx : Int) (d : SettingDependency) :
    List (Int × Nat) :=
  let nrDep := (st.get idx).nrDep
  if nrDep ≥ Setting.arrayLength then []
  else
    let st1 := st.modify idx
      (fun s => { s with dependency := s.dependency.set nrDep d, nrDep := nrDep + 1 })
    let nrDependents := (st1.get d.index).nrDependents
    if nrDependents ≥ Setting.arrayLength then [(idx, nrDep)]
    else [(idx, nrDep), (d.index, nrDependents)]

/-- Five dependencies added to the setting `HORIZONTAL_WAKEUP`, on five
different settings. -/
def demoFiveDependencies : List SettingCall :=
  [.addDependency 1 ⟨0, true⟩, .addDependency 1 ⟨2, true⟩, .addDependency 1 ⟨3, false⟩,
    .addDependency 1 ⟨4, true⟩, .addDependency 1 ⟨5, true⟩]

/-- How many times a setting lists `x` among its first `nrDep` dependencies. -/
def Setting.depCount (s : Setting) (x : SettingDependency) : Nat :=
  (s.dependency.take s.nrDep).count x

/-- How many times a setting lists `x` among its first `nrDependents`
dependents. -/
def Setting.dependentCount (s : Setting) (x : SettingDependency) : Nat :=
  (s.dependent.take s.nrDependents).count x

/-- The static members after a sequence of calls of `Setting::addDependency`,
each given by its arguments. -/
def Setting.addDependencies (st : Settings) : List (Int × SettingDependency) → Settings
  | [] => st
  | (idx, d) :: rest => Setting.addDependencies (Setting.addDependency st idx d) rest

/-- No call of the sequence stops at the second test of `addDependency`, with
the dependency stored and the table of dependents of `d.index` full: each call
assigns to both arrays or to none. -/
def Setting.dependentsFit (st : Settings) : List (Int × SettingDependency) → Bool
  | [] => true
  | (idx, d) :: rest =>
    decide ((Setting.addDependencyWrites st idx d).length ≠ 1) &&
      Setting.dependentsFit (Setting.addDependency st idx d) rest

/-- The settings 1 to 5 each get a dependency on setting 0. -/
def demoFiveDependents : List (Int × SettingDependency) :=
  [(1, ⟨0, true⟩), (2, ⟨0, true⟩), (3, ⟨0, true⟩), (4, ⟨0, true⟩), (5, ⟨0, true⟩)]

/-- The first assignments of `addDependency`:
`settings[idx].dependency[*nrDep] = d; (*nrDep)++;` with `*nrDep = n`. -/
def Setting.storeDependency (n : Nat) (d : SettingDependency) (s : Setting) : Setting :=
  { s with dependency := s.dependency.set n d, nrDep := n + 1 }

/-- The last assignments of `addDependency`:
`settings[d.index].dependent[*nrDependents] = dy; (*nrDependents)++;` with
`*nrDependents = n`. -/
def Setting.storeDependent (n : Nat) (dy : SettingDependency) (s : Setting) : Setting :=
  { s with dependent := s.dependent.set n dy, nrDependents := n + 1 }


/-! ## The error functions of `vtl/error.cpp` -/

/-- What a function of `error.cpp` does that is seen from outside: the calls
of the methods of the installed handler, of `vwarnx` and `fprintf` on
`stderr`, and of `exit`. -/
inductive Effect
  | errorX (ecode : Int) (fmt : String) (args : List String)
  | warnX (fmt : String) (args : List String)
  | error (ecode : Int) (vtl_errno : Int) (fmt : String) (args : List String)
  | warn (vtl_errno : Int) (fmt : String) (args : List String)
  | vwarnx (fmt : String) (args : List String)
  | fprintf (msg : String)
  | exit (code : Int)
  deriving DecidableEq, Repr

/-- How a call ends: it returns to its caller, the process has exited through
`exit` with a status, or control is still in a method of the handler, which
did not return. -/
inductive Ending
  | returned
  | exited (code : Int)
  | inHandler
  deriving DecidableEq, Repr

/-- The effects of a piece of code, in order, and how it ends. -/
structure Run where
  effects : List Effect
  ending : Ending
  deriving DecidableEq, Repr

/-- Sequential composition `a; b`: the statements `b` run only if `a` has
returned. -/
def Run.andThen (a b : Run) : Run :=
  match a.ending with
  | .returned => { effects := a.effects ++ b.effects, ending := b.ending }
  | _ => a

/-- The empty statement. -/
def Run.skip : Run := { effects := [], ending := .returned }

/-- A call of a library function that returns. -/
def Run.call (e : Effect) : Run := { effects := [e], ending := .returned }

/-- A call of a method of the handler, which returns or not. -/
def Run.handlerCall (e : Effect) (returns : Bool) : Run :=
  { effects := [e], ending := if returns then .returned else .inHandler }

/-- The call `exit(code)`. -/
def Run.exit (code : Int) : Run := { effects := [.exit code], ending := .exited code }

/-- The class `vtl::ErrorHandler` of `vtl/error.h`, of which `error.cpp` calls
four virtual methods; of each call the model keeps whether it returns. -/
structure vtl.ErrorHandler where
  errorX : Int → String → List String → Bool
  warnX : String → List String → Bool
  error : Int → Int → String → List String → Bool
  warn : Int → String → List String → Bool

/-- The two static variables of `error.cpp`, both null until set, and the
function `strerror` of the C library. -/
structure ErrorGlobals where
  handler : Option vtl.ErrorHandler
  strerror_func : Option (Int → String)
  strerror : Int → String

/-- The function `vtl::set_strerror`. -/
def vtl.set_strerror (G : ErrorGlobals) (func : Option (Int → String)) : ErrorGlobals :=
  { G with strerror_func := func }

/-- The function `vtl::set_error_handler`. -/
def vtl.set_error_handler (G : ErrorGlobals) (eh : Option vtl.ErrorHandler) : ErrorGlobals :=
  { G with handler := eh }

/-- The function `vtl__vwarnx`. -/
def vtl__vwarnx (G : ErrorGlobals) (fmt : String) (args : List String) (doexit : Bool)
    (ecode : Int) : Run :=
  match G.handler with
  | some handler =>
    if doexit then
      (Run.handlerCall (.errorX ecode fmt args) (handler.errorX ecode fmt args)).andThen
        (Run.exit ecode)
    else Run.handlerCall (.warnX fmt args) (handler.warnX fmt args)
  | none =>
    (Run.call (.vwarnx fmt args)).andThen
      (if doexit then Run.exit ecode else Run.skip)

/-- The function `vtl__vwarn`. -/
def vtl__vwarn (G : ErrorGlobals) (vtl_errno : Int) (fmt : String) (args : List String)
    (doexit : Bool) (ecode : Int) : Run :=
  match G.handler with
  | some handler =>
    if doexit then
      (Run.handlerCall (.error ecode vtl_errno fmt args)
        (handler.error ecode vtl_errno fmt args)).andThen (Run.exit ecode)
    else Run.handlerCall (.warn vtl_errno fmt args) (handler.warn vtl_errno fmt args)
  | none =>
    ((Run.call (.vwarnx fmt args)).andThen
      (if vtl_errno > 0 then
        Run.call (.fprintf (": " ++ G.strerror vtl_errno ++ "\n"))
      else if vtl_errno < 0 ∧ G.strerror_func.isSome then
        match G.strerror_func with
        | some func => Run.call (.fprintf (": " ++ func (-vtl_errno) ++ "\n"))
        | none => Run.skip
      else Run.skip)).andThen
      (if doexit then Run.exit ecode else Run.skip)

/-- The function `vtl::errx`; `va_start` and `va_end` have no effect that is
seen from outside. -/
def vtl.errx (G : ErrorGlobals) (ecode : Int) (fmt : String) (args : List String) : Run :=
  vtl__vwarnx G fmt args true ecode

/-- The function `vtl::warnx`. -/
def vtl.warnx (G : ErrorGlobals) (fmt : String) (args : List String) : Run :=
  vtl__vwarnx G fmt args false 0

/-- The function `vtl::err`. -/
def vtl.err (G : ErrorGlobals) (ecode : Int) (vtl_errno : Int) (fmt : String)
    (args : List String) : Run :=
  vtl__vwarn G vtl_errno fmt args true ecode

/-- The function `vtl::warn`. -/
def vtl.warn (G : ErrorGlobals) (vtl_errno : Int) (fmt : String) (args : List String) : Run :=
  vtl__vwarn G vtl_errno fmt args false 0

/-- An effect that is a print on `stderr`. -/
def Effect.isPrint : Effect → Bool
  | .vwarnx _ _ => true
  | .fprintf _ => true
  | _ => false

/-- An effect that is a call of `exit`. -/
def Effect.isExit : Effect → Bool
  | .exit _ => true
  | _ => false

/-- A handler all of whose methods return. -/
def demoHandler : vtl.ErrorHandler :=
  { errorX := fun _ _ _ => true, warnX := fun _ _ => true,
    error := fun _ _ _ _ => true, warn := fun _ _ _ => true }

/-- The globals with `demoHandler` installed. -/
def demoGlobals : ErrorGlobals :=
  { handler := some demoHandler, strerror_func := none, strerror := fun _ => "error" }


/-! ## The fill of a buffer -/

/-- Modelled from the spec: `read` on the file descriptor, which is outside the
sources. A reply tells how the next call behaves: it fails with an error
number, or it delivers at most `limit + 1` bytes (a short read when that is less
than was asked for). -/
inductive ReadReply
  | error (errno : Int)
  | upTo (limit : Nat)
  deriving DecidableEq, Repr

/-- Modelled from the spec: what the Loader hands to a fill beside the buffer
(section 4.2, the arguments `fd`, `filePosPtr` and `lineBegin` of
`LoadBuffer::produceBuffer`): the bytes of the open file and the replies of
the coming reads, the file-offset cursor, the carry-over accumulator, the
decision that the end of the file was reached, and the number of reads made so
far. -/
structure LoaderCtx where
  file : List Char
  replies : List ReadReply
  filePos : Nat
  lineBegin : List Char
  endOfFile : Bool
  reads : Nat
  deriving DecidableEq, Repr

/-- Modelled from the spec: one `read` of up to `count` bytes at the file
offset. Without a reply left the read is a full one. The offset is advanced by
the fill, in its step 5. -/
def LoaderCtx.read (ctx : LoaderCtx) (count : Nat) : Except Int (List Char) × LoaderCtx :=
  let ctx1 := { ctx with replies := ctx.replies.tail, reads := ctx.reads + 1 }
  match ctx.replies.head? with
  | some (.error errno) => (.error errno, ctx1)
  | some (.upTo limit) =>
    (.ok ((ctx.file.drop ctx.filePos).take (min count (limit + 1))), ctx1)
  | none => (.ok ((ctx.file.drop ctx.filePos).take count), ctx1)

/-- Modelled from the spec: the scan of step 4, backward from the end of the
bytes for the last line terminator; the number of bytes up to and including
it, 0 when there is none. -/
def lastBoundary (data : List Char) : Nat :=
  data.length - (data.reverse.takeWhile (fun c => c != newline)).length

/-- Modelled from the spec: the data members of a buffer after a fill
(section 3): the bytes placed in `storage`, the active region as a start offset
and a length, and the members `nRead` (`bytesRead`), `filePos` (`fileOffset`),
`IOerror` (`ioFailed`), `IOerrno` (`ioErrorCode`) and `eof` (`endOfFile`). -/
structure Fill where
  storage : List Char
  activeStart : Nat
  activeLen : Nat
  nRead : Nat
  filePos : Int
  IOerror : Bool
  IOerrno : Int
  eof : Bool
  deriving DecidableEq, Repr

/-- The bytes of the active region. -/
def Fill.activeRegion (f : Fill) : List Char :=
  (f.storage.drop f.activeStart).take f.activeLen

/-- The data members of a buffer that reports the end of the file: no byte
read, no active region. -/
def Fill.atEnd (filePos : Nat) : Fill :=
  { storage := [], activeStart := 0, activeLen := 0, nRead := 0, filePos := filePos,
    IOerror := false, IOerrno := 0, eof := true }

/-- Modelled from the spec: steps 3 to 5 of the fill of section 4.2, for a read
that delivered the bytes `data` behind the carry-over `prior`; `ctx1` is the
context after the read. (3) Zero bytes read and no carry-over is the end of the
file. (4) The bytes after the last line terminator of the newly read bytes
become the carry-over and are left out of the active region. (5) The file
offset of the start of the active region is recorded and the cursor advanced by
the bytes read. -/
def fillRead (prior : List Char) (ctx1 : LoaderCtx) (data : List Char) : Fill × LoaderCtx :=
  if data.length = 0 ∧ prior.length = 0 then
    (Fill.atEnd ctx1.filePos, { ctx1 with endOfFile := true })
  else
    let keep := lastBoundary data
    let active := if keep = 0 then 0 else prior.length + keep
    ({ storage := prior ++ data, activeStart := 0, activeLen := active,
       nRead := prior.length + data.length,
       filePos := (ctx1.filePos : Int) - prior.length, IOerror := false, IOerrno := 0,
       eof := false },
      { ctx1 with lineBegin := (prior ++ data).drop active,
                  filePos := ctx1.filePos + data.length })

/-- Modelled from the spec: the fill operation of section 4.2, the body of
`LoadBuffer::produceBuffer`, which the header only declares. A fill after the
end of the file was decided reports it with no byte read and makes no read.
Otherwise: (1) the carry-over is copied to the front of the storage and
cleared; (2) the file is read into the remainder, up to `capacity` less the
size of the carry-over; (3) to (5) are `fillRead`; (6) a read error is
recorded, the carry-over is kept for the next fill, and the buffer is published
all the same. -/
def fill (capacity : Nat) (ctx : LoaderCtx) : Fill × LoaderCtx :=
  if ctx.endOfFile then (Fill.atEnd ctx.filePos, ctx)
  else
    let prior := ctx.lineBegin
    let (res, ctx1) := ({ ctx with lineBegin := [] }).read (capacity - prior.length)
    match res with
    | .error errno =>
      ({ storage := prior, activeStart := 0, activeLen := 0, nRead := prior.length,
         filePos := (ctx.filePos : Int) - prior.length, IOerror := true, IOerrno := errno,
         eof := false },
        { ctx1 with lineBegin := prior })
    | .ok data => fillRead prior ctx1 data

/-- Modelled from the spec: a sequence of fills, one for each capacity of the
list, by one Loader; each fill with the context it leaves. -/
def fillRun : List Nat → LoaderCtx → List (Fill × LoaderCtx)
  | [], _ => []
  | capacity :: rest, ctx => fill capacity ctx :: fillRun rest (fill capacity ctx).2

/-- Store the data members of a fill in a buffer. -/
def LoadBuffer.store (b : LoadBuffer) (f : Fill) : LoadBuffer :=
  { b with readBegin := b.buffer + f.activeStart, nRead := f.nRead, filePos := f.filePos,
           IOerror := f.IOerror, IOerrno := f.IOerrno, eof := f.eof }

/-- Modelled from the spec: a round of the Loader on a buffer with no other
thread in between: the begin-phase, the fill with the capacity `bufSize`, and
the end-phase, which publishes `LOADED`. -/
def LoadBuffer.produceBuffer (b : LoadBuffer) (ctx : LoaderCtx) (pick : Nat) :
    Outcome (LoadBuffer × LoaderCtx) :=
  match execBody .Loader pick (beginPhase .Loader) b with
  | .done b1 =>
    match execBody .Loader pick (endPhase .Loader) (b1.store (fill b1.bufSize ctx).1) with
    | .done b2 => .done (b2, (fill b1.bufSize ctx).2)
    | .blocked => .blocked
    | .fault => .fault
  | .blocked => .blocked
  | .fault => .fault

/-- Modelled from the spec: the round of the Loader on buffer `i` of a pool. -/
def producePool (pool : List LoadBuffer) (i : Nat) (ctx : LoaderCtx) (pick : Nat) :
    Outcome (List LoadBuffer × LoaderCtx) :=
  match pool[i]? with
  | some b =>
    match b.produceBuffer ctx pick with
    | .done (b1, ctx1) => .done (pool.set i b1, ctx1)
    | .blocked => .blocked
    | .fault => .fault
  | none => .fault

/-- The records of a sequence of bytes: its lines, each with its terminator;
`cur` holds the bytes of the line being read. An unterminated tail is no
record. -/
def recordsAux : List Char → List Char → List (List Char)
  | _, [] => []
  | cur, c :: rest =>
    if c = newline then (cur ++ [c]) :: recordsAux [] rest
    else recordsAux (cur ++ [c]) rest

/-- The records of a sequence of bytes, as read in one pass. -/
def records (bytes : List Char) : List (List Char) :=
  recordsAux [] bytes

/-- A sequence of bytes that ends on a record boundary: it is empty or its last
byte is a line terminator. -/
def atBoundary (bytes : List Char) : Bool :=
  match bytes.getLast? with
  | none => true
  | some c => c == newline

/-- Modelled from the spec: the contents of the buffers of the pool as the
roles work on them: the data of each buffer, the context of the Loader, the
fills made so far, the record slices the Consumer has observed, in order, and
the number of buffers it has consumed. -/
structure DataState where
  slots : List Fill
  ctx : LoaderCtx
  produced : List Fill
  consumed : List (List Char)
  nConsumed : Nat
  deriving DecidableEq, Repr

/-- The data of a buffer before its first fill. -/
def Fill.fresh : Fill :=
  { storage := [], activeStart := 0, activeLen := 0, nRead := 0, filePos := 0,
    IOerror := false, IOerrno := 0, eof := false }

/-- The contents at the start: `n` buffers without data, the file unread. -/
def DataState.start (n : Nat) (file : List Char) (replies : List ReadReply) : DataState :=
  { slots := List.replicate n Fill.fresh,
    ctx := { file := file, replies := replies, filePos := 0, lineBegin := [],
             endOfFile := false, reads := 0 },
    produced := [], consumed := [], nConsumed := 0 }

/-- Modelled from the spec: the work of a role on the contents of the buffer at
its cursor, done between its two phases and accounted for at the step that
starts its end-phase: the Loader fills the buffer, the Consumer observes the
records of the active region. The Tokenizer only scans. -/
def Pipeline.work (s : Pipeline) (D : DataState) : Action → DataState
  | .run .Loader _ =>
    if s.working .Loader then
      match s.pool[s.loader.cursor]? with
      | some b =>
        { D with slots := D.slots.set s.loader.cursor (fill b.bufSize D.ctx).1,
                 ctx := (fill b.bufSize D.ctx).2,
                 produced := D.produced ++ [(fill b.bufSize D.ctx).1] }
      | none => D
    else D
  | .run .Consumer _ =>
    if s.working .Consumer then
      match D.slots[s.consumer.cursor]? with
      | some f =>
        { D with consumed := D.consumed ++ records f.activeRegion,
                 nConsumed := D.nConsumed + 1 }
      | none => D
    else D
  | _ => D

/-- Modelled from the spec: the contents after a schedule, up to its first
action that cannot be taken. -/
def Pipeline.replay (s : Pipeline) (D : DataState) : List Action → DataState
  | [] => D
  | a :: rest =>
    match s.step a with
    | .done s1 => s1.replay (s.work D a) rest
    | _ => D

/-- The context of the Loader after a sequence of fills. -/
def fillCtx : List Nat → LoaderCtx → LoaderCtx
  | [], ctx => ctx
  | capacity :: rest, ctx => fillCtx rest (fill capacity ctx).2

/-- What the fills keep true of the context of the Loader and of the active
regions `G` delivered so far: the carry-over holds no line terminator and is
empty once the end of the file is decided, the active regions followed by the
carry-over are the bytes of the file before the offset, and every active region
ends on a record boundary. -/
structure FillInv (ctx : LoaderCtx) (G : List (List Char)) : Prop where
  noTerminator : ∀ c ∈ ctx.lineBegin, c ≠ newline
  atEnd : ctx.endOfFile = true → ctx.lineBegin = []
  bytes : G.flatten ++ ctx.lineBegin = ctx.file.take ctx.filePos
  bound : ∀ g ∈ G, atBoundary g = true

/-- The context of a Loader that has not read anything of the file yet. -/
def LoaderCtx.start (file : List Char) (replies : List ReadReply) : LoaderCtx :=
  { file := file, replies := replies, filePos := 0, lineBegin := [], endOfFile := false,
    reads := 0 }

/-- A file of three terminated lines. -/
def demoFile : List Char := "ab\ncd\nef\n".data

/-- Six fills with buffers of four bytes. -/
def demoCaps : List Nat := [4, 4, 4, 4, 4, 4]

/-- The fill that found the end of `demoFile`, and the context it leaves. -/
def demoLastFill : Fill × LoaderCtx :=
  (Fill.atEnd 9,
    { file := demoFile, replies := [], filePos := 9, lineBegin := [], endOfFile := true,
      reads := 4 })

/-- A Loader at the start of `demoFile` whose first read delivers four bytes
and whose second read fails with error 5. -/
def demoFailing : LoaderCtx :=
  { file := demoFile, replies := [.upTo 3, .error 5], filePos := 0, lineBegin := [],
    endOfFile := false, reads := 0 }

/-- What holds of the contents in every reachable state, with `l`, `t` and `c`
the numbers of buffers published by the Loader, the Tokenizer and the Consumer:
the Loader has made `l` fills and the Consumer has consumed `c` buffers; the
fills keep `FillInv`; the buffer of every fill not yet consumed still holds the
data of that fill; and the Consumer has observed the records of the first `c`
fills, in order. -/
structure DataInv (file : List Char) (s : Pipeline) (D : DataState) (l t c : Nat) : Prop where
  ring : Ring s l t c
  lenSlots : D.slots.length = s.pool.length
  produced : D.produced.length = l
  nConsumed : D.nConsumed = c
  fillInv : FillInv D.ctx (D.produced.map Fill.activeRegion)
  file : D.ctx.file = file
  slots : ∀ m, c ≤ m → m < l → D.slots[m % s.pool.length]? = D.produced[m]?
  consumed : D.consumed = (D.produced.take c).flatMap (fun f => records f.activeRegion)
/-! ## Lemmas -/


theorem roundCode_eq (r : Role) :
    roundCode r = [.lock, .waitUntil r.awaited r.waitsOn, .assign r.published,
      .wakeOne r.signals, .unlock] := by
  cases r <;> rfl

@[simp] theorem Pipeline.thread_setThread (s : Pipeline) (r r1 : Role) (th : ThreadState) :
    (s.setThread r th).thread r1 = if r1 = r then th else s.thread r1 := by
  cases r <;> cases r1 <;> simp [Pipeline.setThread, Pipeline.thread]

@[simp] theorem Pipeline.pool_setThread (s : Pipeline) (r : Role) (th : ThreadState) :
    (s.setThread r th).pool = s.pool := by
  cases r <;> rfl

@[simp] theorem Pipeline.thread_setBuf (s : Pipeline) (i : Nat) (b : LoadBuffer) (r : Role) :
    (s.setBuf i b).thread r = s.thread r := by
  cases r <;> rfl

@[simp] theorem Pipeline.pool_setBuf (s : Pipeline) (i : Nat) (b : LoadBuffer) :
    (s.setBuf i b).pool = s.pool.set i b := rfl

theorem step_trans {s s1 : Pipeline} {a : Action} (h : s.step a = .done s1) :
    Trans s a s1 := by
  cases a with
  | run r pick =>
    simp only [Pipeline.step] at h
    split at h
    · rename_i b st hb hst
      rw [roundCode_eq] at hst
      split at h
      · rename_i res hres
        simp only [Outcome.done.injEq] at h
        subst h
        rcases hpc : (s.thread r).pc with _ | _ | _ | _ | _ | n
        all_goals rw [hpc] at hst
        all_goals simp at hst
        all_goals subst hst
        all_goals simp only [execStmt] at hres
        · split at hres
          · simp only [Outcome.done.injEq] at hres
            subst hres
            rename_i hm
            simpa [roundCode_eq, hpc] using Trans.lock r pick b hb hpc hm
          · simp at hres
        · by_cases hw : (s.thread r).inWait = true
          · rw [if_pos hw] at hres
            split at hres
            · simp at hres
            · rename_i hn
              split at hres
              · simp only [Outcome.done.injEq] at hres
                subst hres
                rename_i hm
                simpa [roundCode_eq, hpc] using Trans.relock r pick b hb hpc hw hn hm
              · simp at hres
          · rw [if_neg hw] at hres
            simp only [Bool.not_eq_true] at hw
            split at hres
            · rename_i hs
              split at hres
              · simp only [Outcome.done.injEq] at hres
                subst hres
                rename_i hm
                simpa [roundCode_eq, hpc] using Trans.sleep r pick b hb hpc hw hs hm
              · simp at hres
            · rename_i hs
              simp only [Outcome.done.injEq] at hres
              subst hres
              simp only [ne_eq, Decidable.not_not] at hs
              simpa [roundCode_eq, hpc] using Trans.pass r pick b hb hpc hw hs
        · simp only [Outcome.done.injEq] at hres
          subst hres
          simpa [roundCode_eq, hpc] using Trans.assign r pick b hb hpc
        · simp only [Outcome.done.injEq] at hres
          subst hres
          simpa [roundCode_eq, hpc] using Trans.wake r pick b hb hpc
        · split at hres
          · simp only [Outcome.done.injEq] at hres
            subst hres
            rename_i hm
            simpa [roundCode_eq, hpc] using Trans.unlock r pick b hb hpc hm
          · simp at hres
      · simp at h
      · simp at h
    · simp at h
  | spurious r =>
    simp only [Pipeline.step] at h
    split at h
    · rename_i b s0 cv hb hst
      rw [roundCode_eq] at hst
      rcases hpc : (s.thread r).pc with _ | _ | _ | _ | _ | n
      all_goals rw [hpc] at hst
      all_goals simp at hst
      obtain ⟨-, rfl⟩ := hst
      split at h
      · rename_i hw
        simp only [Outcome.done.injEq] at h
        subst h
        exact Trans.spurious r b hb hpc hw
      · simp only [Outcome.done.injEq] at h
        subst h
        exact Trans.stutter r
    · simp only [Outcome.done.injEq] at h
      subst h
      exact Trans.stutter r


theorem BufOk.frame {s s1 : Pipeline} {i : Nat} {b : LoadBuffer} {r : Role} {th : ThreadState}
    (h : BufOk s i b) (hc : (s.thread r).cursor ≠ i)
    (hth : th.cursor ≠ i ∨ (th.pc = 0 ∧ th.inWait = false))
    (hs1 : ∀ r1, s1.thread r1 = if r1 = r then th else s.thread r1) : BufOk s1 i b := by
  constructor
  · intro r1
    rw [hs1, h.mutex r1]
    by_cases h1 : r1 = r
    · subst h1
      simp only [if_true]
      constructor
      · intro hh; exact absurd hh.1 hc
      · intro hh; rcases hth with hth | hth
        · exact absurd hh.1 hth
        · omega
    · simp [h1]
  · intro r1
    rw [hs1]
    by_cases h1 : r1 = r
    · subst h1
      simp only [if_true]
      intro h2 h3
      rcases hth with hth | hth
      · exact absurd h2 hth
      · omega
    · simpa [h1] using h.awaited r1
  · intro r1
    rw [hs1]
    by_cases h1 : r1 = r
    · subst h1
      simp only [if_true]
      intro h2 h3
      rcases hth with hth | hth
      · exact absurd h2 hth
      · omega
    · simpa [h1] using h.published r1
  · intro r1 cv hmem
    have := h.waiters r1 cv hmem
    rw [hs1]
    by_cases h1 : r1 = r
    · subst h1
      exact absurd this.1 hc
    · simpa [h1] using this
  · exact h.short

theorem waitsOn_inj {r r1 : Role} (h : r.waitsOn = r1.waitsOn) : r = r1 := by
  cases r <;> cases r1 <;> simp [Role.waitsOn] at h <;> rfl

@[simp] theorem waiters_setWaiters (b : LoadBuffer) (cv cv1 : CondVar) (ws : List Role) :
    (b.setWaiters cv ws).waiters cv1 = if cv1 = cv then ws else b.waiters cv1 := by
  cases cv <;> cases cv1 <;> simp [LoadBuffer.setWaiters, LoadBuffer.waiters]

@[simp] theorem mutex_setWaiters (b : LoadBuffer) (cv : CondVar) (ws : List Role) :
    (b.setWaiters cv ws).mutex = b.mutex := by
  cases cv <;> rfl

@[simp] theorem state_setWaiters (b : LoadBuffer) (cv : CondVar) (ws : List Role) :
    (b.setWaiters cv ws).state = b.state := by
  cases cv <;> rfl

@[simp] theorem waiters_mutex (b : LoadBuffer) (m : Option Role) (cv : CondVar) :
    LoadBuffer.waiters { b with mutex := m } cv = b.waiters cv := by
  cases cv <;> rfl

@[simp] theorem waiters_state (b : LoadBuffer) (m : loadbufferstate_t) (cv : CondVar) :
    LoadBuffer.waiters { b with state := m } cv = b.waiters cv := by
  cases cv <;> rfl

theorem Inv.step_buf {s : Pipeline} {r : Role} {b b1 : LoadBuffer} {th : ThreadState}
    (h : Inv s) (hb : s.pool[(s.thread r).cursor]? = some b)
    (hth : th.cursor = (s.thread r).cursor ∨ (th.pc = 0 ∧ th.inWait = false))
    (hth2 : th.cursor < s.pool.length ∧ th.pc < 5 ∧ (th.inWait = true → th.pc = 1))
    (hb1 : BufOk ((s.setBuf (s.thread r).cursor b1).setThread r th) (s.thread r).cursor b1) :
    Inv ((s.setBuf (s.thread r).cursor b1).setThread r th) := by
  constructor
  · simpa using h.pos
  · intro r1
    by_cases h1 : r1 = r
    · subst h1; simpa using hth2
    · simpa [h1] using h.thr r1
  · intro i b2 hb2'
    simp only [Pipeline.pool_setThread, Pipeline.pool_setBuf, List.getElem?_set] at hb2'
    by_cases hi : (s.thread r).cursor = i
    · subst hi
      rw [if_pos rfl, if_pos (h.thr r).1] at hb2'
      simp only [Option.some.injEq] at hb2'
      subst hb2'
      exact hb1
    · rw [if_neg hi] at hb2'
      refine @BufOk.frame s _ i b2 r th (h.buf i b2 hb2') hi ?_ (fun r1 => by simp)
      rcases hth with hth | hth
      · left; rw [hth]; exact hi
      · right; exact hth


theorem Pipeline.setThread_self (s : Pipeline) (r : Role) : s.setThread r (s.thread r) = s := by
  cases r <;> rfl

theorem BufOk.updated {s : Pipeline} {r : Role} {b b1 : LoadBuffer} {th : ThreadState}
    (h : Inv s) (hb : s.pool[(s.thread r).cursor]? = some b)
    (hmo : ∀ r1, r1 ≠ r → (b1.mutex = some r1 ↔ b.mutex = some r1))
    (hms : b1.mutex = some r ↔
      (th.cursor = (s.thread r).cursor ∧ th.inWait = false ∧ 1 ≤ th.pc))
    (haw : th.cursor = (s.thread r).cursor → th.pc = 2 → b1.state = r.awaited)
    (hpub : th.cursor = (s.thread r).cursor → 3 ≤ th.pc → b1.state = r.published)
    (hst : b1.state = b.state ∨ b.mutex = some r)
    (hw : ∀ r1 cv, r1 ∈ b1.waiters cv → (r1 ∈ b.waiters cv ∧ r1 ≠ r) ∨
      (r1 = r ∧ th.cursor = (s.thread r).cursor ∧ th.pc = 1 ∧ th.inWait = true ∧
        cv = r.waitsOn))
    (hshort : ∀ cv, (b1.waiters cv).length ≤ 1) :
    BufOk ((s.setBuf (s.thread r).cursor b1).setThread r th) (s.thread r).cursor b1 := by
  have hB := h.buf _ _ hb
  have hs1 : ∀ r1, ((s.setBuf (s.thread r).cursor b1).setThread r th).thread r1 =
      if r1 = r then th else s.thread r1 := fun r1 => by simp
  have hother : ∀ r1, r1 ≠ r → (s.thread r1).cursor = (s.thread r).cursor →
      2 ≤ (s.thread r1).pc → b1.state = b.state := by
    intro r1 h1 hc hpc
    rcases hst with hst | hst
    · exact hst
    · exfalso
      have hnw : (s.thread r1).inWait = false := by
        cases hw1 : (s.thread r1).inWait
        · rfl
        · have := (h.thr r1).2.2 hw1; omega
      have : b.mutex = some r1 := (hB.mutex r1).2 ⟨hc, hnw, by omega⟩
      rw [hst] at this
      exact h1 (Option.some.inj this).symm
  constructor
  · intro r1
    rw [hs1]
    by_cases h1 : r1 = r
    · subst h1; simpa using hms
    · rw [if_neg h1, hmo r1 h1]; exact hB.mutex r1
  · intro r1
    rw [hs1]
    by_cases h1 : r1 = r
    · subst h1; simpa using haw
    · rw [if_neg h1]
      intro hc hpc
      rw [hother r1 h1 hc (by omega)]
      exact hB.awaited r1 hc hpc
  · intro r1
    rw [hs1]
    by_cases h1 : r1 = r
    · subst h1; simpa using hpub
    · rw [if_neg h1]
      intro hc hpc
      rw [hother r1 h1 hc (by omega)]
      exact hB.published r1 hc hpc
  · intro r1 cv hmem
    rw [hs1]
    rcases hw r1 cv hmem with ⟨hmem1, h1⟩ | ⟨h1, hrest⟩
    · rw [if_neg h1]; exact hB.waiters r1 cv hmem1
    · subst h1; simpa using hrest
  · exact hshort

theorem Inv.preserved {s s1 : Pipeline} {a : Action} (h : Inv s) (ht : Trans s a s1) : Inv s1 := by
  cases ht with
  | lock r pick b hb hpc hm =>
    have hB := h.buf _ _ hb
    have hT := h.thr r
    refine h.step_buf hb (Or.inl rfl) ⟨hT.1, by simp, by simp⟩ ?_
    refine BufOk.updated h hb ?_ ?_ ?_ ?_ ?_ ?_ ?_
    · intro r1 h1; simp [hm, Ne.symm h1]
    · simp
    · simp
    · simp
    · left; rfl
    · intro r1 cv hmem
      left
      simp only [waiters_mutex] at hmem
      refine ⟨hmem, ?_⟩
      rintro rfl
      have := hB.waiters _ _ hmem
      omega
    · intro cv; simpa using hB.short cv
  | sleep r pick b hb hpc hw hs hm =>
    have hB := h.buf _ _ hb
    have hT := h.thr r
    have hempty : b.waiters r.waitsOn = [] := by
      rcases hl : b.waiters r.waitsOn with _ | ⟨x, l⟩
      · rfl
      · exfalso
        have hx := hB.waiters x r.waitsOn (by rw [hl]; simp)
        have : r = x := waitsOn_inj hx.2.2.2
        subst this
        rw [hw] at hx
        simp at hx
    refine h.step_buf hb (Or.inl rfl) ⟨hT.1, by simp, by simp⟩ ?_
    refine BufOk.updated h hb ?_ ?_ ?_ ?_ ?_ ?_ ?_
    · intro r1 h1; simp [hm, Ne.symm h1]
    · simp
    · simp
    · simp
    · left; simp
    · intro r1 cv hmem
      simp only [waiters_mutex, waiters_setWaiters, hempty] at hmem
      split at hmem
      · rename_i hcv
        simp only [List.mem_singleton] at hmem
        right; exact ⟨hmem, rfl, rfl, rfl, hcv⟩
      · left
        refine ⟨hmem, ?_⟩
        rintro rfl
        have := hB.waiters _ _ hmem
        rw [hw] at this
        simp at this
    · intro cv
      simp only [waiters_mutex, waiters_setWaiters, hempty]
      split
      · simp
      · exact hB.short cv
  | pass r pick b hb hpc hw hs =>
    have hB := h.buf _ _ hb
    have hT := h.thr r
    refine h.step_buf hb (Or.inl rfl) ⟨hT.1, by simp, by simp⟩ ?_
    refine BufOk.updated h hb ?_ ?_ ?_ ?_ ?_ ?_ ?_
    · intro r1 h1; rfl
    · rw [hB.mutex r]; simp [hw, hpc]
    · intro _ _; exact hs
    · simp
    · left; rfl
    · intro r1 cv hmem
      left
      refine ⟨hmem, ?_⟩
      rintro rfl
      have := hB.waiters _ _ hmem
      rw [hw] at this
      simp at this
    · exact hB.short
  | relock r pick b hb hpc hw hn hm =>
    have hB := h.buf _ _ hb
    have hT := h.thr r
    refine h.step_buf hb (Or.inl rfl) ⟨hT.1, by simp, by simp⟩ ?_
    refine BufOk.updated h hb ?_ ?_ ?_ ?_ ?_ ?_ ?_
    · intro r1 h1; simp [hm, Ne.symm h1]
    · simp
    · simp
    · simp
    · left; rfl
    · intro r1 cv hmem
      left
      simp only [waiters_mutex] at hmem
      refine ⟨hmem, ?_⟩
      rintro rfl
      have := hB.waiters _ _ hmem
      rw [this.2.2.2] at hmem
      exact hn hmem
    · intro cv; simpa using hB.short cv
  | assign r pick b hb hpc =>
    have hB := h.buf _ _ hb
    have hT := h.thr r
    have hnw : (s.thread r).inWait = false := by
      cases hw1 : (s.thread r).inWait
      · rfl
      · have := hT.2.2 hw1; omega
    have hmx : b.mutex = some r := (hB.mutex r).2 ⟨rfl, hnw, by omega⟩
    refine h.step_buf hb (Or.inl rfl) ⟨hT.1, by simp, by simp⟩ ?_
    refine BufOk.updated h hb ?_ ?_ ?_ ?_ ?_ ?_ ?_
    · intro r1 h1; rfl
    · simp [hmx]
    · simp
    · simp
    · right; exact hmx
    · intro r1 cv hmem
      left
      simp only [waiters_state] at hmem
      refine ⟨hmem, ?_⟩
      rintro rfl
      have := hB.waiters _ _ hmem
      omega
    · intro cv; simpa using hB.short cv
  | wake r pick b hb hpc =>
    have hB := h.buf _ _ hb
    have hT := h.thr r
    have hnw : (s.thread r).inWait = false := by
      cases hw1 : (s.thread r).inWait
      · rfl
      · have := hT.2.2 hw1; omega
    have hmx : b.mutex = some r := (hB.mutex r).2 ⟨rfl, hnw, by omega⟩
    have hsub : ∀ r1 cv, r1 ∈ (b.setWaiters r.signals
        ((b.waiters r.signals).eraseIdx (pick % (b.waiters r.signals).length))).waiters cv →
        r1 ∈ b.waiters cv := by
      intro r1 cv hmem
      simp only [waiters_setWaiters] at hmem
      split at hmem
      · rename_i hcv; subst hcv; exact List.mem_of_mem_eraseIdx hmem
      · exact hmem
    refine h.step_buf hb (Or.inl rfl) ⟨hT.1, by simp, by simp⟩ ?_
    refine BufOk.updated h hb ?_ ?_ ?_ ?_ ?_ ?_ ?_
    · intro r1 h1; simp
    · simp [hmx]
    · simp
    · intro _ _; simpa using hB.published r rfl (by omega)
    · left; simp
    · intro r1 cv hmem
      left
      refine ⟨hsub r1 cv hmem, ?_⟩
      rintro rfl
      have := hB.waiters _ _ (hsub _ _ hmem)
      omega
    · intro cv
      simp only [waiters_setWaiters]
      split
      · rename_i hcv; subst hcv
        exact le_trans (List.eraseIdx_sublist _ _).length_le (hB.short _)
      · exact hB.short cv
  | unlock r pick b hb hpc hm =>
    have hB := h.buf _ _ hb
    have hT := h.thr r
    refine h.step_buf hb (Or.inr ⟨rfl, rfl⟩) ⟨Nat.mod_lt _ h.pos, by simp, by simp⟩ ?_
    refine BufOk.updated h hb ?_ ?_ ?_ ?_ ?_ ?_ ?_
    · intro r1 h1; simp [hm, Ne.symm h1]
    · simp
    · simp
    · simp
    · left; rfl
    · intro r1 cv hmem
      left
      simp only [waiters_mutex] at hmem
      refine ⟨hmem, ?_⟩
      rintro rfl
      have := hB.waiters _ _ hmem
      omega
    · intro cv; simpa using hB.short cv
  | spurious r b hb hpc hw =>
    have hB := h.buf _ _ hb
    have hT := h.thr r
    have hmx : b.mutex ≠ some r := by
      intro hh
      have := (hB.mutex r).1 hh
      rw [hw] at this
      simp at this
    have := @Inv.step_buf s r b (b.dequeue r.waitsOn r) (s.thread r) h hb (Or.inl rfl) hT ?_
    · have he : (s.setBuf (s.thread r).cursor (b.dequeue r.waitsOn r)).setThread r (s.thread r) =
          s.setBuf (s.thread r).cursor (b.dequeue r.waitsOn r) := by
        cases r <;> rfl
      rwa [he] at this
    refine BufOk.updated h hb ?_ ?_ ?_ ?_ ?_ ?_ ?_
    · intro r1 h1; simp [LoadBuffer.dequeue]
    · simp [LoadBuffer.dequeue, hmx, hw]
    · intro _ h2; omega
    · intro _ h2; omega
    · left; simp [LoadBuffer.dequeue]
    · intro r1 cv hmem
      left
      simp only [LoadBuffer.dequeue, waiters_setWaiters] at hmem
      split at hmem
      · rename_i hcv; subst hcv
        simp only [List.mem_filter, bne_iff_ne, ne_eq] at hmem
        exact hmem
      · refine ⟨hmem, ?_⟩
        rintro rfl
        have := hB.waiters _ _ hmem
        rename_i hcv
        exact hcv this.2.2.2
    · intro cv
      simp only [LoadBuffer.dequeue, waiters_setWaiters]
      split
      · rename_i hcv; subst hcv
        exact le_trans (List.length_filter_le _ _) (hB.short _)
      · exact hB.short cv
  | stutter r => exact h



theorem Pipeline.thread_of_isInitial {s : Pipeline} (h : s.isInitial = true) (r : Role) :
    s.thread r = ⟨0, 0, false⟩ := by
  simp only [Pipeline.isInitial, Bool.and_eq_true, beq_iff_eq] at h
  cases r
  · exact h.1.1.2
  · exact h.1.2
  · exact h.2

theorem Inv.initially {s : Pipeline} (h : s.isInitial = true) : Inv s := by
  have hth := Pipeline.thread_of_isInitial h
  simp only [Pipeline.isInitial, Bool.and_eq_true, beq_iff_eq, bne_iff_ne, ne_eq,
    List.all_eq_true] at h
  obtain ⟨⟨⟨⟨hne, hall⟩, -⟩, -⟩, -⟩ := h
  constructor
  · exact List.length_pos.2 hne
  · intro r
    rw [hth r]
    exact ⟨List.length_pos.2 hne, by simp, by simp⟩
  · intro i b hb
    have hf := hall b (List.getElem?_mem hb)
    simp only [LoadBuffer.isFresh, Bool.and_eq_true, beq_iff_eq] at hf
    obtain ⟨⟨⟨⟨hst, hm⟩, h1⟩, h2⟩, h3⟩ := hf
    have hws : ∀ cv, b.waiters cv = [] := by
      intro cv; cases cv <;> simp [LoadBuffer.waiters, h1, h2, h3]
    constructor
    · intro r; rw [hth r, hm]; simp
    · intro r; rw [hth r]; simp
    · intro r; rw [hth r]; simp
    · intro r cv hmem; rw [hws] at hmem; simp at hmem
    · intro cv; rw [hws]; simp

theorem Inv.along {acts : List Action} : ∀ {s s1 : Pipeline}, Inv s → s.exec acts = some s1 → Inv s1 := by
  induction acts with
  | nil => intro s s1 h he; simp only [Pipeline.exec, Option.some.injEq] at he; exact he ▸ h
  | cons a rest ih =>
    intro s s1 h he
    simp only [Pipeline.exec] at he
    split at he
    · rename_i s2 hs2
      exact ih (h.preserved (step_trans hs2)) he
    · simp at he

theorem Inv.reachable {s0 s : Pipeline} {acts : List Action} (h0 : s0.isInitial = true)
    (h : s0.exec acts = some s) : Inv s :=
  (Inv.initially h0).along h



theorem Pipeline.pool_upd {s : Pipeline} {c i : Nat} {b b0 b1 b2 : LoadBuffer}
    (hb : s.pool[c]? = some b) (h0 : s.pool[i]? = some b0)
    (h1 : (s.setBuf c b2).pool[i]? = some b1) :
    (i = c ∧ b1 = b2 ∧ b0 = b) ∨ (i ≠ c ∧ b1 = b0) := by
  simp only [Pipeline.pool_setBuf, List.getElem?_set] at h1
  by_cases hi : c = i
  · subst hi
    have hlt : c < s.pool.length := (List.getElem?_eq_some.1 hb).1
    rw [if_pos rfl, if_pos hlt] at h1
    rw [hb] at h0
    left
    exact ⟨rfl, (Option.some.inj h1).symm, (Option.some.inj h0).symm⟩
  · rw [if_neg hi, h0] at h1
    right
    exact ⟨fun h => hi h.symm, (Option.some.inj h1).symm⟩

theorem Trans.state_change {s s1 : Pipeline} {a : Action} (h : Inv s) (ht : Trans s a s1)
    {i : Nat} {b0 b1 : LoadBuffer} (h0 : s.pool[i]? = some b0) (h1 : s1.pool[i]? = some b1)
    (hne : b1.state ≠ b0.state) :
    ∃ r pick, a = .run r pick ∧ (s.thread r).cursor = i ∧ (s.thread r).pc = 2 ∧
      b0.state = r.awaited ∧ b1.state = r.published := by
  cases ht with
  | lock r pick b hb hpc hm =>
    exfalso
    rcases Pipeline.pool_upd hb h0 (by simpa using h1) with ⟨-, rfl, rfl⟩ | ⟨-, rfl⟩
    · exact hne rfl
    · exact hne rfl
  | sleep r pick b hb hpc hw hs hm =>
    exfalso
    rcases Pipeline.pool_upd hb h0 (by simpa using h1) with ⟨-, rfl, rfl⟩ | ⟨-, rfl⟩
    · exact hne (by simp)
    · exact hne rfl
  | pass r pick b hb hpc hw hs =>
    exfalso
    rcases Pipeline.pool_upd hb h0 (by simpa using h1) with ⟨-, rfl, rfl⟩ | ⟨-, rfl⟩
    · exact hne rfl
    · exact hne rfl
  | relock r pick b hb hpc hw hn hm =>
    exfalso
    rcases Pipeline.pool_upd hb h0 (by simpa using h1) with ⟨-, rfl, rfl⟩ | ⟨-, rfl⟩
    · exact hne rfl
    · exact hne rfl
  | assign r pick b hb hpc =>
    rcases Pipeline.pool_upd hb h0 (by simpa using h1) with ⟨hi, rfl, rfl⟩ | ⟨-, rfl⟩
    · exact ⟨r, pick, rfl, hi.symm, hpc, (h.buf _ _ hb).awaited r rfl hpc, rfl⟩
    · exact absurd rfl hne
  | wake r pick b hb hpc =>
    exfalso
    rcases Pipeline.pool_upd hb h0 (by simpa using h1) with ⟨-, rfl, rfl⟩ | ⟨-, rfl⟩
    · exact hne (by simp)
    · exact hne rfl
  | unlock r pick b hb hpc hm =>
    exfalso
    rcases Pipeline.pool_upd hb h0 (by simpa using h1) with ⟨-, rfl, rfl⟩ | ⟨-, rfl⟩
    · exact hne rfl
    · exact hne rfl
  | spurious r b hb hpc hw =>
    exfalso
    rcases Pipeline.pool_upd hb h0 h1 with ⟨-, rfl, rfl⟩ | ⟨-, rfl⟩
    · exact hne (by simp [LoadBuffer.dequeue])
    · exact hne rfl
  | stutter r =>
    rw [h0] at h1
    exact absurd (by rw [Option.some.inj h1]) hne

theorem execStmt_state {t : Role} {pick : Nat} {st : Stmt} {w : Bool} {b : LoadBuffer}
    {res : StmtResult} (h : execStmt t pick st w b = .done res) :
    res.buf.state = (st.written).getD b.state := by
  cases st with
  | lock =>
    simp only [execStmt] at h
    split at h
    · simp only [Outcome.done.injEq] at h; subst h; rfl
    · simp at h
  | waitUntil v cv =>
    simp only [execStmt] at h
    split at h
    · split at h
      · simp at h
      · split at h
        · simp only [Outcome.done.injEq] at h; subst h; rfl
        · simp at h
    · split at h
      · split at h
        · simp only [Outcome.done.injEq] at h; subst h; simp [Stmt.written]
        · simp at h
      · simp only [Outcome.done.injEq] at h; subst h; rfl
  | assign v => simp only [execStmt, Outcome.done.injEq] at h; subst h; rfl
  | wakeOne cv => simp only [execStmt, Outcome.done.injEq] at h; subst h; simp [Stmt.written]
  | unlock =>
    simp only [execStmt] at h
    split at h
    · simp only [Outcome.done.injEq] at h; subst h; rfl
    · simp at h


theorem beginPhase_length (r : Role) : (beginPhase r).length = 2 := by cases r <;> rfl

theorem beginPhase_eq (r : Role) : beginPhase r = [.lock, .waitUntil r.awaited r.waitsOn] := by
  cases r <;> rfl

theorem endPhase_eq (r : Role) :
    endPhase r = [.assign r.published, .wakeOne r.signals, .unlock] := by
  cases r <;> rfl

theorem Inv.not_inWait {s : Pipeline} (h : Inv s) {r : Role} (hpc : (s.thread r).pc ≠ 1) :
    (s.thread r).inWait = false := by
  cases hw : (s.thread r).inWait
  · rfl
  · exact absurd ((h.thr r).2.2 hw) hpc

theorem Inv.buf_at {s : Pipeline} (h : Inv s) (r : Role) :
    ∃ b, s.pool[(s.thread r).cursor]? = some b :=
  ⟨_, List.getElem?_eq_getElem (h.thr r).1⟩

theorem Inv.working_spec {s : Pipeline} (h : Inv s) {r : Role} (hw : s.working r) :
    ∃ b, s.pool[(s.thread r).cursor]? = some b ∧ b.mutex = some r ∧ b.state = r.awaited := by
  obtain ⟨b, hb⟩ := h.buf_at r
  have hpc : (s.thread r).pc = 2 := by rw [← beginPhase_length r]; exact hw
  have hB := h.buf _ _ hb
  exact ⟨b, hb, (hB.mutex r).2 ⟨rfl, h.not_inWait (by omega), by omega⟩, hB.awaited r rfl hpc⟩

theorem signals_of_published {p r : Role} (h : p.published = r.awaited) :
    p.signals = r.waitsOn := by
  cases p <;> cases r <;> simp [Role.published, Role.awaited] at h <;> rfl

theorem published_of_signals {p r : Role} (h : p.signals = r.waitsOn) :
    p.published = r.awaited := by
  cases p <;> cases r <;> simp [Role.signals, Role.waitsOn] at h <;> rfl

theorem eraseIdx_short {α : Type} (l : List α) (k : Nat) (h : l.length ≤ 1) :
    l.eraseIdx (k % l.length) = [] := by
  match l, h with
  | [], _ => rfl
  | [a], _ => simp [Nat.mod_one]

theorem Pipeline.pool_upd_same {s : Pipeline} {c : Nat} {b b1 : LoadBuffer}
    (hb : s.pool[c]? = some b) : (s.setBuf c b1).pool[c]? = some b1 := by
  have hlt : c < s.pool.length := (List.getElem?_eq_some.1 hb).1
  simp [List.getElem?_set, hlt]

theorem Pipeline.pool_upd_ne {s : Pipeline} {c i : Nat} {b1 : LoadBuffer}
    (hi : i ≠ c) : (s.setBuf c b1).pool[i]? = s.pool[i]? := by
  simp [List.getElem?_set, Ne.symm hi]

theorem NoLostWakeup.carried {s : Pipeline} {q : Role} {b b1 : LoadBuffer} {th : ThreadState}
    (hn : NoLostWakeup s) (hb : s.pool[(s.thread q).cursor]? = some b)
    (h1 : Inv ((s.setBuf (s.thread q).cursor b1).setThread q th))
    (hw : ∀ r cv, r ≠ q → r ∈ b1.waiters cv → r ∈ b.waiters cv)
    (hcur : th.pc = 1 → th.cursor = (s.thread q).cursor)
    (hq : th.pc = 1 → th.inWait = true → q ∈ b1.waiters q.waitsOn → b1.state ≠ q.awaited)
    (hst : b1.state = b.state ∨
      (th.cursor = (s.thread q).cursor ∧ th.pc = 3 ∧ b1.state = q.published))
    (hp : (s.thread q).pc = 3 →
      (th.pc = 3 ∧ th.cursor = (s.thread q).cursor) ∨ b1.waiters q.signals = []) :
    NoLostWakeup ((s.setBuf (s.thread q).cursor b1).setThread q th) := by
  intro r b2 hb2 hmem hstate
  by_cases hrq : r = q
  · subst hrq
    exfalso
    have hB := h1.buf _ _ hb2
    have hr := hB.waiters r _ hmem
    simp only [Pipeline.thread_setThread, if_true] at hr hb2
    simp only [Pipeline.pool_setThread] at hb2
    rw [hcur hr.2.1, Pipeline.pool_upd_same hb] at hb2
    obtain rfl := Option.some.inj hb2
    exact hq hr.2.1 hr.2.2.1 hmem hstate
  · simp only [Pipeline.thread_setThread, if_neg hrq, Pipeline.pool_setThread,
      Pipeline.thread_setBuf] at hb2 ⊢
    by_cases hc : (s.thread r).cursor = (s.thread q).cursor
    · rw [hc, Pipeline.pool_upd_same hb] at hb2
      obtain rfl := Option.some.inj hb2
      have hmem0 := hw r _ hrq hmem
      rcases hst with hst | ⟨hst1, hst2, hst3⟩
      · rw [hst] at hstate
        obtain ⟨p, hp1, hp2, hp3⟩ := hn r b (hc ▸ hb) hmem0 hstate
        by_cases hpq : p = q
        · subst hpq
          rcases hp hp3 with ⟨hp4, hp5⟩ | hp4
          · exact ⟨p, hp1, by simp [hp5, hc], by simp [hp4]⟩
          · rw [← hp1, hp4] at hmem; simp at hmem
        · exact ⟨p, hp1, by simp [hpq, hp2], by simp [hpq, hp3]⟩
      · refine ⟨q, signals_of_published (hst3 ▸ hstate), by simp [hst1, hc], by simp [hst2]⟩
    · rw [Pipeline.pool_upd_ne hc] at hb2
      obtain ⟨p, hp1, hp2, hp3⟩ := hn r b2 hb2 hmem hstate
      have hpq : p ≠ q := by
        rintro rfl
        exact hc hp2.symm
      exact ⟨p, hp1, by simp [hpq, hp2], by simp [hpq, hp3]⟩

theorem NoLostWakeup.kept {s s1 : Pipeline} {a : Action} (h : Inv s) (hn : NoLostWakeup s)
    (ht : Trans s a s1) : NoLostWakeup s1 := by
  have h1 := h.preserved ht
  cases ht with
  | lock r pick b hb hpc hm =>
    refine hn.carried hb h1 (fun r cv _ hm => by simpa using hm) (fun _ => rfl) ?_
      (Or.inl rfl) (fun h3 => by omega)
    intro _ hw; simp at hw
  | sleep r pick b hb hpc hw hs hm =>
    refine hn.carried hb h1 ?_ (fun _ => rfl) (fun _ _ _ => by simpa using hs)
      (Or.inl (by simp)) (fun h3 => by omega)
    intro r1 cv hr1 hmem
    simp only [waiters_mutex, waiters_setWaiters] at hmem
    split at hmem
    · rename_i hcv
      subst hcv
      rcases List.mem_cons.1 hmem with h2 | h2
      · exact absurd h2 hr1
      · exact h2
    · exact hmem
  | pass r pick b hb hpc hw hs =>
    refine hn.carried hb h1 (fun r cv _ hm => hm) (fun _ => rfl) ?_
      (Or.inl rfl) (fun h3 => by omega)
    intro h2; simp at h2
  | relock r pick b hb hpc hw hn1 hm =>
    refine hn.carried hb h1 (fun r cv _ hm => by simpa using hm) (fun _ => rfl) ?_
      (Or.inl rfl) (fun h3 => by omega)
    intro _ hw; simp at hw
  | assign r pick b hb hpc =>
    refine hn.carried hb h1 (fun r cv _ hm => by simpa using hm) (fun _ => rfl) ?_
      (Or.inr ⟨rfl, rfl, rfl⟩) (fun h3 => by omega)
    intro h2; simp at h2
  | wake r pick b hb hpc =>
    refine hn.carried hb h1 ?_ (fun _ => rfl) ?_ (Or.inl (by simp)) ?_
    · intro r1 cv _ hmem
      simp only [waiters_setWaiters] at hmem
      split at hmem
      · rename_i hcv; subst hcv; exact List.mem_of_mem_eraseIdx hmem
      · exact hmem
    · intro h2; simp at h2
    · intro _
      right
      simp only [waiters_setWaiters, if_true]
      exact eraseIdx_short _ _ ((h.buf _ _ hb).short _)
  | unlock r pick b hb hpc hm =>
    refine hn.carried hb h1 (fun r cv _ hm => by simpa using hm) ?_ ?_
      (Or.inl rfl) (fun h3 => by omega)
    · intro h2; simp at h2
    · intro h2; simp at h2
  | spurious r b hb hpc hw =>
    have he : (s.setBuf (s.thread r).cursor (b.dequeue r.waitsOn r)).setThread r (s.thread r) =
        s.setBuf (s.thread r).cursor (b.dequeue r.waitsOn r) := by
      cases r <;> rfl
    rw [← he] at h1 ⊢
    refine hn.carried hb h1 ?_ (fun _ => rfl) ?_ (Or.inl (by simp [LoadBuffer.dequeue]))
      (fun h3 => by omega)
    · intro r1 cv _ hmem
      simp only [LoadBuffer.dequeue, waiters_setWaiters] at hmem
      split at hmem
      · rename_i hcv; subst hcv; exact (List.mem_filter.1 hmem).1
      · exact hmem
    · intro _ _ hmem
      simp [LoadBuffer.dequeue] at hmem
  | stutter r => exact hn

theorem NoLostWakeup.atStart {s : Pipeline} (h : s.isInitial = true) : NoLostWakeup s := by
  intro r b hb hmem _
  exfalso
  have := ((Inv.initially h).buf _ _ hb).waiters r _ hmem
  rw [Pipeline.thread_of_isInitial h r] at this
  simp at this

theorem mod_window {n c m k : Nat} (hm : c ≤ m) (hm1 : m < c + n) (hk : c ≤ k)
    (hk1 : k < c + n) (h : m % n = k % n) : m = k := by
  rcases Nat.le_total m k with hle | hle
  · have h0 : (k - m) % n = 0 := Nat.sub_mod_eq_zero_of_mod_eq h.symm
    rw [Nat.mod_eq_of_lt (by omega)] at h0
    omega
  · have h0 : (m - k) % n = 0 := Nat.sub_mod_eq_zero_of_mod_eq h
    rw [Nat.mod_eq_of_lt (by omega)] at h0
    omega

theorem Pipeline.stateAt_upd {s : Pipeline} {q : Role} {c : Nat} {b b1 : LoadBuffer}
    {th : ThreadState} (hb : s.pool[c]? = some b) (i : Nat) :
    ((s.setBuf c b1).setThread q th).stateAt i =
      if i = c then some b1.state else s.stateAt i := by
  unfold Pipeline.stateAt
  simp only [Pipeline.pool_setThread]
  by_cases hi : i = c
  · subst hi; rw [Pipeline.pool_upd_same hb]; simp
  · rw [Pipeline.pool_upd_ne hi]; simp [hi]

theorem Pipeline.stateAt_upd_same {s : Pipeline} {q : Role} {c : Nat} {b b1 : LoadBuffer}
    {th : ThreadState} (hb : s.pool[c]? = some b) (hst : b1.state = b.state) (i : Nat) :
    ((s.setBuf c b1).setThread q th).stateAt i = s.stateAt i := by
  rw [Pipeline.stateAt_upd hb]
  split
  · rename_i hi; subst hi; simp [Pipeline.stateAt, hb, hst]
  · rfl

theorem Ring.keep {s s1 : Pipeline} {l t c : Nat} (h : Ring s l t c)
    (hlen : s1.pool.length = s.pool.length) (hst : ∀ i, s1.stateAt i = s.stateAt i)
    (hcur : ∀ r k, s.cursorAt r k → s1.cursorAt r k) : Ring s1 l t c := by
  constructor
  · exact h.ct
  · exact h.tl
  · rw [hlen]; exact h.lc
  · exact hcur _ _ h.loader
  · exact hcur _ _ h.tokenizer
  · exact hcur _ _ h.consumer
  · intro m hm hm1
    rw [hlen] at hm1 ⊢
    rw [hst]
    exact h.states m hm hm1

theorem Pipeline.cursorAt_upd {s : Pipeline} {q r : Role} {c k : Nat} {b1 : LoadBuffer}
    {th : ThreadState} (hr : r ≠ q) :
    ((s.setBuf c b1).setThread q th).cursorAt r k ↔ s.cursorAt r k := by
  simp [Pipeline.cursorAt, hr]

theorem Pipeline.cursorAt_upd_self {s : Pipeline} {q : Role} {c k : Nat} {b1 : LoadBuffer}
    {th : ThreadState} :
    ((s.setBuf c b1).setThread q th).cursorAt q k ↔
      if 3 ≤ th.pc then 1 ≤ k ∧ th.cursor = (k - 1) % s.pool.length
      else th.cursor = k % s.pool.length := by
  simp [Pipeline.cursorAt]

/-- A step that leaves the lifecycle alone and does not take the thread across
its assignment keeps the counts. -/
theorem Ring.keep_upd {s : Pipeline} {q : Role} {b b1 : LoadBuffer} {th : ThreadState}
    {l t c : Nat} (h : Ring s l t c) (hb : s.pool[(s.thread q).cursor]? = some b)
    (hst : b1.state = b.state)
    (hth : (th.cursor = (s.thread q).cursor ∧ (3 ≤ th.pc ↔ 3 ≤ (s.thread q).pc)) ∨
      (3 ≤ (s.thread q).pc ∧ th.pc < 3 ∧
        th.cursor = ((s.thread q).cursor + 1) % s.pool.length)) :
    Ring ((s.setBuf (s.thread q).cursor b1).setThread q th) l t c := by
  refine h.keep (by simp) (Pipeline.stateAt_upd_same hb hst) ?_
  intro r k hk
  by_cases hr : r = q
  · subst hr
    rw [Pipeline.cursorAt_upd_self]
    unfold Pipeline.cursorAt at hk
    rcases hth with ⟨h1, h2⟩ | ⟨h1, h2, h3⟩
    · by_cases h3 : 3 ≤ (s.thread r).pc
      · rw [if_pos h3] at hk; rw [if_pos (h2.2 h3), h1]; exact hk
      · rw [if_neg h3] at hk; rw [if_neg (fun h4 => h3 (h2.1 h4)), h1]; exact hk
    · rw [if_pos h1] at hk
      rw [if_neg (by omega), h3, hk.2, Nat.mod_add_mod]
      congr 1
      omega
  · rw [Pipeline.cursorAt_upd hr]; exact hk

theorem Pipeline.stateAt_of_get {s : Pipeline} {i : Nat} {b : LoadBuffer}
    (hb : s.pool[i]? = some b) : s.stateAt i = some b.state := by
  simp [Pipeline.stateAt, hb]

theorem Ring.assign {s : Pipeline} {r : Role} {b : LoadBuffer} {l t c : Nat} (h : Inv s)
    (hr : Ring s l t c) (hb : s.pool[(s.thread r).cursor]? = some b)
    (hpc : (s.thread r).pc = 2) :
    ∃ l1 t1 c1, Ring ((s.setBuf (s.thread r).cursor { b with state := r.published }).setThread r
      ⟨(s.thread r).cursor, 3, false⟩) l1 t1 c1 := by
  have hst : b.state = r.awaited := (h.buf _ _ hb).awaited r rfl hpc
  have hsa := Pipeline.stateAt_of_get hb
  have hpos := h.pos
  cases r with
  | Loader =>
    have hcur : (s.thread .Loader).cursor = l % s.pool.length := by
      have := hr.loader
      unfold Pipeline.cursorAt at this
      rwa [if_neg (by omega)] at this
    have hlt : l < c + s.pool.length := by
      by_contra hge
      have hl : l = c + s.pool.length := by have := hr.lc; omega
      have h1 := hr.states c (le_refl _) (by omega)
      have h2 : c % s.pool.length = l % s.pool.length := by rw [hl, Nat.add_mod_right]
      rw [h2, ← hcur, hsa, hst] at h1
      simp only [Option.some.injEq, Role.awaited, ringState] at h1
      split_ifs at h1
      omega
    refine ⟨l + 1, t, c, ?_⟩
    constructor
    · exact hr.ct
    · have := hr.tl; omega
    · simpa using hlt
    · rw [Pipeline.cursorAt_upd_self]; simpa using hcur
    · rw [Pipeline.cursorAt_upd (by decide)]; exact hr.tokenizer
    · rw [Pipeline.cursorAt_upd (by decide)]; exact hr.consumer
    · intro m hm hm1
      simp only [Pipeline.pool_setThread, Pipeline.pool_setBuf, List.length_set] at hm1 ⊢
      rw [Pipeline.stateAt_upd hb]
      have htl := hr.tl
      have hct := hr.ct
      by_cases hmc : m % s.pool.length = (s.thread .Loader).cursor
      · rw [if_pos hmc]
        have : m = l := mod_window hm hm1 (by omega) hlt (by rw [hmc, hcur])
        subst this
        simp only [Role.published, ringState, Option.some.injEq]
        rw [if_neg (by omega), if_pos (by omega)]
      · rw [if_neg hmc, hr.states m hm hm1]
        have hne : m ≠ l := by rintro rfl; exact hmc hcur.symm
        simp only [ringState, Option.some.injEq]
        split_ifs <;> first | rfl | omega
  | Tokenizer =>
    have hcur : (s.thread .Tokenizer).cursor = t % s.pool.length := by
      have := hr.tokenizer
      unfold Pipeline.cursorAt at this
      rwa [if_neg (by omega)] at this
    have htl := hr.tl
    have hct := hr.ct
    have hlc := hr.lc
    have hlt : t < l := by
      by_contra hge
      have hl : t = l := by omega
      by_cases hw : t < c + s.pool.length
      · have h1 := hr.states t hct hw
        rw [← hcur, hsa, hst] at h1
        simp only [Option.some.injEq, Role.awaited, ringState] at h1
        split_ifs at h1
      · have ht : t = c + s.pool.length := by omega
        have h1 := hr.states c (le_refl _) (by omega)
        have h2 : c % s.pool.length = t % s.pool.length := by rw [ht, Nat.add_mod_right]
        rw [h2, ← hcur, hsa, hst] at h1
        simp only [Option.some.injEq, Role.awaited, ringState] at h1
        split_ifs at h1
        omega
    refine ⟨l, t + 1, c, ?_⟩
    constructor
    · omega
    · omega
    · simpa using hlc
    · rw [Pipeline.cursorAt_upd (by decide)]; exact hr.loader
    · rw [Pipeline.cursorAt_upd_self]; simpa using hcur
    · rw [Pipeline.cursorAt_upd (by decide)]; exact hr.consumer
    · intro m hm hm1
      simp only [Pipeline.pool_setThread, Pipeline.pool_setBuf, List.length_set] at hm1 ⊢
      rw [Pipeline.stateAt_upd hb]
      by_cases hmc : m % s.pool.length = (s.thread .Tokenizer).cursor
      · rw [if_pos hmc]
        have : m = t := mod_window hm hm1 hct (by omega) (by rw [hmc, hcur])
        subst this
        simp only [Role.published, ringState, Option.some.injEq]
        rw [if_pos (by omega)]
      · rw [if_neg hmc, hr.states m hm hm1]
        have hne : m ≠ t := by rintro rfl; exact hmc hcur.symm
        simp only [ringState, Option.some.injEq]
        split_ifs <;> first | rfl | omega
  | Consumer =>
    have hcur : (s.thread .Consumer).cursor = c % s.pool.length := by
      have := hr.consumer
      unfold Pipeline.cursorAt at this
      rwa [if_neg (by omega)] at this
    have htl := hr.tl
    have hct := hr.ct
    have hlc := hr.lc
    have hlt : c < t := by
      by_contra hge
      have h1 := hr.states c (le_refl _) (by omega)
      rw [← hcur, hsa, hst] at h1
      simp only [Option.some.injEq, Role.awaited, ringState] at h1
      split_ifs at h1
    refine ⟨l, t, c + 1, ?_⟩
    constructor
    · omega
    · omega
    · simp only [Pipeline.pool_setThread, Pipeline.pool_setBuf, List.length_set]; omega
    · rw [Pipeline.cursorAt_upd (by decide)]; exact hr.loader
    · rw [Pipeline.cursorAt_upd (by decide)]; exact hr.tokenizer
    · rw [Pipeline.cursorAt_upd_self]; simpa using hcur
    · intro m hm hm1
      simp only [Pipeline.pool_setThread, Pipeline.pool_setBuf, List.length_set] at hm1 ⊢
      rw [Pipeline.stateAt_upd hb]
      by_cases hmc : m % s.pool.length = (s.thread .Consumer).cursor
      · rw [if_pos hmc]
        have : m = c + s.pool.length :=
          mod_window (c := c + 1) hm hm1 (by omega) (by omega)
            (by rw [hmc, hcur, Nat.add_mod_right])
        subst this
        simp only [Role.published, ringState, Option.some.injEq]
        rw [if_neg (by omega), if_neg (by omega)]
      · rw [if_neg hmc]
        have hne : m ≠ c + s.pool.length := by
          rintro rfl
          exact hmc (by rw [hcur, Nat.add_mod_right])
        exact hr.states m (by omega) (by omega)

theorem Ring.advance {s s1 : Pipeline} {a : Action} {l t c : Nat} (h : Inv s) (hr : Ring s l t c)
    (ht : Trans s a s1) : ∃ l1 t1 c1, Ring s1 l1 t1 c1 := by
  cases ht with
  | lock r pick b hb hpc hm =>
    exact ⟨l, t, c, hr.keep_upd hb rfl (Or.inl ⟨rfl, by simp [hpc]⟩)⟩
  | sleep r pick b hb hpc hw hs hm =>
    exact ⟨l, t, c, hr.keep_upd hb (by simp) (Or.inl ⟨rfl, by simp [hpc]⟩)⟩
  | pass r pick b hb hpc hw hs =>
    exact ⟨l, t, c, hr.keep_upd hb rfl (Or.inl ⟨rfl, by simp [hpc]⟩)⟩
  | relock r pick b hb hpc hw hn hm =>
    exact ⟨l, t, c, hr.keep_upd hb rfl (Or.inl ⟨rfl, by simp [hpc]⟩)⟩
  | assign r pick b hb hpc => exact hr.assign h hb hpc
  | wake r pick b hb hpc =>
    exact ⟨l, t, c, hr.keep_upd hb (by simp) (Or.inl ⟨rfl, by simp [hpc]⟩)⟩
  | unlock r pick b hb hpc hm =>
    exact ⟨l, t, c, hr.keep_upd hb rfl (Or.inr ⟨by omega, by simp, rfl⟩)⟩
  | spurious r b hb hpc hw =>
    have he : (s.setBuf (s.thread r).cursor (b.dequeue r.waitsOn r)).setThread r (s.thread r) =
        s.setBuf (s.thread r).cursor (b.dequeue r.waitsOn r) := by
      cases r <;> rfl
    rw [← he]
    exact ⟨l, t, c, hr.keep_upd hb (by simp [LoadBuffer.dequeue]) (Or.inl ⟨rfl, Iff.rfl⟩)⟩
  | stutter r => exact ⟨l, t, c, hr⟩

theorem Ring.zero {s : Pipeline} (h : s.isInitial = true) : Ring s 0 0 0 := by
  have hth := Pipeline.thread_of_isInitial h
  have hinv := Inv.initially h
  simp only [Pipeline.isInitial, Bool.and_eq_true, beq_iff_eq, bne_iff_ne, ne_eq,
    List.all_eq_true] at h
  obtain ⟨⟨⟨⟨hne, hall⟩, -⟩, -⟩, -⟩ := h
  constructor
  · exact le_refl _
  · exact le_refl _
  · omega
  · simp [Pipeline.cursorAt, hth]
  · simp [Pipeline.cursorAt, hth]
  · simp [Pipeline.cursorAt, hth]
  · intro m _ hm
    have hlt : m % s.pool.length < s.pool.length := Nat.mod_lt _ hinv.pos
    have hf := hall _ (List.getElem_mem hlt)
    simp only [LoadBuffer.isFresh, Bool.and_eq_true, beq_iff_eq] at hf
    simp [Pipeline.stateAt, List.getElem?_eq_getElem hlt, hf.1.1.1.1, ringState]

theorem Ring.counts {acts : List Action} : ∀ {s s1 : Pipeline} {l t c : Nat}, Inv s →
    Ring s l t c → s.exec acts = some s1 → ∃ l1 t1 c1, Ring s1 l1 t1 c1 := by
  induction acts with
  | nil =>
    intro s s1 l t c _ hr he
    simp only [Pipeline.exec, Option.some.injEq] at he
    exact ⟨l, t, c, he ▸ hr⟩
  | cons a rest ih =>
    intro s s1 l t c h hr he
    simp only [Pipeline.exec] at he
    split at he
    · rename_i s2 hs2
      obtain ⟨l1, t1, c1, hr1⟩ := hr.advance h (step_trans hs2)
      exact ih (h.preserved (step_trans hs2)) hr1 he
    · simp at he

theorem NoLostWakeup.throughout {acts : List Action} : ∀ {s s1 : Pipeline}, Inv s →
    NoLostWakeup s → s.exec acts = some s1 → NoLostWakeup s1 := by
  induction acts with
  | nil =>
    intro s s1 _ hn he
    simp only [Pipeline.exec, Option.some.injEq] at he
    exact he ▸ hn
  | cons a rest ih =>
    intro s s1 h hn he
    simp only [Pipeline.exec] at he
    split at he
    · rename_i s2 hs2
      exact ih (h.preserved (step_trans hs2)) (hn.kept h (step_trans hs2)) he
    · simp at he

theorem Pipeline.asleep_iff {s : Pipeline} {r : Role} {b : LoadBuffer}
    (hb : s.pool[(s.thread r).cursor]? = some b) :
    s.asleep r = true ↔ (s.thread r).inWait = true ∧ r ∈ b.waiters r.waitsOn := by
  simp [Pipeline.asleep, hb]

theorem Inv.not_all_asleep {s : Pipeline} {l t c : Nat} (h : Inv s) (hn : NoLostWakeup s)
    (hr : Ring s l t c) : ¬ ∀ r, s.asleep r = true := by
  intro hall
  have hpc : ∀ r, (s.thread r).pc = 1 := by
    intro r
    obtain ⟨b, hb⟩ := h.buf_at r
    exact (h.thr r).2.2 ((Pipeline.asleep_iff hb).1 (hall r)).1
  have hstate : ∀ r, s.stateAt (s.thread r).cursor ≠ some r.awaited := by
    intro r hst
    obtain ⟨b, hb⟩ := h.buf_at r
    rw [Pipeline.stateAt_of_get hb] at hst
    obtain ⟨p, -, -, hp⟩ := hn r b hb ((Pipeline.asleep_iff hb).1 (hall r)).2
      (Option.some.inj hst)
    rw [hpc p] at hp
    omega
  have hcur : ∀ r k, s.cursorAt r k → (s.thread r).cursor = k % s.pool.length := by
    intro r k hk
    unfold Pipeline.cursorAt at hk
    rwa [if_neg (by rw [hpc r]; omega)] at hk
  have hL := hstate .Loader
  have hT := hstate .Tokenizer
  have hC := hstate .Consumer
  rw [hcur _ _ hr.loader] at hL
  rw [hcur _ _ hr.tokenizer] at hT
  rw [hcur _ _ hr.consumer] at hC
  have hct := hr.ct
  have htl := hr.tl
  have hlc := hr.lc
  have hpos := h.pos
  have h1 : ¬ c < t := by
    intro hlt
    apply hC
    rw [hr.states c (le_refl _) (by omega)]
    simp [ringState, Role.awaited, hlt]
  have h2 : ¬ t < l := by
    intro hlt
    apply hT
    rw [hr.states t hct (by omega)]
    simp [ringState, Role.awaited, hlt]
  have h3 : ¬ l < c + s.pool.length := by
    intro hlt
    apply hL
    rw [hr.states l (by omega) hlt]
    have : ¬ l < t := by omega
    simp [ringState, Role.awaited, this]
  omega

theorem Inv.can_run {s : Pipeline} (h : Inv s) {r : Role} {b : LoadBuffer}
    (hb : s.pool[(s.thread r).cursor]? = some b)
    (hen : ((s.thread r).pc = 0 ∧ b.mutex = none) ∨
      ((s.thread r).pc = 1 ∧ (s.thread r).inWait = false) ∨
      ((s.thread r).pc = 1 ∧ (s.thread r).inWait = true ∧ r ∉ b.waiters r.waitsOn ∧
        b.mutex = none) ∨
      2 ≤ (s.thread r).pc) (pick : Nat) :
    ∃ s1, s.step (.run r pick) = .done s1 := by
  have hB := h.buf _ _ hb
  have hlt := (h.thr r).2.1
  rcases hen with ⟨hpc, hm⟩ | ⟨hpc, hw⟩ | ⟨hpc, hw, hq, hm⟩ | hpc
  · simp [Pipeline.step, hb, roundCode_eq, hpc, execStmt, hm]
  · have hm : b.mutex = some r := (hB.mutex r).2 ⟨rfl, hw, by omega⟩
    by_cases hs : b.state = r.awaited
    · simp [Pipeline.step, hb, roundCode_eq, hpc, execStmt, hm, hw, hs]
    · simp [Pipeline.step, hb, roundCode_eq, hpc, execStmt, hm, hw, hs]
  · simp [Pipeline.step, hb, roundCode_eq, hpc, execStmt, hm, hw, hq]
  · have hm : b.mutex = some r := (hB.mutex r).2 ⟨rfl, h.not_inWait (by omega), by omega⟩
    have : (s.thread r).pc = 2 ∨ (s.thread r).pc = 3 ∨ (s.thread r).pc = 4 := by omega
    rcases this with hpc | hpc | hpc
    · simp [Pipeline.step, hb, roundCode_eq, hpc, execStmt]
    · simp [Pipeline.step, hb, roundCode_eq, hpc, execStmt]
    · simp [Pipeline.step, hb, roundCode_eq, hpc, execStmt, hm]

theorem Inv.some_can_run {s : Pipeline} {l t c : Nat} (h : Inv s) (hn : NoLostWakeup s)
    (hr : Ring s l t c) : ∃ r, ∀ pick, ∃ s1, s.step (.run r pick) = .done s1 := by
  by_contra hno
  simp only [not_exists, not_forall] at hno
  have hstuck : ∀ r b, s.pool[(s.thread r).cursor]? = some b →
      ¬ (((s.thread r).pc = 0 ∧ b.mutex = none) ∨
      ((s.thread r).pc = 1 ∧ (s.thread r).inWait = false) ∨
      ((s.thread r).pc = 1 ∧ (s.thread r).inWait = true ∧ r ∉ b.waiters r.waitsOn ∧
        b.mutex = none) ∨
      2 ≤ (s.thread r).pc) := by
    intro r b hb hen
    obtain ⟨pick, hp⟩ := hno r
    obtain ⟨s1, hs1⟩ := h.can_run hb hen pick
    exact hp s1 hs1
  have hfree : ∀ (i : Nat) (b : LoadBuffer), s.pool[i]? = some b → b.mutex = none := by
    intro i b hb
    cases hm : b.mutex with
    | none => rfl
    | some q =>
      exfalso
      obtain ⟨hc, hw, hpc⟩ := ((h.buf _ _ hb).mutex q).1 hm
      apply hstuck q b (hc ▸ hb)
      by_cases h1 : (s.thread q).pc = 1
      · exact Or.inr (Or.inl ⟨h1, hw⟩)
      · exact Or.inr (Or.inr (Or.inr (by omega)))
  apply h.not_all_asleep hn hr
  intro r
  obtain ⟨b, hb⟩ := h.buf_at r
  have hs := hstuck r b hb
  have hm := hfree _ _ hb
  simp only [not_or, not_and, not_le] at hs
  obtain ⟨hs0, hs1, hs2, hs3⟩ := hs
  have hpc : (s.thread r).pc = 1 := by
    by_contra h1
    exact hs0 (by omega) hm
  have hw : (s.thread r).inWait = true := by
    cases hw : (s.thread r).inWait
    · exact absurd hw (hs1 hpc)
    · rfl
  rw [Pipeline.asleep_iff hb]
  refine ⟨hw, ?_⟩
  by_contra hq
  exact hs2 hpc hw hq hm

theorem Inv.atWork_mutex {s : Pipeline} (h : Inv s) {r : Role} {i : Nat} {b : LoadBuffer}
    (hb : s.pool[i]? = some b) (hw : s.atWork r i) : b.mutex = some r :=
  ((h.buf _ _ hb).mutex r).2 ⟨hw.1, h.not_inWait (by have := hw.2; omega), by have := hw.2; omega⟩

theorem Inv.atWork_unique {s : Pipeline} (h : Inv s) {r r1 : Role} {i : Nat}
    (hw : s.atWork r i) (hw1 : s.atWork r1 i) : r = r1 := by
  have hi : i < s.pool.length := hw.1 ▸ (h.thr r).1
  have hb := List.getElem?_eq_getElem hi
  have h1 := h.atWork_mutex hb hw
  have h2 := h.atWork_mutex hb hw1
  rw [h1] at h2
  exact Option.some.inj h2

theorem Inv.phase_atWork {s : Pipeline} (h : Inv s) {r : Role} {i : Nat} (hw : s.atWork r i) :
    s.phase i = 2 * r.idx + 1 := by
  unfold Pipeline.phase
  cases r with
  | Loader => rw [if_pos hw]; rfl
  | Tokenizer =>
    rw [if_neg (fun h1 => by have := h.atWork_unique hw h1; cases this), if_pos hw]; rfl
  | Consumer =>
    rw [if_neg (fun h1 => by have := h.atWork_unique hw h1; cases this),
      if_neg (fun h1 => by have := h.atWork_unique hw h1; cases this), if_pos hw]; rfl

theorem Pipeline.phase_idle {s : Pipeline} {i : Nat} {st : loadbufferstate_t}
    (hw : ∀ r, ¬ s.atWork r i) (hst : s.stateAt i = some st) : s.phase i = 2 * st.owner.idx := by
  unfold Pipeline.phase
  rw [if_neg (hw _), if_neg (hw _), if_neg (hw _), hst]

theorem Pipeline.phase_congr {s s1 : Pipeline} {i : Nat}
    (hw : ∀ r, s1.atWork r i ↔ s.atWork r i)
    (hst : s1.stateAt i = s.stateAt i ∨ ∃ r, s.atWork r i) : s1.phase i = s.phase i := by
  unfold Pipeline.phase
  simp only [hw]
  rcases hst with hst | ⟨r, hr⟩
  · rw [hst]
  · cases r
    · rw [if_pos hr, if_pos hr]
    · rw [if_pos hr, if_pos hr]
    · rw [if_pos hr, if_pos hr]

theorem cycleEvent_mod (i k : Nat) : cycleEvent i (k % 6) = cycleEvent i k := by
  unfold cycleEvent cycleRole
  have h1 : k % 6 % 2 = k % 2 := by omega
  have h2 : k % 6 / 2 % 3 = k / 2 % 3 := by omega
  rw [h1, h2]

theorem cycleEvent_begin (i : Nat) (r : Role) :
    cycleEvent i (2 * r.idx) = .beginReturned r i := by
  cases r <;> rfl

theorem cycleEvent_end (i : Nat) (r : Role) :
    cycleEvent i (2 * r.idx + 1) = .endCompleted r i := by
  cases r <;> rfl

theorem owner_awaited (r : Role) : r.awaited.owner = r := by cases r <;> rfl

theorem owner_published (r : Role) : 2 * r.published.owner.idx = (2 * r.idx + 1 + 1) % 6 := by
  cases r <;> rfl

theorem Pipeline.atWork_upd {s : Pipeline} {q r : Role} {c i : Nat} {b1 : LoadBuffer}
    {th : ThreadState} (hr : r ≠ q) :
    ((s.setBuf c b1).setThread q th).atWork r i ↔ s.atWork r i := by
  simp [Pipeline.atWork, hr]

theorem Pipeline.atWork_upd_self {s : Pipeline} {q : Role} {c i : Nat} {b1 : LoadBuffer}
    {th : ThreadState} :
    ((s.setBuf c b1).setThread q th).atWork q i ↔ (th.cursor = i ∧ 2 ≤ th.pc) := by
  simp [Pipeline.atWork]

theorem Pipeline.phase_quiet {s : Pipeline} {q : Role} {b b1 : LoadBuffer} {th : ThreadState}
    {i : Nat} (hb : s.pool[(s.thread q).cursor]? = some b)
    (hw : (th.cursor = i ∧ 2 ≤ th.pc) ↔ s.atWork q i)
    (hst : b1.state = b.state ∨ 2 ≤ (s.thread q).pc) :
    ((s.setBuf (s.thread q).cursor b1).setThread q th).phase i = s.phase i := by
  apply Pipeline.phase_congr
  · intro r
    by_cases hr : r = q
    · subst hr; rw [Pipeline.atWork_upd_self]; exact hw
    · exact Pipeline.atWork_upd hr
  · rw [Pipeline.stateAt_upd hb]
    by_cases hi : i = (s.thread q).cursor
    · rw [if_pos hi]
      rcases hst with hst | hst
      · left; rw [hst, hi, Pipeline.stateAt_of_get hb]
      · right; exact ⟨q, hi.symm, hst⟩
    · rw [if_neg hi]; left; rfl

theorem Trans.phase_step {s s1 : Pipeline} {a : Action} (h : Inv s) (ht : Trans s a s1)
    (i : Nat) :
    ((s.eventsOf s1 a).filter (fun e => e.buf == i) = [] ∧ s1.phase i = s.phase i) ∨
    ((s.eventsOf s1 a).filter (fun e => e.buf == i) = [cycleEvent i (s.phase i)] ∧
      s1.phase i = (s.phase i + 1) % 6) := by
  have h1 := h.preserved ht
  cases ht with
  | lock r pick b hb hpc hm =>
    left
    refine ⟨by simp [Pipeline.eventsOf, beginPhase_length, hpc], ?_⟩
    exact Pipeline.phase_quiet hb (by simp [Pipeline.atWork, hpc]) (Or.inl rfl)
  | sleep r pick b hb hpc hw hs hm =>
    left
    refine ⟨by simp [Pipeline.eventsOf, beginPhase_length, hpc], ?_⟩
    exact Pipeline.phase_quiet hb (by simp [Pipeline.atWork, hpc]) (Or.inl (by simp))
  | relock r pick b hb hpc hw hn hm =>
    left
    refine ⟨by simp [Pipeline.eventsOf, beginPhase_length, hpc], ?_⟩
    exact Pipeline.phase_quiet hb (by simp [Pipeline.atWork, hpc]) (Or.inl rfl)
  | assign r pick b hb hpc =>
    left
    refine ⟨by simp [Pipeline.eventsOf, beginPhase_length, hpc], ?_⟩
    exact Pipeline.phase_quiet hb (by simp [Pipeline.atWork, hpc]) (Or.inr (by omega))
  | wake r pick b hb hpc =>
    left
    refine ⟨by simp [Pipeline.eventsOf, beginPhase_length, hpc], ?_⟩
    exact Pipeline.phase_quiet hb (by simp [Pipeline.atWork, hpc]) (Or.inl (by simp))
  | spurious r b hb hpc hw =>
    left
    refine ⟨by simp [Pipeline.eventsOf], ?_⟩
    have he : (s.setBuf (s.thread r).cursor (b.dequeue r.waitsOn r)).setThread r (s.thread r) =
        s.setBuf (s.thread r).cursor (b.dequeue r.waitsOn r) := by
      cases r <;> rfl
    rw [← he]
    exact Pipeline.phase_quiet hb (by simp [Pipeline.atWork]) (Or.inl (by simp [LoadBuffer.dequeue]))
  | stutter r => left; exact ⟨by simp [Pipeline.eventsOf], rfl⟩
  | pass r pick b hb hpc hw hs =>
    by_cases hi : i = (s.thread r).cursor
    · right
      subst hi
      have hidle : ∀ r1, ¬ s.atWork r1 (s.thread r).cursor := by
        intro r1 hw1
        have hm1 := h.atWork_mutex hb hw1
        have hm : b.mutex = some r := ((h.buf _ _ hb).mutex r).2 ⟨rfl, hw, by omega⟩
        rw [hm] at hm1
        obtain rfl := Option.some.inj hm1
        have := hw1.2
        omega
      have hph : s.phase (s.thread r).cursor = 2 * r.idx := by
        rw [Pipeline.phase_idle hidle (Pipeline.stateAt_of_get hb), hs, owner_awaited]
      rw [hph, cycleEvent_begin]
      refine ⟨by simp [Pipeline.eventsOf, beginPhase_length, hpc, Event.buf], ?_⟩
      rw [h1.phase_atWork (r := r) (by simp [Pipeline.atWork])]
      cases r <;> rfl
    · left
      refine ⟨by simp [Pipeline.eventsOf, beginPhase_length, hpc, Event.buf, Ne.symm hi], ?_⟩
      refine Pipeline.phase_quiet hb ?_ (Or.inl rfl)
      simp [Pipeline.atWork, hpc, Ne.symm hi]
  | unlock r pick b hb hpc hm =>
    by_cases hi : i = (s.thread r).cursor
    · right
      subst hi
      have hph : s.phase (s.thread r).cursor = 2 * r.idx + 1 :=
        h.phase_atWork ⟨rfl, by omega⟩
      rw [hph, cycleEvent_end]
      refine ⟨by simp [Pipeline.eventsOf, beginPhase_length, hpc, Event.buf], ?_⟩
      have hidle : ∀ r1, ¬ ((s.setBuf (s.thread r).cursor { b with mutex := none }).setThread r
          ⟨((s.thread r).cursor + 1) % s.pool.length, 0, false⟩).atWork r1 (s.thread r).cursor := by
        intro r1 hw1
        by_cases hr1 : r1 = r
        · subst hr1
          rw [Pipeline.atWork_upd_self] at hw1
          simp at hw1
        · rw [Pipeline.atWork_upd hr1] at hw1
          have hm1 := h.atWork_mutex hb hw1
          rw [hm] at hm1
          exact hr1 (Option.some.inj hm1).symm
      rw [Pipeline.phase_idle hidle (by rw [Pipeline.stateAt_upd hb, if_pos rfl])]
      have hst : b.state = r.published := (h.buf _ _ hb).published r rfl (by omega)
      simp only [hst]
      exact owner_published r
    · left
      refine ⟨by simp [Pipeline.eventsOf, beginPhase_length, hpc, Event.buf, Ne.symm hi], ?_⟩
      refine Pipeline.phase_quiet hb ?_ (Or.inl rfl)
      simp [Pipeline.atWork, hpc, Ne.symm hi]

theorem Pipeline.trace_cycle {acts : List Action} : ∀ {s : Pipeline}, Inv s → ∀ i : Nat,
    ∃ n, (s.trace acts).filter (fun e => e.buf == i) =
      (List.range n).map (fun j => cycleEvent i (s.phase i + j)) := by
  induction acts with
  | nil => intro s _ i; exact ⟨0, rfl⟩
  | cons a rest ih =>
    intro s h i
    simp only [Pipeline.trace]
    split
    · rename_i s1 hs1
      have ht := step_trans hs1
      obtain ⟨n, hn⟩ := ih (h.preserved ht) i
      rw [List.filter_append, hn]
      rcases ht.phase_step h i with ⟨he, hp⟩ | ⟨he, hp⟩
      · exact ⟨n, by rw [he, hp]; rfl⟩
      · refine ⟨n + 1, ?_⟩
        rw [he, hp, List.range_succ_eq_map]
        simp only [List.singleton_append, List.map_cons, List.map_map, Nat.add_zero,
          List.cons.injEq, true_and]
        apply List.map_congr_left
        intro j _
        simp only [Function.comp]
        rw [← cycleEvent_mod, Nat.mod_add_mod, cycleEvent_mod]
        congr 1
        omega
    · exact ⟨0, rfl⟩

theorem Pipeline.phase_of_isInitial {s : Pipeline} (h : s.isInitial = true) (i : Nat) :
    s.phase i = 0 := by
  have hth := Pipeline.thread_of_isInitial h
  have hr := Ring.zero h
  unfold Pipeline.phase
  rw [if_neg (by simp [Pipeline.atWork, hth]), if_neg (by simp [Pipeline.atWork, hth]),
    if_neg (by simp [Pipeline.atWork, hth])]
  cases hst : s.stateAt i with
  | none => rfl
  | some st =>
    have hi : i < s.pool.length := by
      unfold Pipeline.stateAt at hst
      by_contra hge
      rw [List.getElem?_eq_none (by omega)] at hst
      simp at hst
    have := hr.states i (Nat.zero_le _) (by omega)
    rw [Nat.mod_eq_of_lt hi, hst] at this
    rw [Option.some.inj this]
    rfl

theorem filterMap_endedOn_cycle (i n : Nat) :
    ((List.range n).map (cycleEvent i)).filterMap (Event.endedOn i) =
      (List.range (n / 2)).map cycleRole := by
  induction n with
  | zero => rfl
  | succ n ih =>
    rw [List.range_succ, List.map_append, List.filterMap_append, ih]
    rcases Nat.mod_two_eq_zero_or_one n with h | h
    · have h2 : (n + 1) / 2 = n / 2 := by omega
      simp [cycleEvent, h, Event.endedOn, h2]
    · have h2 : (n + 1) / 2 = n / 2 + 1 := by omega
      simp [cycleEvent, h, Event.endedOn, h2, List.range_succ]

theorem filterMap_endedOn_filter (i : Nat) (l : List Event) :
    l.filterMap (Event.endedOn i) =
      (l.filter (fun e => e.buf == i)).filterMap (Event.endedOn i) := by
  induction l with
  | nil => rfl
  | cons e l ih =>
    cases e with
    | beginReturned r j =>
      by_cases hj : j = i
      · simp [List.filter_cons, Event.buf, hj, Event.endedOn, ih]
      · simp [List.filter_cons, Event.buf, hj, Event.endedOn, ih]
    | endCompleted r j =>
      by_cases hj : j = i
      · simp [List.filter_cons, Event.buf, hj, Event.endedOn, ih]
      · simp [List.filter_cons, Event.buf, hj, Event.endedOn, ih]

theorem reachable_invariants {s0 s : Pipeline} {acts : List Action} (h0 : s0.isInitial = true)
    (hr : s0.exec acts = some s) : Inv s ∧ NoLostWakeup s ∧ ∃ l t c, Ring s l t c :=
  ⟨Inv.reachable h0 hr, (NoLostWakeup.atStart h0).throughout (Inv.initially h0) hr,
    (Ring.zero h0).counts (Inv.initially h0) hr⟩

theorem roundCode_wakeOne {r : Role} {pc : Nat} {cv : CondVar}
    (h : (roundCode r)[pc]? = some (.wakeOne cv)) : pc = 3 ∧ cv = r.signals := by
  rw [roundCode_eq] at h
  rcases pc with _ | _ | _ | _ | _ | n
  all_goals simp at h
  exact ⟨rfl, h.symm⟩

theorem Trans.exit_iff {s s1 : Pipeline} {a : Action} (ht : Trans s a s1) (r : Role)
    (hin : (s.thread r).pc < 2) :
    (s1.thread r).pc = 2 ↔ ∃ pick b, a = .run r pick ∧ (s.thread r).pc = 1 ∧
      (s.thread r).inWait = false ∧ s.pool[(s.thread r).cursor]? = some b ∧
      b.state = r.awaited := by
  cases ht with
  | pass q pick b hb hpc hw hs =>
    by_cases hq : r = q
    · subst hq
      simp only [Pipeline.thread_setThread, if_true, true_iff]
      exact ⟨pick, b, rfl, hpc, hw, hb, hs⟩
    · simp only [Pipeline.thread_setThread, if_neg hq, Pipeline.thread_setBuf]
      constructor
      · intro h2; omega
      · rintro ⟨_, _, ha, -⟩
        simp only [Action.run.injEq] at ha
        exact absurd ha.1.symm hq
  | lock q pick b hb hpc hm =>
    by_cases hq : r = q
    · subst hq
      simp only [Pipeline.thread_setThread, if_true]
      constructor
      · intro h2; simp at h2
      · rintro ⟨_, _, -, h2, -⟩; omega
    · simp only [Pipeline.thread_setThread, if_neg hq, Pipeline.thread_setBuf]
      constructor
      · intro h2; omega
      · rintro ⟨_, _, ha, -⟩
        simp only [Action.run.injEq] at ha
        exact absurd ha.1.symm hq
  | sleep q pick b hb hpc hw hs hm =>
    by_cases hq : r = q
    · subst hq
      simp only [Pipeline.thread_setThread, if_true]
      constructor
      · intro h2; simp at h2
      · rintro ⟨_, b1, -, -, -, hb1, hs1⟩
        rw [hb] at hb1
        exact absurd ((Option.some.inj hb1) ▸ hs1) hs
    · simp only [Pipeline.thread_setThread, if_neg hq, Pipeline.thread_setBuf]
      constructor
      · intro h2; omega
      · rintro ⟨_, _, ha, -⟩
        simp only [Action.run.injEq] at ha
        exact absurd ha.1.symm hq
  | relock q pick b hb hpc hw hn hm =>
    by_cases hq : r = q
    · subst hq
      simp only [Pipeline.thread_setThread, if_true]
      constructor
      · intro h2; simp at h2
      · rintro ⟨_, _, -, -, h2, -⟩
        rw [hw] at h2; simp at h2
    · simp only [Pipeline.thread_setThread, if_neg hq, Pipeline.thread_setBuf]
      constructor
      · intro h2; omega
      · rintro ⟨_, _, ha, -⟩
        simp only [Action.run.injEq] at ha
        exact absurd ha.1.symm hq
  | assign q pick b hb hpc =>
    have hq : r ≠ q := by rintro rfl; omega
    simp only [Pipeline.thread_setThread, if_neg hq, Pipeline.thread_setBuf]
    constructor
    · intro h2; omega
    · rintro ⟨_, _, ha, -⟩
      simp only [Action.run.injEq] at ha
      exact absurd ha.1.symm hq
  | wake q pick b hb hpc =>
    have hq : r ≠ q := by rintro rfl; omega
    simp only [Pipeline.thread_setThread, if_neg hq, Pipeline.thread_setBuf]
    constructor
    · intro h2; omega
    · rintro ⟨_, _, ha, -⟩
      simp only [Action.run.injEq] at ha
      exact absurd ha.1.symm hq
  | unlock q pick b hb hpc hm =>
    have hq : r ≠ q := by rintro rfl; omega
    simp only [Pipeline.thread_setThread, if_neg hq, Pipeline.thread_setBuf]
    constructor
    · intro h2; omega
    · rintro ⟨_, _, ha, -⟩
      simp only [Action.run.injEq] at ha
      exact absurd ha.1.symm hq
  | spurious q b hb hpc hw =>
    simp only [Pipeline.thread_setBuf]
    constructor
    · intro h2; omega
    · rintro ⟨_, _, ha, -⟩; simp at ha
  | stutter q =>
    constructor
    · intro h2; omega
    · rintro ⟨_, _, ha, -⟩; simp at ha

theorem Trans.stay {s s1 : Pipeline} {a : Action} (ht : Trans s a s1) (r : Role)
    (hin : (s.thread r).pc < 2)
    (hne : ∀ b, s.pool[(s.thread r).cursor]? = some b → b.state ≠ r.awaited) :
    (s1.thread r).pc < 2 ∧ (s1.thread r).cursor = (s.thread r).cursor := by
  cases ht with
  | pass q pick b hb hpc hw hs =>
    by_cases hq : r = q
    · subst hq; exact absurd hs (hne b hb)
    · simp [hq, hin]
  | lock q pick b hb hpc hm => by_cases hq : r = q <;> simp [hq, hin]
  | sleep q pick b hb hpc hw hs hm => by_cases hq : r = q <;> simp [hq, hin]
  | relock q pick b hb hpc hw hn hm => by_cases hq : r = q <;> simp [hq, hin]
  | assign q pick b hb hpc =>
    have hq : r ≠ q := by rintro rfl; omega
    simp [hq, hin]
  | wake q pick b hb hpc =>
    have hq : r ≠ q := by rintro rfl; omega
    simp [hq, hin]
  | unlock q pick b hb hpc hm =>
    have hq : r ≠ q := by rintro rfl; omega
    simp [hq, hin]
  | spurious q b hb hpc hw => simp [hin]
  | stutter q => exact ⟨hin, rfl⟩

theorem Pipeline.stuck {r : Role} {acts : List Action} : ∀ {s s1 : Pipeline}, Inv s →
    (s.thread r).pc < 2 →
    (∀ b, s.pool[(s.thread r).cursor]? = some b → b.state ≠ r.awaited) →
    (∀ a ∈ acts, a.role.published ≠ r.awaited) → s.exec acts = some s1 →
    (s1.thread r).pc < 2 := by
  induction acts with
  | nil =>
    intro s s1 _ hpc _ _ he
    simp only [Pipeline.exec, Option.some.injEq] at he
    exact he ▸ hpc
  | cons a rest ih =>
    intro s s1 h hpc hne hacts he
    simp only [Pipeline.exec] at he
    split at he
    · rename_i s2 hs2
      have ht := step_trans hs2
      obtain ⟨hpc2, hcur2⟩ := ht.stay r hpc hne
      refine ih (h.preserved ht) hpc2 ?_ (fun a1 ha1 => hacts a1 (List.mem_cons_of_mem _ ha1)) he
      intro b2 hb2 hst2
      rw [hcur2] at hb2
      obtain ⟨b, hb⟩ := h.buf_at r
      by_cases hsame : b2.state = b.state
      · exact hne b hb (hsame ▸ hst2)
      · obtain ⟨q, pick, ha, -, -, -, hq⟩ := ht.state_change h hb hb2 hsame
        apply hacts a (List.mem_cons_self _ _)
        rw [ha]
        simp only [Action.role]
        rw [← hq, hst2]
    · simp at he

theorem execStmt_blocked {t : Role} {pick : Nat} {st : Stmt} {w : Bool} {b : LoadBuffer}
    (h : execStmt t pick st w b = .blocked) :
    (st = .lock ∧ b.mutex ≠ none) ∨
      ∃ v cv, st = .waitUntil v cv ∧ w = true ∧ (t ∈ b.waiters cv ∨ b.mutex ≠ none) := by
  cases st with
  | lock =>
    left
    refine ⟨rfl, ?_⟩
    intro hm
    simp [execStmt, hm] at h
  | waitUntil v cv =>
    right
    refine ⟨v, cv, rfl, ?_⟩
    simp only [execStmt] at h
    split at h
    · rename_i hw
      refine ⟨hw, ?_⟩
      by_cases hq : t ∈ b.waiters cv
      · exact Or.inl hq
      · right
        intro hm
        simp [hq, hm] at h
    · split at h
      · split at h <;> simp at h
      · simp at h
  | assign v => simp [execStmt] at h
  | wakeOne cv => simp [execStmt] at h
  | unlock =>
    simp only [execStmt] at h
    split at h <;> simp at h

theorem execBody_endPhase (r : Role) (pick : Nat) (b : LoadBuffer) (hm : b.mutex = some r) :
    ∃ b1, execBody r pick (endPhase r) b = .done b1 := by
  cases r <;>
    simp [endPhase, completeLoading, completeTokenization, completeConsumption, execBody,
      execStmt, hm]

@[simp] theorem fileKeyMap_modify (st : Settings) (idx : Int) (f : Setting → Setting) :
    (st.modify idx f).fileKeyMap = st.fileKeyMap := by
  unfold Settings.modify; split <;> rfl

@[simp] theorem fileKeyMap_addDependency (st : Settings) (idx : Int) (d : SettingDependency) :
    (Setting.addDependency st idx d).fileKeyMap = st.fileKeyMap := by
  unfold Setting.addDependency
  simp only
  split
  · rfl
  · split <;> simp

theorem setupSettings_fileKeyMap (E : SettingEnv) :
    (Setting.setupSettings E Settings.initial).fileKeyMap = setupKeyMap := by
  have h : (Setting.setupSettings E Settings.initial).fileKeyMap =
      QMap.insert "SCHED_GRAPH_LINE_WIDTH" 9 (QMap.insert "OPENGL_ENABLED" 8
        (QMap.insert "SHOW_MIGRATION_UNLIMITED" 6 (QMap.insert "SHOW_MIGRATION_GRAPHS" 5
          (QMap.insert "SHOW_CPUIDLE_GRAPHS" 4 (QMap.insert "SHOW_CPUFREQ_GRAPHS" 3
            (QMap.insert "SHOW_SCHED_GRAPHS" 0 (QMap.insert "VERTICAL_WAKEUP" 2
              (QMap.insert "HORIZONTAL_WAKEUP" 1 [])))))))) := by
    simp [Setting.setupSettings, Setting.setName, Setting.setEnabled, Setting.setKey,
      Setting.setOpenGLEnabled, Setting.setOpenGLEnabledKey, Setting.setLineWidth,
      Setting.setLineWidthKey, Settings.initial, Setting.HORIZONTAL_WAKEUP,
      Setting.VERTICAL_WAKEUP, Setting.SHOW_SCHED_GRAPHS, Setting.SHOW_CPUFREQ_GRAPHS,
      Setting.SHOW_CPUIDLE_GRAPHS, Setting.SHOW_MIGRATION_GRAPHS,
      Setting.SHOW_MIGRATION_UNLIMITED, Setting.OPENGL_ENABLED, Setting.LINE_WIDTH]
  rw [h]
  decide

theorem splitAux_word (w : List Char) (hw : ∀ c ∈ w, c ≠ blank) :
    ∀ (cur rest : List Char), splitAux cur (w ++ rest) = splitAux (cur ++ w) rest := by
  induction w with
  | nil => intro cur rest; simp
  | cons c w ih =>
    intro cur rest
    have hc : c ≠ blank := hw c (List.mem_cons_self _ _)
    show splitAux cur (c :: (w ++ rest)) = _
    rw [splitAux, if_neg hc, ih (fun d hd => hw d (List.mem_cons_of_mem _ hd))]
    simp

theorem split_pair (k v : String) (hk : IsToken k) (hv : IsToken v) :
    QString.split (k ++ " " ++ v) = [k, v] := by
  unfold QString.split
  have h1 : (k ++ " " ++ v).data = k.data ++ (blank :: (v.data ++ [])) := by
    simp [String.data_append]
    rfl
  rw [h1, splitAux_word k.data (fun c hc => (hk.2 c hc).1)]
  simp only [List.nil_append, splitAux, if_true, if_neg hk.1]
  rw [splitAux_word v.data (fun c hc => (hv.2 c hc).1)]
  simp only [List.nil_append, splitAux, if_neg hv.1]

theorem takeWhile_line (l rest : List Char) (hl : ∀ c ∈ l, c ≠ newline) :
    (l ++ newline :: rest).takeWhile (fun c => c != newline) = l := by
  induction l with
  | nil => simp [List.takeWhile]
  | cons c l ih =>
    have hc : (c != newline) = true := by
      simpa using hl c (List.mem_cons_self _ _)
    simp [List.takeWhile, hc, ih (fun d hd => hl d (List.mem_cons_of_mem _ hd))]

theorem dropWhile_line (l rest : List Char) (hl : ∀ c ∈ l, c ≠ newline) :
    (l ++ newline :: rest).dropWhile (fun c => c != newline) = newline :: rest := by
  induction l with
  | nil => simp [List.dropWhile]
  | cons c l ih =>
    have hc : (c != newline) = true := by
      simpa using hl c (List.mem_cons_self _ _)
    simp [List.dropWhile, hc, ih (fun d hd => hl d (List.mem_cons_of_mem _ hd))]

theorem readLine_line (l rest : List Char) (hl : ∀ c ∈ l, c ≠ newline) :
    QTextStream.readLine (l ++ newline :: rest) = (String.mk l, rest) := by
  unfold QTextStream.readLine
  rw [takeWhile_line l rest hl, dropWhile_line l rest hl]
  rfl

theorem isToken_boolToQString (b : Bool) : IsToken (Setting.boolToQString b) := by
  cases b <;> decide

theorem isToken_savedValue (E : SettingEnv) (S : Settings) (idx : Int)
    (hn : IsToken (E.number S.line_width)) : IsToken (Setting.savedValue E S idx) := by
  unfold Setting.savedValue
  split
  · exact isToken_boolToQString _
  · split
    · exact isToken_boolToQString _
    · exact hn

theorem data_line (k v : String) :
    (k ++ " " ++ v ++ "\n").data = (k ++ " " ++ v).data ++ newline :: [] := by
  simp [String.data_append]
  rfl

theorem no_newline_pair (k v : String) (hk : IsToken k) (hv : IsToken v) :
    ∀ c ∈ (k ++ " " ++ v).data, c ≠ newline := by
  intro c hc
  simp only [String.data_append, List.mem_append] at hc
  rcases hc with (hc | hc) | hc
  · exact (hk.2 c hc).2
  · have : c = blank := by simpa using hc
    rw [this]; decide
  · exact (hv.2 c hc).2

theorem readKeyValuePair_pair (E : SettingEnv) (fuel : Nat) (k v : String) (rest : List Char)
    (key0 value0 : String) (hk : IsToken k) (hv : IsToken v) :
    Setting.readKeyValuePair E (fuel + 1) ((k ++ " " ++ v ++ "\n").data ++ rest) key0 value0 =
      some (0, rest, k, v) := by
  unfold Setting.readKeyValuePair
  rw [data_line, List.append_assoc, List.singleton_append,
    readLine_line _ _ (no_newline_pair k v hk hv)]
  simp only [Setting.splitLoop]
  have hs : QString.split { data := (k ++ " " ++ v).data } = [k, v] := split_pair k v hk hv
  rw [hs]
  simp

@[simp] theorem fileKeyMap_handleRegularIndex (st : Settings) (idx : Int) (value : String) :
    (Setting.handleRegularIndex st idx value).fileKeyMap = st.fileKeyMap := by
  unfold Setting.handleRegularIndex
  simp only
  split <;> simp

@[simp] theorem fileKeyMap_handleIrregularIndex (E : SettingEnv) (st : Settings) (idx : Int)
    (value : String) : (Setting.handleIrregularIndex E st idx value).fileKeyMap = st.fileKeyMap := by
  unfold Setting.handleIrregularIndex
  simp only
  split
  · split <;> rfl
  · split
    · split
      · split <;> rfl
      · rfl
    · rfl

theorem saveEntries_cons (E : SettingEnv) (S : Settings) (k : String) (idx : Int)
    (rest : List (String × Int)) (h : Setting.isSaved idx) :
    (Setting.saveEntries E S ((k, idx) :: rest)).data =
      (k ++ " " ++ Setting.savedValue E S idx ++ "\n").data ++
        (Setting.saveEntries E S rest).data := by
  rw [Setting.saveEntries, String.data_append]
  congr 2
  unfold Setting.savedValue
  rcases h with h | h | h
  · rw [if_pos h, if_pos h]
  · have h1 : ¬ (idx ≥ 0 ∧ idx < Setting.NR_SETTINGS) := by rw [h]; decide
    rw [if_neg h1, if_pos h, if_neg h1, if_pos h]
  · have h1 : ¬ (idx ≥ 0 ∧ idx < Setting.NR_SETTINGS) := by rw [h]; decide
    have h2 : ¬ idx = Setting.OPENGL_ENABLED := by rw [h]; decide
    rw [if_neg h1, if_neg h2, if_pos h, if_neg h1, if_neg h2]

theorem isSaved_dispatch {idx : Int} (h : Setting.isSaved idx) :
    Setting.isIrregularIndex idx = true ∨ Setting.isRegularIndex idx = true := by
  rcases h with h | h | h
  · right; simp [Setting.isRegularIndex, h.1, h.2]
  · left; rw [h]; decide
  · left; rw [h]; decide

theorem loadLoop_saved (E : SettingEnv) (S : Settings)
    (hn : IsToken (E.number S.line_width)) :
    ∀ (es : List (String × Int)) (n : Nat) (st : Settings) (key value : String),
      (∀ e ∈ es, IsToken e.1 ∧ QMap.find e.1 st.fileKeyMap = some e.2 ∧ Setting.isSaved e.2) →
      es.length < n →
      Setting.loadLoop E n st (Setting.saveEntries E S es).data key value 0 =
        some (.finished 0 (Setting.restore E S es st)) := by
  intro es
  induction es with
  | nil =>
    intro n st key value _ hlen
    obtain ⟨m, rfl⟩ : ∃ m, n = m + 1 := ⟨n - 1, by simp at hlen; omega⟩
    simp [Setting.loadLoop, Setting.saveEntries, QTextStream.atEnd, Setting.restore]
  | cons e es ih =>
    intro n st key value hes hlen
    obtain ⟨k, idx⟩ := e
    obtain ⟨m, rfl⟩ : ∃ m, n = m + 1 := ⟨n - 1, by simp at hlen; omega⟩
    obtain ⟨hk, hfind, hsaved⟩ := hes (k, idx) (List.mem_cons_self _ _)
    have hv := isToken_savedValue E S idx hn
    have hne : ¬ QTextStream.atEnd ((k ++ " " ++ Setting.savedValue E S idx ++ "\n").data ++
        (Setting.saveEntries E S es).data) = true := by
      rw [data_line]
      simp [QTextStream.atEnd]
    rw [saveEntries_cons E S k idx es hsaved, Setting.loadLoop, if_neg hne,
      readKeyValuePair_pair E m k _ _ key value hk hv]
    simp only [ne_eq, not_true_eq_false, if_false, hfind]
    have hlen1 : es.length < m := by simp at hlen; omega
    rcases h : Setting.isIrregularIndex idx with _ | _
    · have hreg : Setting.isRegularIndex idx = true := by
        rcases isSaved_dispatch hsaved with h1 | h1
        · rw [h] at h1; cases h1
        · exact h1
      simp only [hreg, if_true, Bool.false_eq_true, if_false]
      rw [ih m _ k _ (fun e he => by
        have := hes e (List.mem_cons_of_mem _ he)
        simpa using this) hlen1]
      simp [Setting.restore, h]
    · simp only [if_true]
      rw [ih m _ k _ (fun e he => by
        have := hes e (List.mem_cons_of_mem _ he)
        simpa using this) hlen1]
      simp [Setting.restore, h]

theorem updateAt_length {α : Type} (f : α → α) : ∀ (l : List α) (n : Nat),
    (updateAt f l n).length = l.length := by
  intro l
  induction l with
  | nil => intro n; rfl
  | cons a l ih =>
    intro n
    cases n with
    | zero => rfl
    | succ n => simp [updateAt, ih]

theorem updateAt_getD {α : Type} (f : α → α) (d : α) : ∀ (l : List α) (n m : Nat),
    n < l.length →
    (updateAt f l n).getD m d = if m = n then f (l.getD n d) else l.getD m d := by
  intro l
  induction l with
  | nil => intro n m h; simp at h
  | cons a l ih =>
    intro n m h
    cases n with
    | zero =>
      cases m with
      | zero => simp [updateAt]
      | succ m => simp [updateAt]
    | succ n =>
      cases m with
      | zero => simp [updateAt]
      | succ m =>
        simp only [updateAt, List.getD_cons_succ]
        rw [ih n m (by simpa using h)]
        simp

@[simp] theorem modify_length (st : Settings) (idx : Int) (f : Setting → Setting) :
    (st.modify idx f).settings.length = st.settings.length := by
  unfold Settings.modify
  split
  · simp [updateAt_length]
  · rfl

theorem get_modify (st : Settings) (idx i : Int) (f : Setting → Setting) (h0 : 0 ≤ idx)
    (h1 : idx.toNat < st.settings.length) :
    (st.modify idx f).get i = if i = idx then f (st.get idx) else st.get i := by
  unfold Settings.modify Settings.get
  rw [if_pos h0]
  by_cases hi : 0 ≤ i
  · simp only [if_pos hi, if_pos h0]
    rw [updateAt_getD f _ _ _ _ h1]
    by_cases he : i = idx
    · subst he; simp
    · have : ¬ i.toNat = idx.toNat := by omega
      simp [he, this]
  · have : ¬ i = idx := by omega
    simp [hi, this]

theorem boolFromValue_boolToQString (b : Bool) :
    Setting.boolFromValue (Setting.boolToQString b) = (true, b) := by
  cases b <;> decide

theorem handleRegularIndex_saved (st : Settings) (idx : Int) (b : Bool) :
    Setting.handleRegularIndex st idx (Setting.boolToQString b) =
      st.modify idx (fun s => { s with enabled := b }) := by
  simp [Setting.handleRegularIndex, boolFromValue_boolToQString]

theorem handleIrregularIndex_opengl (E : SettingEnv) (st : Settings) (b : Bool) :
    Setting.handleIrregularIndex E st 8 (Setting.boolToQString b) = { st with opengl := b } := by
  simp [Setting.handleIrregularIndex, boolFromValue_boolToQString, Setting.OPENGL_ENABLED]

@[simp] theorem settings_handleIrregularIndex (E : SettingEnv) (st : Settings) (idx : Int)
    (value : String) : (Setting.handleIrregularIndex E st idx value).settings = st.settings := by
  unfold Setting.handleIrregularIndex
  simp only
  split
  · split <;> rfl
  · split
    · split
      · split <;> rfl
      · rfl
    · rfl

@[simp] theorem get_handleIrregularIndex (E : SettingEnv) (st : Settings) (idx i : Int)
    (value : String) : (Setting.handleIrregularIndex E st idx value).get i = st.get i := by
  simp [Settings.get]

theorem handleIrregularIndex_lineWidth (E : SettingEnv) (st : Settings) (value : String) :
    Setting.handleIrregularIndex E st 9 value =
      match E.toInt value with
      | some width =>
        if width ≥ 1 ∧ width ≤ E.MAX_LINE_WIDTH_OPENGL then { st with line_width := width }
        else st
      | none => st := by
  simp only [Setting.handleIrregularIndex, Setting.OPENGL_ENABLED, Setting.LINE_WIDTH]
  rw [if_neg (by decide)]
  cases E.toInt value <;> simp

@[simp] theorem opengl_handleIrregularIndex_lineWidth (E : SettingEnv) (st : Settings)
    (value : String) : (Setting.handleIrregularIndex E st 9 value).opengl = st.opengl := by
  rw [handleIrregularIndex_lineWidth]
  split
  · split <;> rfl
  · rfl

theorem lineWidth_handleIrregularIndex_congr (E : SettingEnv) (st st1 : Settings)
    (value : String) (h : st.line_width = st1.line_width) :
    (Setting.handleIrregularIndex E st 9 value).line_width =
      (Setting.handleIrregularIndex E st1 9 value).line_width := by
  rw [handleIrregularIndex_lineWidth, handleIrregularIndex_lineWidth]
  cases E.toInt value with
  | none => exact h
  | some w =>
    by_cases hw : w ≥ 1 ∧ w ≤ E.MAX_LINE_WIDTH_OPENGL
    · simp only [if_pos hw]
    · simp only [if_neg hw]; exact h

theorem enabled_get_modify (x : Settings) (idx i : Int) (b : Bool)
    (hx : x.settings.length = 7) (h0 : 0 ≤ idx) (h7 : idx < 7) :
    ((x.modify idx (fun s => { s with enabled := b })).get i).enabled =
      if i = idx then b else (x.get i).enabled := by
  rw [get_modify x idx i _ h0 (by omega)]
  by_cases h : i = idx
  · simp [h]
  · simp [h]

@[simp] theorem opengl_modify (st : Settings) (idx : Int) (f : Setting → Setting) :
    (st.modify idx f).opengl = st.opengl := by
  unfold Settings.modify; split <;> rfl

@[simp] theorem lineWidth_modify (st : Settings) (idx : Int) (f : Setting → Setting) :
    (st.modify idx f).line_width = st.line_width := by
  unfold Settings.modify; split <;> rfl

@[simp] theorem get_mk_settings (st : Settings) (a : Int) (b : Bool) (m : List (String × Int))
    (i : Int) :
    Settings.get { settings := st.settings, line_width := a, opengl := b, fileKeyMap := m } i =
      st.get i := rfl

theorem restored_spec (E : SettingEnv) (S st : Settings) (hlen : st.settings.length = 7) :
    (∀ i : Int, 0 ≤ i → i < Setting.NR_SETTINGS →
      ((Setting.restored E S st).get i).enabled = (S.get i).enabled) ∧
    (Setting.restored E S st).opengl = S.opengl ∧
    (Setting.restored E S st).line_width =
      (Setting.handleIrregularIndex E st 9 (E.number S.line_width)).line_width := by
  have hreg : ∀ (x : Settings) (idx : Int), 0 ≤ idx → idx < 7 →
      Setting.handleRegularIndex x idx (Setting.savedValue E S idx) =
        x.modify idx (fun s => { s with enabled := (S.get idx).enabled }) := by
    intro x idx h0 h7
    have : Setting.savedValue E S idx = Setting.boolToQString (S.get idx).enabled := by
      simp [Setting.savedValue, Setting.NR_SETTINGS, h0, h7]
    rw [this, handleRegularIndex_saved]
  have h8 : ∀ x : Settings, Setting.handleIrregularIndex E x 8 (Setting.savedValue E S 8) =
      { x with opengl := S.opengl } := by
    intro x
    have : Setting.savedValue E S 8 = Setting.boolToQString S.opengl := by
      simp [Setting.savedValue, Setting.NR_SETTINGS, Setting.OPENGL_ENABLED]
    rw [this, handleIrregularIndex_opengl]
  have h9 : Setting.savedValue E S 9 = E.number S.line_width := by
    simp [Setting.savedValue, Setting.NR_SETTINGS, Setting.OPENGL_ENABLED]
  have hirr : ∀ idx : Int, 0 ≤ idx → idx < 7 → Setting.isIrregularIndex idx = false := by
    intro idx h0 h7
    simp [Setting.isIrregularIndex, Setting.NR_SETTINGS]
    omega
  unfold Setting.restored
  simp only [Setting.restore, setupKeyMap]
  rw [hirr 1 (by decide) (by decide), hirr 3 (by decide) (by decide),
    hirr 4 (by decide) (by decide), hirr 5 (by decide) (by decide),
    hirr 6 (by decide) (by decide), hirr 0 (by decide) (by decide),
    hirr 2 (by decide) (by decide)]
  have hi8 : Setting.isIrregularIndex 8 = true := by decide
  have hi9 : Setting.isIrregularIndex 9 = true := by decide
  simp only [hi8, hi9, if_true, Bool.false_eq_true, if_false]
  rw [hreg _ 1 (by decide) (by decide), h8, h9, hreg _ 3 (by decide) (by decide),
    hreg _ 4 (by decide) (by decide), hreg _ 5 (by decide) (by decide),
    hreg _ 6 (by decide) (by decide), hreg _ 0 (by decide) (by decide),
    hreg _ 2 (by decide) (by decide)]
  refine ⟨?_, ?_, ?_⟩
  · intro i h0 h7
    simp only [Setting.NR_SETTINGS] at h7
    have hi : i = 0 ∨ i = 1 ∨ i = 2 ∨ i = 3 ∨ i = 4 ∨ i = 5 ∨ i = 6 := by omega
    rcases hi with rfl | rfl | rfl | rfl | rfl | rfl | rfl <;>
      simp [enabled_get_modify, hlen]
  · simp
  · simp only [lineWidth_modify]
    exact lineWidth_handleIrregularIndex_congr E _ _ _ (by simp)

theorem setupKeyMap_saved : ∀ e ∈ setupKeyMap,
    IsToken e.1 ∧ QMap.find e.1 setupKeyMap = some e.2 ∧ Setting.isSaved e.2 := by
  decide

theorem isToken_versionKey : IsToken TRACESHARK_VERSION_KEY := by decide

theorem loadSettings_saved (E : SettingEnv) (S S1 : Settings) (fuel : Nat)
    (hS : S.fileKeyMap = setupKeyMap) (hS1 : S1.fileKeyMap = setupKeyMap)
    (hv : E.toInt (E.number Setting.this_version) = some Setting.this_version)
    (hvt : IsToken (E.number Setting.this_version))
    (hwt : IsToken (E.number S.line_width))
    (hfuel : 10 ≤ fuel) :
    Setting.loadSettings E fuel S1 (.readable (TRACESHARK_VERSION_KEY ++ " " ++
      E.number Setting.this_version ++ "\n" ++ Setting.saveEntries E S S.fileKeyMap)) =
      some (0, Setting.restored E S S1) := by
  obtain ⟨n, rfl⟩ : ∃ n, fuel = n + 1 := ⟨fuel - 1, by omega⟩
  have hread := readKeyValuePair_pair E n TRACESHARK_VERSION_KEY
    (E.number Setting.this_version) (Setting.saveEntries E S S.fileKeyMap).data "" ""
    isToken_versionKey hvt
  have hloop := loadLoop_saved E S hwt setupKeyMap (n + 1) S1 TRACESHARK_VERSION_KEY
    (E.number Setting.this_version) (by rw [hS1]; exact setupKeyMap_saved)
    (by simp [setupKeyMap]; omega)
  unfold Setting.loadSettings
  simp only [String.data_append] at hread ⊢
  rw [if_pos (by simp [QTextStream.atEnd, TRACESHARK_VERSION_KEY])]
  rw [hS] at hread ⊢
  simp only [hread, hv, hloop]
  simp [Setting.restored, Setting.this_version]

@[simp] theorem settings_length_addDependency (st : Settings) (idx : Int)
    (d : SettingDependency) :
    (Setting.addDependency st idx d).settings.length = st.settings.length := by
  unfold Setting.addDependency
  simp only
  split
  · rfl
  · split <;> simp

theorem setupSettings_length (E : SettingEnv) :
    (Setting.setupSettings E Settings.initial).settings.length = 7 := by
  simp [Setting.setupSettings, Setting.setName, Setting.setEnabled, Setting.setKey,
    Setting.setOpenGLEnabled, Setting.setOpenGLEnabledKey, Setting.setLineWidth,
    Setting.setLineWidthKey, Settings.initial, Setting.NR_SETTINGS]

theorem splitLoop_blank (line : String) (stream : List Char) (h : QString.split line = [])
    (hs : stream ≠ []) : ∀ fuel, Setting.splitLoop line stream fuel = none := by
  intro fuel
  induction fuel with
  | zero => rfl
  | succ n ih =>
    unfold Setting.splitLoop
    simp only [h, List.length_nil, QTextStream.atEnd]
    rw [if_pos ⟨trivial, by simpa using hs⟩]
    exact ih

theorem readKeyValuePair_blank (E : SettingEnv) (fuel : Nat) (l rest : List Char)
    (key value : String) (hl : ∀ c ∈ l, c = blank) (hr : rest ≠ []) :
    Setting.readKeyValuePair E fuel (l ++ newline :: rest) key value = none := by
  have hline : ∀ c ∈ l, c ≠ newline := by
    intro c hc; rw [hl c hc]; decide
  have hsplit : ∀ (m : List Char), (∀ c ∈ m, c = blank) → splitAux [] m = [] := by
    intro m
    induction m with
    | nil => intro _; rfl
    | cons c m ih =>
      intro hm
      rw [splitAux, if_pos (hm c (List.mem_cons_self _ _))]
      simpa using ih (fun d hd => hm d (List.mem_cons_of_mem _ hd))
  unfold Setting.readKeyValuePair
  rw [readLine_line l rest hline]
  simp only
  rw [splitLoop_blank (String.mk l) rest (hsplit l hl) hr]

theorem Trans.pool_length {s s1 : Pipeline} {a : Action} (ht : Trans s a s1) :
    s1.pool.length = s.pool.length := by
  cases ht <;> simp

theorem Trans.round_step {s s1 : Pipeline} {a : Action} (ht : Trans s a s1) (r : Role) :
    ((s.eventsOf s1 a).filterMap (Event.endOf r) = [] ∧
      (s1.thread r).cursor = (s.thread r).cursor) ∨
    ((s.eventsOf s1 a).filterMap (Event.endOf r) = [(s.thread r).cursor] ∧
      (s1.thread r).cursor = ((s.thread r).cursor + 1) % s.pool.length) := by
  cases ht with
  | lock q pick b hb hpc hm =>
    left
    refine ⟨by simp [Pipeline.eventsOf, beginPhase_length, hpc], ?_⟩
    by_cases hq : r = q
    · subst hq; simp
    · simp [hq]
  | sleep q pick b hb hpc hw hs hm =>
    left
    refine ⟨by simp [Pipeline.eventsOf, beginPhase_length, hpc], ?_⟩
    by_cases hq : r = q
    · subst hq; simp
    · simp [hq]
  | relock q pick b hb hpc hw hn hm =>
    left
    refine ⟨by simp [Pipeline.eventsOf, beginPhase_length, hpc], ?_⟩
    by_cases hq : r = q
    · subst hq; simp
    · simp [hq]
  | assign q pick b hb hpc =>
    left
    refine ⟨by simp [Pipeline.eventsOf, beginPhase_length, hpc], ?_⟩
    by_cases hq : r = q
    · subst hq; simp
    · simp [hq]
  | wake q pick b hb hpc =>
    left
    refine ⟨by simp [Pipeline.eventsOf, beginPhase_length, hpc], ?_⟩
    by_cases hq : r = q
    · subst hq; simp
    · simp [hq]
  | pass q pick b hb hpc hw hs =>
    left
    refine ⟨by simp [Pipeline.eventsOf, beginPhase_length, hpc, Event.endOf], ?_⟩
    by_cases hq : r = q
    · subst hq; simp
    · simp [hq]
  | spurious q b hb hpc hw => left; exact ⟨by simp [Pipeline.eventsOf], by simp⟩
  | stutter q => left; exact ⟨by simp [Pipeline.eventsOf], rfl⟩
  | unlock q pick b hb hpc hm =>
    by_cases hq : r = q
    · subst hq
      right
      exact ⟨by simp [Pipeline.eventsOf, beginPhase_length, hpc, Event.endOf], by simp⟩
    · left
      refine ⟨by simp [Pipeline.eventsOf, beginPhase_length, hpc, Event.endOf, Ne.symm hq], ?_⟩
      simp [hq]

theorem Pipeline.rounds_ring {acts : List Action} (r : Role) : ∀ {s : Pipeline}, Inv s →
    s.rounds r acts =
      (List.range (s.rounds r acts).length).map
        (fun j => ((s.thread r).cursor + j) % s.pool.length) := by
  induction acts with
  | nil => intro s _; rfl
  | cons a rest ih =>
    intro s h
    unfold Pipeline.rounds
    simp only [Pipeline.trace]
    split
    · rename_i s1 hs1
      have ht := step_trans hs1
      have ih1 := ih (h.preserved ht)
      unfold Pipeline.rounds at ih1
      rw [List.filterMap_append]
      rcases ht.round_step r with ⟨he, hc⟩ | ⟨he, hc⟩
      · rw [he, List.nil_append]
        rw [hc, ht.pool_length] at ih1
        exact ih1
      · rw [he, List.singleton_append, List.length_cons, List.range_succ_eq_map]
        simp only [List.map_cons, List.map_map, Nat.add_zero]
        rw [Nat.mod_eq_of_lt (h.thr r).1]
        congr 1
        rw [hc, ht.pool_length] at ih1
        rw [ih1, List.length_map, List.length_range]
        apply List.map_congr_left
        intro j _
        simp only [Function.comp]
        rw [Nat.mod_add_mod]
        congr 1
        omega
    · rfl

theorem count_range_mod (N i : Nat) (hi : i < N) : ∀ M : Nat,
    ((List.range M).map (fun j => j % N)).count i = (M + N - 1 - i) / N := by
  intro M
  induction M with
  | zero =>
    simp only [List.range_zero, List.map_nil, List.count_nil, Nat.zero_add]
    rw [Nat.div_eq_of_lt (by omega)]
  | succ M ih =>
    rw [List.range_succ, List.map_append, List.count_append, ih]
    have hA : M + 1 + N - 1 - i = (M + N - 1 - i) + 1 := by omega
    rw [hA, Nat.succ_div]
    congr 1
    have hdvd : N ∣ M + N - 1 - i + 1 ↔ M % N = i := by
      have hm := Nat.mod_lt M (by omega : N > 0)
      have hdiv := Nat.div_add_mod M N
      constructor
      · intro hd
        by_contra hne
        obtain ⟨k, hk⟩ := hd
        by_cases hlt : i < M % N
        · have e : N * k = N * (M / N + 1) + (M % N - i) := by
            rw [Nat.mul_add]; omega
          have := congrArg (fun x => x % N) e
          simp only [Nat.mul_mod_right, Nat.mul_add_mod] at this
          rw [Nat.mod_eq_of_lt (by omega)] at this
          omega
        · have e : N * k = N * (M / N) + (N + M % N - i) := by omega
          have := congrArg (fun x => x % N) e
          simp only [Nat.mul_mod_right, Nat.mul_add_mod] at this
          rw [Nat.mod_eq_of_lt (by omega)] at this
          omega
      · intro he
        refine ⟨M / N + 1, ?_⟩
        rw [Nat.mul_add]
        omega
    by_cases he : M % N = i
    · simp [he, hdvd.2 he]
    · rw [if_neg (mt hdvd.1 he)]
      exact List.count_eq_zero.2 (by simpa using Ne.symm he)

theorem dropWhile_head {α : Type} (p : α → Bool) : ∀ l : List α,
    l.dropWhile p = [] ∨ ∃ x rest, l.dropWhile p = x :: rest ∧ p x = false := by
  intro l
  induction l with
  | nil => left; rfl
  | cons a l ih =>
    by_cases h : p a = true
    · simpa [List.dropWhile, h] using ih
    · right
      exact ⟨a, l, by simp [List.dropWhile, h], by simpa using h⟩

theorem lastBoundary_spec (data : List Char) :
    ∃ d t : List Char, data = d ++ t ∧ lastBoundary data = d.length ∧
      (∀ c ∈ t, c ≠ newline) ∧ (d = [] ∨ d.getLast? = some newline) := by
  have hsplit := List.takeWhile_append_dropWhile (fun c => c != newline) data.reverse
  refine ⟨(data.reverse.dropWhile (fun c => c != newline)).reverse,
    (data.reverse.takeWhile (fun c => c != newline)).reverse, ?_, ?_, ?_, ?_⟩
  · rw [← List.reverse_append, hsplit, List.reverse_reverse]
  · have hlen := congrArg List.length hsplit
    simp only [List.length_append, List.length_reverse] at hlen
    simp only [lastBoundary, List.length_reverse]
    omega
  · intro c hc
    rw [List.mem_reverse] at hc
    have := List.mem_takeWhile_imp hc
    simpa using this
  · rcases dropWhile_head (fun c => c != newline) data.reverse with h | ⟨x, rest, h, hx⟩
    · left; rw [h]; rfl
    · right
      rw [h]
      have hx1 : x = newline := by simpa using hx
      simp [hx1]

theorem lastBoundary_le (data : List Char) : lastBoundary data ≤ data.length := by
  unfold lastBoundary; omega

theorem atBoundary_append (x y : List Char) (hy : y ≠ []) (h : atBoundary y = true) :
    atBoundary (x ++ y) = true := by
  unfold atBoundary at h ⊢
  rw [List.getLast?_append_of_ne_nil _ hy]
  exact h

theorem atBoundary_of_getLast {d : List Char} (h : d = [] ∨ d.getLast? = some newline) :
    atBoundary d = true := by
  rcases h with h | h
  · subst h; rfl
  · simp [atBoundary, h]

theorem read_spec (ctx : LoaderCtx) (count : Nat) :
    (ctx.read count).2 = { ctx with replies := ctx.replies.tail, reads := ctx.reads + 1 } ∧
    ((∃ errno, (ctx.read count).1 = .error errno) ∨
      ∃ n, n ≤ count ∧ (ctx.read count).1 = .ok ((ctx.file.drop ctx.filePos).take n) ∧
        (1 ≤ count → ctx.file.drop ctx.filePos ≠ [] → 1 ≤ n)) := by
  unfold LoaderCtx.read
  cases h : ctx.replies.head? with
  | none => exact ⟨rfl, Or.inr ⟨count, le_refl _, rfl, fun h1 _ => h1⟩⟩
  | some r =>
    cases r with
    | error errno => exact ⟨rfl, Or.inl ⟨errno, rfl⟩⟩
    | upTo limit =>
      exact ⟨rfl, Or.inr ⟨min count (limit + 1), Nat.min_le_left _ _, rfl, fun h1 _ => by omega⟩⟩

theorem fill_cases (capacity : Nat) (ctx : LoaderCtx) :
    (ctx.endOfFile = true ∧ fill capacity ctx = (Fill.atEnd ctx.filePos, ctx)) ∨
    (ctx.endOfFile = false ∧ ∃ errno,
      fill capacity ctx =
        ({ storage := ctx.lineBegin, activeStart := 0, activeLen := 0,
           nRead := ctx.lineBegin.length,
           filePos := (ctx.filePos : Int) - ctx.lineBegin.length, IOerror := true,
           IOerrno := errno, eof := false },
          { ctx with replies := ctx.replies.tail, reads := ctx.reads + 1 })) ∨
    (ctx.endOfFile = false ∧ ∃ n, n ≤ capacity - ctx.lineBegin.length ∧
      (1 ≤ capacity - ctx.lineBegin.length → ctx.file.drop ctx.filePos ≠ [] → 1 ≤ n) ∧
      fill capacity ctx =
        fillRead ctx.lineBegin
          { ctx with lineBegin := [], replies := ctx.replies.tail, reads := ctx.reads + 1 }
          ((ctx.file.drop ctx.filePos).take n)) := by
  by_cases he : ctx.endOfFile = true
  · left; exact ⟨he, by simp [fill, he]⟩
  · right
    have he1 : ctx.endOfFile = false := by simpa using he
    cases hrep : ctx.replies.head? with
    | none =>
      right
      refine ⟨he1, capacity - ctx.lineBegin.length, le_refl _, fun h _ => h, ?_⟩
      unfold fill LoaderCtx.read
      rw [if_neg he]
      simp only [hrep]
    | some r =>
      cases r with
      | error errno =>
        left
        refine ⟨he1, errno, ?_⟩
        unfold fill LoaderCtx.read
        rw [if_neg he]
        simp only [hrep]
      | upTo limit =>
        right
        refine ⟨he1, min (capacity - ctx.lineBegin.length) (limit + 1), Nat.min_le_left _ _,
          fun h _ => by omega, ?_⟩
        unfold fill LoaderCtx.read
        rw [if_neg he]
        simp only [hrep]

theorem fillRead_spec (prior data : List Char) (ctx1 : LoaderCtx)
    (hp : ∀ c ∈ prior, c ≠ newline) (h1 : ctx1.lineBegin = []) :
    (fillRead prior ctx1 data).1.activeRegion ++ (fillRead prior ctx1 data).2.lineBegin =
      prior ++ data ∧
    (fillRead prior ctx1 data).1.storage = prior ++ data ∧
    atBoundary (fillRead prior ctx1 data).1.activeRegion = true ∧
    (∀ c ∈ (fillRead prior ctx1 data).2.lineBegin, c ≠ newline) ∧
    (fillRead prior ctx1 data).2.filePos = ctx1.filePos + data.length ∧
    (fillRead prior ctx1 data).2.file = ctx1.file ∧
    ((fillRead prior ctx1 data).2.endOfFile = true → ctx1.endOfFile = false →
      (fillRead prior ctx1 data).2.lineBegin = [] ∧ data = [] ∧ prior = []) ∧
    (fillRead prior ctx1 data).1.nRead = prior.length + data.length ∧
    (fillRead prior ctx1 data).1.activeStart + (fillRead prior ctx1 data).1.activeLen ≤
      (fillRead prior ctx1 data).1.nRead ∧
    (fillRead prior ctx1 data).2.lineBegin.length ≤ prior.length + data.length ∧
    (fillRead prior ctx1 data).1.IOerror = false ∧
    ((fillRead prior ctx1 data).1.eof = true ↔ (data = [] ∧ prior = [])) ∧
    ((fillRead prior ctx1 data).1.eof = (fillRead prior ctx1 data).2.endOfFile ∨
      ctx1.endOfFile = true) := by
  unfold fillRead
  by_cases hz : data.length = 0 ∧ prior.length = 0
  · rw [if_pos hz]
    have hd : data = [] := by simpa using hz.1
    have hq : prior = [] := by simpa using hz.2
    subst hd hq
    simp [Fill.atEnd, Fill.activeRegion, h1, atBoundary]
  · rw [if_neg hz]
    have hz1 : ¬ (data = [] ∧ prior = []) := by simpa using hz
    obtain ⟨d, t, hdt, hlb, hno, hlast⟩ := lastBoundary_spec data
    simp only [Fill.activeRegion, List.drop_zero, Nat.zero_add]
    by_cases hk : lastBoundary data = 0
    · have hd : d = [] := by rw [hlb] at hk; simpa using hk
      subst hd
      simp only [List.nil_append] at hdt
      subst hdt
      simp only [hk, if_true, List.take_zero, List.drop_zero, List.nil_append]
      refine ⟨trivial, trivial, rfl, ?_, trivial, trivial, ?_, trivial, by omega, by simp, trivial,
        ?_, ?_⟩
      · intro c hc
        rcases List.mem_append.1 hc with h | h
        · exact hp c h
        · exact hno c h
      · intro h2 h3; rw [h3] at h2; simp at h2
      · simp [hz1]
      · by_cases h3 : ctx1.endOfFile = true
        · right; exact h3
        · left; simpa using h3
    · have hd : d ≠ [] := by
        intro h; apply hk; rw [hlb, h]; rfl
      have hlast1 : d.getLast? = some newline := hlast.resolve_left hd
      simp only [if_neg hk]
      have htake : (prior ++ data).take (prior.length + lastBoundary data) = prior ++ d := by
        rw [hlb, hdt, ← List.append_assoc, List.take_left' (by simp)]
      have hdrop : (prior ++ data).drop (prior.length + lastBoundary data) = t := by
        rw [hlb, hdt, ← List.append_assoc, List.drop_left' (by simp)]
      rw [htake, hdrop]
      have hle := lastBoundary_le data
      refine ⟨by rw [hdt, List.append_assoc], trivial,
        atBoundary_append prior d hd (atBoundary_of_getLast (Or.inr hlast1)), hno, trivial,
        trivial, ?_, trivial, by omega, ?_, trivial, ?_, ?_⟩
      · intro h2 h3; rw [h3] at h2; simp at h2
      · have := congrArg List.length hdt
        simp only [List.length_append] at this
        omega
      · simp [hz1]
      · by_cases h3 : ctx1.endOfFile = true
        · right; exact h3
        · left; simpa using h3

theorem take_add_length {α : Type} (l : List α) (p n : Nat) :
    l.take (p + ((l.drop p).take n).length) = l.take p ++ (l.drop p).take n := by
  rw [List.take_add]
  congr 1
  rw [List.length_take]
  by_cases h : n ≤ (l.drop p).length
  · rw [Nat.min_eq_left h]
  · rw [Nat.min_eq_right (by omega), List.take_of_length_le (le_refl _),
      List.take_of_length_le (by omega)]

theorem FillInv.fill_step {ctx : LoaderCtx} {G : List (List Char)} (h : FillInv ctx G)
    (capacity : Nat) :
    FillInv (fill capacity ctx).2 (G ++ [(fill capacity ctx).1.activeRegion]) ∧
    (fill capacity ctx).2.file = ctx.file ∧
    (fill capacity ctx).1.storage =
      (fill capacity ctx).1.activeRegion ++ (fill capacity ctx).2.lineBegin ∧
    List.IsPrefix ctx.lineBegin (fill capacity ctx).1.storage := by
  rcases fill_cases capacity ctx with ⟨he, hf⟩ | ⟨he, errno, hf⟩ | ⟨he, n, hn, hpos, hf⟩
  · rw [hf]
    have hb := h.atEnd he
    refine ⟨⟨h.noTerminator, h.atEnd, ?_, ?_⟩, rfl, ?_, ?_⟩
    · simpa [Fill.atEnd, Fill.activeRegion] using h.bytes
    · intro g hg
      rcases List.mem_append.1 hg with hg | hg
      · exact h.bound g hg
      · simp only [Fill.atEnd, Fill.activeRegion, List.drop_nil, List.take_nil,
          List.mem_singleton] at hg
        subst hg; rfl
    · simp [Fill.atEnd, Fill.activeRegion, hb]
    · rw [hb]; exact List.nil_prefix
  · rw [hf]
    refine ⟨⟨h.noTerminator, ?_, ?_, ?_⟩, rfl, ?_, ?_⟩
    · intro h2; simp only at h2; rw [he] at h2; simp at h2
    · simpa [Fill.activeRegion] using h.bytes
    · intro g hg
      rcases List.mem_append.1 hg with hg | hg
      · exact h.bound g hg
      · simp only [Fill.activeRegion, List.take_zero, List.mem_singleton] at hg
        subst hg; rfl
    · simp [Fill.activeRegion]
    · exact List.prefix_refl _
  · rw [hf]
    obtain ⟨h1, h2, h3, h4, h5, h6, h7, -⟩ := fillRead_spec ctx.lineBegin
      ((ctx.file.drop ctx.filePos).take n)
      { ctx with lineBegin := [], replies := ctx.replies.tail, reads := ctx.reads + 1 }
      h.noTerminator rfl
    refine ⟨⟨h4, ?_, ?_, ?_⟩, h6, ?_, ?_⟩
    · intro h8; exact (h7 h8 he).1
    · rw [h5, h6]
      simp only [List.flatten_append, List.flatten_cons, List.flatten_nil, List.append_nil]
      rw [List.append_assoc, h1, ← List.append_assoc, h.bytes]
      exact (take_add_length ctx.file ctx.filePos n).symm
    · intro g hg
      rcases List.mem_append.1 hg with hg | hg
      · exact h.bound g hg
      · simp only [List.mem_singleton] at hg
        subst hg; exact h3
    · rw [h2, h1]
    · rw [h2]; exact List.prefix_append _ _

theorem fill_bounds (capacity : Nat) (ctx : LoaderCtx) (h : ctx.lineBegin.length ≤ capacity) :
    (fill capacity ctx).1.nRead ≤ capacity ∧
    (fill capacity ctx).1.activeStart + (fill capacity ctx).1.activeLen ≤
      (fill capacity ctx).1.nRead ∧
    (fill capacity ctx).1.storage.length = (fill capacity ctx).1.nRead ∧
    (fill capacity ctx).2.lineBegin.length ≤ capacity := by
  rcases fill_cases capacity ctx with ⟨he, hf⟩ | ⟨he, errno, hf⟩ | ⟨he, n, hn, hpos, hf⟩
  · rw [hf]; simp [Fill.atEnd, h]
  · rw [hf]; simp [h]
  · rw [hf]
    by_cases hnl : ∀ c ∈ ctx.lineBegin, c ≠ newline
    · obtain ⟨-, h2, -, -, -, -, -, h8, h9, h10, -⟩ := fillRead_spec ctx.lineBegin
        ((ctx.file.drop ctx.filePos).take n)
        { ctx with lineBegin := [], replies := ctx.replies.tail, reads := ctx.reads + 1 }
        hnl rfl
      have hlen : ((ctx.file.drop ctx.filePos).take n).length ≤ n := List.length_take_le _ _
      refine ⟨by omega, h9, by rw [h2, h8, List.length_append], by omega⟩
    · have hlen : ((ctx.file.drop ctx.filePos).take n).length ≤ n := List.length_take_le _ _
      have hlb := lastBoundary_le ((ctx.file.drop ctx.filePos).take n)
      unfold fillRead
      split
      · simp [Fill.atEnd]
      · simp only [List.length_append, List.length_drop, Nat.zero_add]
        refine ⟨by omega, ?_, trivial, by omega⟩
        split <;> omega

theorem fill_eof (capacity : Nat) (ctx : LoaderCtx)
    (h : (fill capacity ctx).1.eof = true) :
    (fill capacity ctx).2.endOfFile = true ∧ (fill capacity ctx).1.nRead = 0 ∧
      (fill capacity ctx).1.activeRegion = [] := by
  rcases fill_cases capacity ctx with ⟨he, hf⟩ | ⟨he, errno, hf⟩ | ⟨he, n, hn, hpos, hf⟩
  · rw [hf]; exact ⟨he, rfl, rfl⟩
  · rw [hf] at h; simp at h
  · rw [hf] at h ⊢
    unfold fillRead at h ⊢
    split
    · exact ⟨rfl, rfl, rfl⟩
    · rename_i hz; rw [if_neg hz] at h; simp at h

theorem fill_after_eof (capacity : Nat) (ctx : LoaderCtx) (h : ctx.endOfFile = true) :
    fill capacity ctx = (Fill.atEnd ctx.filePos, ctx) := by
  simp [fill, h]

theorem fill_eof_whole (capacity : Nat) (ctx : LoaderCtx) (hc : 1 ≤ capacity)
    (h0 : ctx.endOfFile = true → ctx.file.length ≤ ctx.filePos)
    (h : (fill capacity ctx).2.endOfFile = true) :
    (fill capacity ctx).2.file.length ≤ (fill capacity ctx).2.filePos := by
  rcases fill_cases capacity ctx with ⟨he, hf⟩ | ⟨he, errno, hf⟩ | ⟨he, n, hn, hpos, hf⟩
  · rw [hf]; exact h0 he
  · rw [hf] at h; simp only at h; rw [he] at h; simp at h
  · rw [hf] at h ⊢
    unfold fillRead at h ⊢
    split
    · rename_i hz
      simp only
      by_contra hlt
      have hne : ctx.file.drop ctx.filePos ≠ [] := by
        intro h1
        have := congrArg List.length h1
        simp only [List.length_drop, List.length_nil] at this
        omega
      have h1n := hpos (by omega) hne
      have hz1 := hz.1
      simp only [List.length_take, List.length_drop] at hz1
      omega
    · rename_i hz
      rw [if_neg hz] at h
      simp only at h
      rw [he] at h
      simp at h

theorem FillInv.start (file : List Char) (replies : List ReadReply) :
    FillInv (LoaderCtx.start file replies) [] :=
  ⟨by simp [LoaderCtx.start], fun _ => rfl, by simp [LoaderCtx.start], by simp⟩

theorem recordsAux_noTerminator : ∀ (t cur : List Char), (∀ c ∈ t, c ≠ newline) →
    recordsAux cur t = [] := by
  intro t
  induction t with
  | nil => intro cur _; rfl
  | cons c t ih =>
    intro cur h
    rw [recordsAux, if_neg (h c (List.mem_cons_self _ _))]
    exact ih _ (fun d hd => h d (List.mem_cons_of_mem _ hd))

theorem recordsAux_append : ∀ (x cur y : List Char), x ≠ [] → atBoundary x = true →
    recordsAux cur (x ++ y) = recordsAux cur x ++ recordsAux [] y := by
  intro x
  induction x with
  | nil => intro cur y h; exact absurd rfl h
  | cons c x ih =>
    intro cur y _ hb
    by_cases hx : x = []
    · subst hx
      have hc : c = newline := by simpa [atBoundary] using hb
      simp [recordsAux, hc]
    · have hb1 : atBoundary x = true := by
        unfold atBoundary at hb ⊢
        cases x with
        | nil => exact absurd rfl hx
        | cons d x1 => rwa [List.getLast?_cons_cons] at hb
      show recordsAux cur (c :: (x ++ y)) = recordsAux cur (c :: x) ++ recordsAux [] y
      by_cases hc : c = newline
      · rw [recordsAux, if_pos hc, recordsAux, if_pos hc, ih [] y hx hb1]; rfl
      · rw [recordsAux, if_neg hc, recordsAux, if_neg hc]
        exact ih _ y hx hb1

theorem records_append (x y : List Char) (hb : atBoundary x = true) :
    records (x ++ y) = records x ++ records y := by
  by_cases hx : x = []
  · subst hx; rfl
  · exact recordsAux_append x [] y hx hb

theorem records_flatten : ∀ (G : List (List Char)) (rest : List Char),
    (∀ g ∈ G, atBoundary g = true) →
    records (G.flatten ++ rest) = G.flatMap records ++ records rest := by
  intro G
  induction G with
  | nil => intro rest _; rfl
  | cons g G ih =>
    intro rest h
    rw [List.flatten_cons, List.append_assoc, records_append _ _ (h g (List.mem_cons_self _ _)),
      ih rest (fun x hx => h x (List.mem_cons_of_mem _ hx)), List.flatMap_cons,
      List.append_assoc]

theorem fillRun_inv : ∀ (caps : List Nat) (ctx : LoaderCtx) (G : List (List Char)),
    FillInv ctx G →
    FillInv (fillCtx caps ctx) (G ++ (fillRun caps ctx).map (fun x => x.1.activeRegion)) ∧
    (fillCtx caps ctx).file = ctx.file ∧
    (∀ x ∈ fillRun caps ctx, x.1.storage = x.1.activeRegion ++ x.2.lineBegin) := by
  intro caps
  induction caps with
  | nil => intro ctx G h; exact ⟨by simpa [fillRun, fillCtx] using h, rfl, by simp [fillRun]⟩
  | cons capacity rest ih =>
    intro ctx G h
    obtain ⟨h1, h2, h3, -⟩ := h.fill_step capacity
    obtain ⟨i1, i2, i3⟩ := ih (fill capacity ctx).2 _ h1
    refine ⟨?_, by rw [fillCtx, i2, h2], ?_⟩
    · simpa [fillRun, fillCtx, List.append_assoc] using i1
    · intro x hx
      simp only [fillRun, List.mem_cons] at hx
      rcases hx with rfl | hx
      · exact h3
      · exact i3 x hx

theorem fillRun_get : ∀ (caps : List Nat) (ctx : LoaderCtx) (G : List (List Char)) (j : Nat)
    (x : Fill × LoaderCtx), FillInv ctx G → (fillRun caps ctx)[j]? = some x →
    ∃ (c0 : LoaderCtx) (capacity : Nat) (G0 : List (List Char)), FillInv c0 G0 ∧
      x = fill capacity c0 ∧ (j = 0 → c0 = ctx) ∧
      (fillRun caps ctx).drop (j + 1) = fillRun (caps.drop (j + 1)) x.2 ∧
      (∀ y, (fillRun caps ctx)[j + 1]? = some y → ∃ c1, y = fill c1 x.2) := by
  intro caps
  induction caps with
  | nil => intro ctx G j x _ h; simp [fillRun] at h
  | cons capacity rest ih =>
    intro ctx G j x hinv h
    cases j with
    | zero =>
      simp only [fillRun, List.getElem?_cons_zero, Option.some.injEq] at h
      subst h
      refine ⟨ctx, capacity, G, hinv, rfl, fun _ => rfl, by simp [fillRun], ?_⟩
      intro y hy
      simp only [fillRun, Nat.zero_add, List.getElem?_cons_succ] at hy
      cases rest with
      | nil => simp [fillRun] at hy
      | cons c1 rest1 =>
        simp only [fillRun, List.getElem?_cons_zero, Option.some.injEq] at hy
        exact ⟨c1, hy.symm⟩
    | succ j =>
      simp only [fillRun, List.getElem?_cons_succ] at h
      obtain ⟨c0, cap0, G0, h0, hx, -, hd, hn⟩ := ih _ _ j x (hinv.fill_step capacity).1 h
      refine ⟨c0, cap0, G0, h0, hx, fun h => by omega, ?_, ?_⟩
      · simpa [fillRun] using hd
      · intro y hy
        simp only [fillRun, List.getElem?_cons_succ] at hy
        exact hn y hy

theorem fillRun_after_eof : ∀ (caps : List Nat) (ctx : LoaderCtx), ctx.endOfFile = true →
    ∀ y ∈ fillRun caps ctx, y = (Fill.atEnd ctx.filePos, ctx) := by
  intro caps
  induction caps with
  | nil => intro ctx _ y hy; simp [fillRun] at hy
  | cons capacity rest ih =>
    intro ctx h y hy
    simp only [fillRun, List.mem_cons] at hy
    rw [fill_after_eof capacity ctx h] at hy
    rcases hy with rfl | hy
    · rfl
    · exact ih ctx h y hy

theorem fillRun_bounds (capacity : Nat) : ∀ (n : Nat) (ctx : LoaderCtx),
    ctx.lineBegin.length ≤ capacity → ∀ x ∈ fillRun (List.replicate n capacity) ctx,
    x.1.nRead ≤ capacity ∧ x.1.activeStart + x.1.activeLen ≤ x.1.nRead ∧
      x.1.storage.length = x.1.nRead := by
  intro n
  induction n with
  | zero => intro ctx _ x hx; simp [fillRun] at hx
  | succ n ih =>
    intro ctx h x hx
    obtain ⟨h1, h2, h3, h4⟩ := fill_bounds capacity ctx h
    simp only [List.replicate_succ, fillRun, List.mem_cons] at hx
    rcases hx with rfl | hx
    · exact ⟨h1, h2, h3⟩
    · exact ih _ h4 x hx

theorem fillCtx_eof_whole : ∀ (caps : List Nat) (ctx : LoaderCtx), (∀ c ∈ caps, 1 ≤ c) →
    (ctx.endOfFile = true → ctx.file.length ≤ ctx.filePos) →
    (fillCtx caps ctx).endOfFile = true →
    (fillCtx caps ctx).file.length ≤ (fillCtx caps ctx).filePos := by
  intro caps
  induction caps with
  | nil => intro ctx _ h0 h; exact h0 h
  | cons capacity rest ih =>
    intro ctx hc h0 h
    exact ih _ (fun c hcm => hc c (List.mem_cons_of_mem _ hcm))
      (fill_eof_whole capacity ctx (hc capacity (List.mem_cons_self _ _)) h0) h

theorem produceBuffer_done (b : LoadBuffer) (ctx : LoaderCtx) (pick : Nat)
    (hm : b.mutex = none) (hs : b.state = .LOADSTATE_EMPTY) :
    ∃ ws, b.produceBuffer ctx pick =
      .done ({ b.store (fill b.bufSize ctx).1 with
                 state := .LOADSTATE_LOADED, mutex := none, loadingComplete := ws },
        (fill b.bufSize ctx).2) := by
  refine ⟨b.loadingComplete.eraseIdx (pick % b.loadingComplete.length), ?_⟩
  simp [LoadBuffer.produceBuffer, beginPhase, endPhase, waitForConsumptionComplete,
    completeLoading, execBody, execStmt, hm, hs, LoadBuffer.store, LoadBuffer.setWaiters,
    LoadBuffer.waiters]

theorem fill_error (capacity : Nat) (ctx : LoaderCtx) (errno : Int) (rest : List ReadReply)
    (he : ctx.endOfFile = false) (hr : ctx.replies = .error errno :: rest) :
    (fill capacity ctx).1.IOerror = true ∧ (fill capacity ctx).1.IOerrno = errno ∧
      (fill capacity ctx).1.eof = false ∧ (fill capacity ctx).2.lineBegin = ctx.lineBegin ∧
      (fill capacity ctx).2.filePos = ctx.filePos := by
  simp [fill, LoaderCtx.read, he, hr]

theorem fill_read (capacity : Nat) (ctx : LoaderCtx) (limit : Nat) (rest : List ReadReply)
    (he : ctx.endOfFile = false) (hr : ctx.replies = .upTo limit :: rest)
    (hc : ctx.lineBegin.length < capacity) (hf : ctx.filePos < ctx.file.length) :
    (fill capacity ctx).1.IOerror = false ∧ (fill capacity ctx).1.eof = false ∧
      (fill capacity ctx).2.endOfFile = false ∧ (fill capacity ctx).2.replies = rest := by
  have hlen : ((ctx.file.drop ctx.filePos).take
      (min (capacity - ctx.lineBegin.length) (limit + 1))).length ≠ 0 := by
    simp only [List.length_take, List.length_drop]
    omega
  have hne : ¬ ((ctx.file.drop ctx.filePos).take
      (min (capacity - ctx.lineBegin.length) (limit + 1)) = [] ∧ ctx.lineBegin = []) := by
    intro h
    exact hlen (by rw [h.1]; rfl)
  have hne1 : ¬ (((ctx.file.drop ctx.filePos).take
      (min (capacity - ctx.lineBegin.length) (limit + 1))).length = 0 ∧
      ctx.lineBegin.length = 0) := fun h => hlen h.1
  unfold fill LoaderCtx.read
  rw [if_neg (by simp [he])]
  simp only [hr, List.head?_cons, List.tail_cons]
  unfold fillRead
  rw [if_neg hne1]
  exact ⟨rfl, rfl, he, rfl⟩

theorem producePool_other (pool pool1 : List LoadBuffer) (i : Nat) (ctx ctx1 : LoaderCtx)
    (pick : Nat) (h : producePool pool i ctx pick = .done (pool1, ctx1)) (k : Nat)
    (hk : k ≠ i) : pool1[k]? = pool[k]? := by
  unfold producePool at h
  split at h
  · rename_i b hb
    split at h
    · rename_i b1 c1 hp
      simp only [Outcome.done.injEq, Prod.mk.injEq] at h
      rw [← h.1, List.getElem?_set_ne (Ne.symm hk)]
    · simp at h
    · simp at h
  · simp at h

theorem producePool_done (pool : List LoadBuffer) (i : Nat) (b : LoadBuffer) (ctx : LoaderCtx)
    (pick : Nat) (hb : pool[i]? = some b) (hm : b.mutex = none)
    (hs : b.state = .LOADSTATE_EMPTY) :
    ∃ b1, producePool pool i ctx pick = .done (pool.set i b1, (fill b.bufSize ctx).2) ∧
      b1.state = .LOADSTATE_LOADED ∧ b1.mutex = none ∧
      b1.IOerror = (fill b.bufSize ctx).1.IOerror ∧
      b1.IOerrno = (fill b.bufSize ctx).1.IOerrno ∧ b1.eof = (fill b.bufSize ctx).1.eof ∧
      b1.nRead = (fill b.bufSize ctx).1.nRead := by
  obtain ⟨ws, hp⟩ := produceBuffer_done b ctx pick hm hs
  refine ⟨{ b.store (fill b.bufSize ctx).1 with
    state := .LOADSTATE_LOADED, mutex := none, loadingComplete := ws }, ?_, rfl, rfl, rfl, rfl,
    rfl, rfl⟩
  simp only [producePool, hb, hp]

theorem Ring.assign_exact {s : Pipeline} {r : Role} {b : LoadBuffer} {l t c : Nat} (h : Inv s)
    (hr : Ring s l t c) (hb : s.pool[(s.thread r).cursor]? = some b)
    (hpc : (s.thread r).pc = 2) :
    (r = .Loader →
      Ring ((s.setBuf (s.thread r).cursor { b with state := r.published }).setThread r
        ⟨(s.thread r).cursor, 3, false⟩) (l + 1) t c ∧
      (s.thread r).cursor = l % s.pool.length ∧ l < c + s.pool.length) ∧
    (r = .Tokenizer →
      Ring ((s.setBuf (s.thread r).cursor { b with state := r.published }).setThread r
        ⟨(s.thread r).cursor, 3, false⟩) l (t + 1) c) ∧
    (r = .Consumer →
      Ring ((s.setBuf (s.thread r).cursor { b with state := r.published }).setThread r
        ⟨(s.thread r).cursor, 3, false⟩) l t (c + 1) ∧
      (s.thread r).cursor = c % s.pool.length ∧ c < t) := by
  have hst : b.state = r.awaited := (h.buf _ _ hb).awaited r rfl hpc
  have hsa := Pipeline.stateAt_of_get hb
  have hpos := h.pos
  cases r with
  | Loader =>
    have hcur : (s.thread .Loader).cursor = l % s.pool.length := by
      have := hr.loader
      unfold Pipeline.cursorAt at this
      rwa [if_neg (by omega)] at this
    have hlt : l < c + s.pool.length := by
      by_contra hge
      have hl : l = c + s.pool.length := by have := hr.lc; omega
      have h1 := hr.states c (le_refl _) (by omega)
      have h2 : c % s.pool.length = l % s.pool.length := by rw [hl, Nat.add_mod_right]
      rw [h2, ← hcur, hsa, hst] at h1
      simp only [Option.some.injEq, Role.awaited, ringState] at h1
      split_ifs at h1
      omega
    refine ⟨fun _ => ⟨?_, hcur, hlt⟩, fun h1 => (by cases h1), fun h1 => by cases h1⟩
    constructor
    · exact hr.ct
    · have := hr.tl; omega
    · simpa using hlt
    · rw [Pipeline.cursorAt_upd_self]; simpa using hcur
    · rw [Pipeline.cursorAt_upd (by decide)]; exact hr.tokenizer
    · rw [Pipeline.cursorAt_upd (by decide)]; exact hr.consumer
    · intro m hm hm1
      simp only [Pipeline.pool_setThread, Pipeline.pool_setBuf, List.length_set] at hm1 ⊢
      rw [Pipeline.stateAt_upd hb]
      have htl := hr.tl
      have hct := hr.ct
      by_cases hmc : m % s.pool.length = (s.thread .Loader).cursor
      · rw [if_pos hmc]
        have : m = l := mod_window hm hm1 (by omega) hlt (by rw [hmc, hcur])
        subst this
        simp only [Role.published, ringState, Option.some.injEq]
        rw [if_neg (by omega), if_pos (by omega)]
      · rw [if_neg hmc, hr.states m hm hm1]
        have hne : m ≠ l := by rintro rfl; exact hmc hcur.symm
        simp only [ringState, Option.some.injEq]
        split_ifs <;> first | rfl | omega
  | Tokenizer =>
    have hcur : (s.thread .Tokenizer).cursor = t % s.pool.length := by
      have := hr.tokenizer
      unfold Pipeline.cursorAt at this
      rwa [if_neg (by omega)] at this
    have htl := hr.tl
    have hct := hr.ct
    have hlc := hr.lc
    have hlt : t < l := by
      by_contra hge
      have hl : t = l := by omega
      by_cases hw : t < c + s.pool.length
      · have h1 := hr.states t hct hw
        rw [← hcur, hsa, hst] at h1
        simp only [Option.some.injEq, Role.awaited, ringState] at h1
        split_ifs at h1
      · have ht : t = c + s.pool.length := by omega
        have h1 := hr.states c (le_refl _) (by omega)
        have h2 : c % s.pool.length = t % s.pool.length := by rw [ht, Nat.add_mod_right]
        rw [h2, ← hcur, hsa, hst] at h1
        simp only [Option.some.injEq, Role.awaited, ringState] at h1
        split_ifs at h1
        omega
    refine ⟨fun h1 => (by cases h1), fun _ => ?_, fun h1 => by cases h1⟩
    constructor
    · omega
    · omega
    · simpa using hlc
    · rw [Pipeline.cursorAt_upd (by decide)]; exact hr.loader
    · rw [Pipeline.cursorAt_upd_self]; simpa using hcur
    · rw [Pipeline.cursorAt_upd (by decide)]; exact hr.consumer
    · intro m hm hm1
      simp only [Pipeline.pool_setThread, Pipeline.pool_setBuf, List.length_set] at hm1 ⊢
      rw [Pipeline.stateAt_upd hb]
      by_cases hmc : m % s.pool.length = (s.thread .Tokenizer).cursor
      · rw [if_pos hmc]
        have : m = t := mod_window hm hm1 hct (by omega) (by rw [hmc, hcur])
        subst this
        simp only [Role.published, ringState, Option.some.injEq]
        rw [if_pos (by omega)]
      · rw [if_neg hmc, hr.states m hm hm1]
        have hne : m ≠ t := by rintro rfl; exact hmc hcur.symm
        simp only [ringState, Option.some.injEq]
        split_ifs <;> first | rfl | omega
  | Consumer =>
    have hcur : (s.thread .Consumer).cursor = c % s.pool.length := by
      have := hr.consumer
      unfold Pipeline.cursorAt at this
      rwa [if_neg (by omega)] at this
    have htl := hr.tl
    have hct := hr.ct
    have hlc := hr.lc
    have hlt : c < t := by
      by_contra hge
      have h1 := hr.states c (le_refl _) (by omega)
      rw [← hcur, hsa, hst] at h1
      simp only [Option.some.injEq, Role.awaited, ringState] at h1
      split_ifs at h1
    refine ⟨fun h1 => (by cases h1), fun h1 => (by cases h1), fun _ => ⟨?_, hcur, hlt⟩⟩
    constructor
    · omega
    · omega
    · simp only [Pipeline.pool_setThread, Pipeline.pool_setBuf, List.length_set]; omega
    · rw [Pipeline.cursorAt_upd (by decide)]; exact hr.loader
    · rw [Pipeline.cursorAt_upd (by decide)]; exact hr.tokenizer
    · rw [Pipeline.cursorAt_upd_self]; simpa using hcur
    · intro m hm hm1
      simp only [Pipeline.pool_setThread, Pipeline.pool_setBuf, List.length_set] at hm1 ⊢
      rw [Pipeline.stateAt_upd hb]
      by_cases hmc : m % s.pool.length = (s.thread .Consumer).cursor
      · rw [if_pos hmc]
        have : m = c + s.pool.length :=
          mod_window (c := c + 1) hm hm1 (by omega) (by omega)
            (by rw [hmc, hcur, Nat.add_mod_right])
        subst this
        simp only [Role.published, ringState, Option.some.injEq]
        rw [if_neg (by omega), if_neg (by omega)]
      · rw [if_neg hmc]
        have hne : m ≠ c + s.pool.length := by
          rintro rfl
          exact hmc (by rw [hcur, Nat.add_mod_right])
        exact hr.states m (by omega) (by omega)

theorem DataInv.carry {file : List Char} {s s1 : Pipeline} {D : DataState} {l t t1 c : Nat}
    (hd : DataInv file s D l t c) (hr : Ring s1 l t1 c) (hlen : s1.pool.length = s.pool.length) :
    DataInv file s1 D l t1 c :=
  ⟨hr, by rw [hlen]; exact hd.lenSlots, hd.produced, hd.nConsumed, hd.fillInv, hd.file,
    by rw [hlen]; exact hd.slots, hd.consumed⟩

theorem Pipeline.work_idle (s : Pipeline) (D : DataState) (r : Role) (pick : Nat)
    (h : (s.thread r).pc ≠ 2) : s.work D (.run r pick) = D := by
  cases r <;> simp_all [Pipeline.work, Pipeline.working, Pipeline.thread, beginPhase_length]

theorem Pipeline.work_spurious (s : Pipeline) (D : DataState) (r : Role) :
    s.work D (.spurious r) = D := rfl

theorem DataInv.filled {file : List Char} {s : Pipeline} {D : DataState} {l t c : Nat}
    {b : LoadBuffer} {s1 : Pipeline} (hd : DataInv file s D l t c)
    (hr : Ring s1 (l + 1) t c) (hlen : s1.pool.length = s.pool.length)
    (hcur : s.loader.cursor = l % s.pool.length) (hlt : l < c + s.pool.length)
    (hpos : 0 < s.pool.length) :
    DataInv file s1
      { D with slots := D.slots.set s.loader.cursor (fill b.bufSize D.ctx).1,
               ctx := (fill b.bufSize D.ctx).2,
               produced := D.produced ++ [(fill b.bufSize D.ctx).1] } (l + 1) t c := by
  obtain ⟨f1, f2, -⟩ := hd.fillInv.fill_step b.bufSize
  have hct := hd.ring.ct
  have htl := hd.ring.tl
  refine ⟨hr, ?_, ?_, hd.nConsumed, ?_, ?_, ?_, ?_⟩
  · simp [hlen, hd.lenSlots]
  · simp [hd.produced]
  · simpa using f1
  · simp only; rw [f2]; exact hd.file
  · intro m hm hm1
    simp only [hlen]
    by_cases hml : m = l
    · subst hml
      rw [hcur, List.getElem?_set_eq_of_lt _ (by rw [hd.lenSlots]; exact Nat.mod_lt _ hpos),
        List.getElem?_append_right (by rw [hd.produced]), hd.produced]
      simp
    · have hne : l % s.pool.length ≠ m % s.pool.length := by
        intro he
        exact hml (mod_window hm (by omega) (by omega) hlt he.symm)
      rw [hcur, List.getElem?_set_ne hne, List.getElem?_append_left (by rw [hd.produced]; omega)]
      exact hd.slots m hm (by omega)
  · simp only
    rw [List.take_append_of_le_length (by rw [hd.produced]; omega)]
    exact hd.consumed

theorem DataInv.consume_step {file : List Char} {s : Pipeline} {D : DataState} {l t c : Nat}
    {s1 : Pipeline} (hd : DataInv file s D l t c)
    (hr : Ring s1 l t (c + 1)) (hlen : s1.pool.length = s.pool.length)
    (hcur : s.consumer.cursor = c % s.pool.length) (hlt : c < t) :
    ∃ f, D.slots[s.consumer.cursor]? = some f ∧
      DataInv file s1
        { D with consumed := D.consumed ++ records f.activeRegion,
                 nConsumed := D.nConsumed + 1 } l t (c + 1) := by
  have hct := hd.ring.ct
  have htl := hd.ring.tl
  have hcl : c < D.produced.length := by rw [hd.produced]; omega
  have hslot := hd.slots c (le_refl _) (by omega)
  rw [List.getElem?_eq_getElem hcl] at hslot
  refine ⟨D.produced[c], by rw [hcur]; exact hslot, hr, ?_, hd.produced, ?_, hd.fillInv,
    hd.file, ?_, ?_⟩
  · simp [hlen, hd.lenSlots]
  · simp [hd.nConsumed]
  · intro m hm hm1
    simp only [hlen]
    exact hd.slots m (by omega) hm1
  · show D.consumed ++ records D.produced[c].activeRegion =
      (D.produced.take (c + 1)).flatMap (fun f => records f.activeRegion)
    rw [hd.consumed, List.take_succ, List.getElem?_eq_getElem hcl, List.flatMap_append]
    simp

theorem DataInv.stepped {file : List Char} {s s1 : Pipeline} {a : Action} {D : DataState}
    {l t c : Nat} (h : Inv s) (hd : DataInv file s D l t c) (ht : Trans s a s1) :
    ∃ l1 t1 c1, DataInv file s1 (s.work D a) l1 t1 c1 := by
  have hr := hd.ring
  have hlen := ht.pool_length
  cases ht with
  | lock r pick b hb hpc hm =>
    rw [Pipeline.work_idle s D r pick (by omega)]
    exact ⟨l, t, c, hd.carry (hr.keep_upd hb rfl (Or.inl ⟨rfl, by simp [hpc]⟩)) hlen⟩
  | sleep r pick b hb hpc hw hs hm =>
    rw [Pipeline.work_idle s D r pick (by omega)]
    exact ⟨l, t, c, hd.carry (hr.keep_upd hb (by simp) (Or.inl ⟨rfl, by simp [hpc]⟩)) hlen⟩
  | pass r pick b hb hpc hw hs =>
    rw [Pipeline.work_idle s D r pick (by omega)]
    exact ⟨l, t, c, hd.carry (hr.keep_upd hb rfl (Or.inl ⟨rfl, by simp [hpc]⟩)) hlen⟩
  | relock r pick b hb hpc hw hn hm =>
    rw [Pipeline.work_idle s D r pick (by omega)]
    exact ⟨l, t, c, hd.carry (hr.keep_upd hb rfl (Or.inl ⟨rfl, by simp [hpc]⟩)) hlen⟩
  | wake r pick b hb hpc =>
    rw [Pipeline.work_idle s D r pick (by omega)]
    exact ⟨l, t, c, hd.carry (hr.keep_upd hb (by simp) (Or.inl ⟨rfl, by simp [hpc]⟩)) hlen⟩
  | unlock r pick b hb hpc hm =>
    rw [Pipeline.work_idle s D r pick (by omega)]
    exact ⟨l, t, c, hd.carry (hr.keep_upd hb rfl (Or.inr ⟨by omega, by simp, rfl⟩)) hlen⟩
  | spurious r b hb hpc hw =>
    rw [Pipeline.work_spurious]
    have he : (s.setBuf (s.thread r).cursor (b.dequeue r.waitsOn r)).setThread r (s.thread r) =
        s.setBuf (s.thread r).cursor (b.dequeue r.waitsOn r) := by
      cases r <;> rfl
    refine ⟨l, t, c, hd.carry ?_ hlen⟩
    rw [← he]
    exact hr.keep_upd hb (by simp [LoadBuffer.dequeue]) (Or.inl ⟨rfl, Iff.rfl⟩)
  | stutter r => exact ⟨l, t, c, hd⟩
  | assign r pick b hb hpc =>
    obtain ⟨hL, hT, hC⟩ := hr.assign_exact h hb hpc
    cases r with
    | Loader =>
      obtain ⟨hring, hcur, hlt⟩ := hL rfl
      have hw : s.work D (.run .Loader pick) =
          { D with slots := D.slots.set s.loader.cursor (fill b.bufSize D.ctx).1,
                   ctx := (fill b.bufSize D.ctx).2,
                   produced := D.produced ++ [(fill b.bufSize D.ctx).1] } := by
        have hb1 : s.pool[s.loader.cursor]? = some b := hb
        have hw1 : s.working .Loader := by
          unfold Pipeline.working; rw [hpc, beginPhase_length]
        simp only [Pipeline.work, if_pos hw1, hb1]
      rw [hw]
      exact ⟨l + 1, t, c, hd.filled hring hlen hcur hlt h.pos⟩
    | Tokenizer =>
      have hw : s.work D (.run .Tokenizer pick) = D := rfl
      rw [hw]
      exact ⟨l, t + 1, c, hd.carry (hT rfl) hlen⟩
    | Consumer =>
      obtain ⟨hring, hcur, hlt⟩ := hC rfl
      obtain ⟨f, hf, hinv⟩ := hd.consume_step hring hlen hcur hlt
      have hw : s.work D (.run .Consumer pick) =
          { D with consumed := D.consumed ++ records f.activeRegion,
                   nConsumed := D.nConsumed + 1 } := by
        have hw1 : s.working .Consumer := by
          unfold Pipeline.working; rw [hpc, beginPhase_length]
        simp only [Pipeline.work, if_pos hw1, hf]
      rw [hw]
      exact ⟨l, t, c + 1, hinv⟩

theorem DataInv.replayed {file : List Char} {acts : List Action} : ∀ {s : Pipeline} {D : DataState}
    {l t c : Nat}, Inv s → DataInv file s D l t c →
    ∃ s1 l1 t1 c1, DataInv file s1 (s.replay D acts) l1 t1 c1 := by
  induction acts with
  | nil => intro s D l t c _ hd; exact ⟨s, l, t, c, hd⟩
  | cons a rest ih =>
    intro s D l t c h hd
    simp only [Pipeline.replay]
    split
    · rename_i s2 hs2
      obtain ⟨l1, t1, c1, hd1⟩ := hd.stepped h (step_trans hs2)
      exact ih (h.preserved (step_trans hs2)) hd1
    · exact ⟨s, l, t, c, hd⟩

theorem DataInv.fresh {s : Pipeline} (h : s.isInitial = true) (file : List Char)
    (replies : List ReadReply) :
    DataInv file s (DataState.start s.pool.length file replies) 0 0 0 :=
  ⟨Ring.zero h, by simp [DataState.start], rfl, rfl, FillInv.start file replies, rfl,
    fun m hm hm1 => by omega, rfl⟩

theorem flatMap_take_initial {α β : Type} (f : α → List β) (l : List α) (n : Nat) :
    List.IsPrefix ((l.take n).flatMap f) (l.flatMap f) := by
  refine ⟨(l.drop n).flatMap f, ?_⟩
  rw [← List.flatMap_append, List.take_append_drop]

theorem DataInv.consumed_spec {file : List Char} {s : Pipeline} {D : DataState} {l t c : Nat}
    (hd : DataInv file s D l t c) :
    List.IsPrefix D.consumed (records file) ∧
    D.consumed = (D.produced.take D.nConsumed).flatMap (fun f => records f.activeRegion) ∧
    D.nConsumed ≤ D.produced.length ∧
    (D.nConsumed = D.produced.length → file.length ≤ D.ctx.filePos →
      D.consumed = records file) := by
  have hbytes := hd.fillInv.bytes
  rw [hd.file] at hbytes
  have hfile : file = (D.produced.map Fill.activeRegion).flatten ++
      (D.ctx.lineBegin ++ file.drop D.ctx.filePos) := by
    rw [← List.append_assoc, hbytes, List.take_append_drop]
  have hrec := records_flatten (D.produced.map Fill.activeRegion)
    (D.ctx.lineBegin ++ file.drop D.ctx.filePos) hd.fillInv.bound
  rw [← hfile] at hrec
  have hmap : (D.produced.map Fill.activeRegion).flatMap records =
      D.produced.flatMap (fun f => records f.activeRegion) := by
    rw [List.flatMap_def, List.flatMap_def, List.map_map]; rfl
  have hct := hd.ring.ct
  have htl := hd.ring.tl
  refine ⟨?_, by rw [hd.nConsumed]; exact hd.consumed, by rw [hd.nConsumed, hd.produced]; omega,
    ?_⟩
  · rw [hrec, hmap, hd.consumed]
    exact (flatMap_take_initial _ _ _).trans (List.prefix_append _ _)
  · intro hall hlen
    have hrec1 := records_flatten (D.produced.map Fill.activeRegion) D.ctx.lineBegin
      hd.fillInv.bound
    rw [hbytes, List.take_of_length_le hlen,
      show records D.ctx.lineBegin = [] from
        recordsAux_noTerminator _ [] hd.fillInv.noTerminator, List.append_nil, hmap] at hrec1
    rw [hrec1, hd.consumed, ← hd.nConsumed, hall, List.take_length]

theorem readKeyValuePair_rval (E : SettingEnv) (fuel : Nat) (stream stream1 : List Char)
    (key value key1 value1 : String) (rval : Int)
    (h : Setting.readKeyValuePair E fuel stream key value = some (rval, stream1, key1, value1)) :
    rval = 0 ∨ (rval = -E.TS_ERROR_FILEFORMAT ∧ key1 = key ∧ value1 = value) := by
  unfold Setting.readKeyValuePair at h
  simp only at h
  split at h
  · simp at h
  · split at h
    · simp only [Option.some.injEq, Prod.mk.injEq] at h
      exact Or.inr ⟨h.1.symm, h.2.2.1.symm, h.2.2.2.symm⟩
    · simp only [Option.some.injEq, Prod.mk.injEq] at h
      exact Or.inl h.1.symm

/-- The header of `loadSettings` where `readKeyValuePair` returns: a missing
file gives 0, an empty one `-TS_ERROR_EOF`; a first line that is not two
fields, a key other than the version key and a value that is no integer give
`-TS_ERROR_FILEFORMAT`, a version above `this_version` gives
`-TS_ERROR_NEWFORMAT`; the static members are as before in each case. -/
theorem loadSettings_header (E : SettingEnv) (fuel : Nat) (st : Settings) :
    Setting.loadSettings E fuel st .missing = some (0, st) ∧
    Setting.loadSettings E fuel st (.readable "") = some (-E.TS_ERROR_EOF, st) ∧
    ∀ (text : String) (rval : Int) (stream : List Char) (key value : String),
      text.data ≠ [] →
      Setting.readKeyValuePair E fuel text.data "" "" = some (rval, stream, key, value) →
      (rval ≠ 0 →
        Setting.loadSettings E fuel st (.readable text) = some (-E.TS_ERROR_FILEFORMAT, st)) ∧
      (rval = 0 → key ≠ TRACESHARK_VERSION_KEY →
        Setting.loadSettings E fuel st (.readable text) = some (-E.TS_ERROR_FILEFORMAT, st)) ∧
      (rval = 0 → key = TRACESHARK_VERSION_KEY → E.toInt value = none →
        Setting.loadSettings E fuel st (.readable text) = some (-E.TS_ERROR_FILEFORMAT, st)) ∧
      (rval = 0 → key = TRACESHARK_VERSION_KEY → ∀ version, E.toInt value = some version →
        version > Setting.this_version →
        Setting.loadSettings E fuel st (.readable text) = some (-E.TS_ERROR_NEWFORMAT, st)) := by
  refine ⟨rfl, by simp [Setting.loadSettings, QTextStream.atEnd], ?_⟩
  intro text rval stream key value hne hread
  have hat : ¬ QTextStream.atEnd text.data = true := by
    simpa [QTextStream.atEnd] using hne
  refine ⟨?_, ?_, ?_, ?_⟩
  · intro hr
    rcases readKeyValuePair_rval E fuel _ _ _ _ _ _ _ hread with h | ⟨h, -⟩
    · exact absurd h hr
    · subst h
      simp only [Setting.loadSettings, if_pos hat, hread, if_pos hr]
  · intro hr hk
    simp only [Setting.loadSettings, if_pos hat, hread, hr, ne_eq, not_true_eq_false, if_false,
      hk, not_false_eq_true, if_true]
  · intro hr hk hv
    simp only [Setting.loadSettings, if_pos hat, hread, hr, ne_eq, not_true_eq_false, if_false,
      hk, hv]
  · intro hr hk version hv hgt
    simp only [Setting.loadSettings, if_pos hat, hread, hr, ne_eq, not_true_eq_false, if_false,
      hk, hv, if_pos hgt]

theorem isRegularIndex_iff (idx : Int) :
    Setting.isRegularIndex idx = true ↔ 0 ≤ idx ∧ idx < Setting.NR_SETTINGS := by
  simp [Setting.isRegularIndex]

theorem isIrregularIndex_iff (idx : Int) :
    Setting.isIrregularIndex idx = true ↔
      idx = Setting.OPENGL_ENABLED ∨ idx = Setting.LINE_WIDTH := by
  simp only [Setting.isIrregularIndex, Setting.NR_SETTINGS, Setting.END_SETTINGS,
    Setting.OPENGL_ENABLED, Setting.LINE_WIDTH, Bool.and_eq_true, decide_eq_true_eq]
  omega

theorem mem_insert (key : String) (idx : Int) : ∀ (m : List (String × Int)) (e : String × Int),
    e ∈ QMap.insert key idx m → e = (key, idx) ∨ e ∈ m := by
  intro m
  induction m with
  | nil => intro e he; simpa [QMap.insert] using he
  | cons a m ih =>
    intro e he
    obtain ⟨k, v⟩ := a
    unfold QMap.insert at he
    split at he
    · rcases List.mem_cons.1 he with h | h
      · exact Or.inl h
      · exact Or.inr (List.mem_cons_of_mem _ h)
    · split at he
      · rcases List.mem_cons.1 he with h | h
        · exact Or.inl h
        · exact Or.inr h
      · rcases List.mem_cons.1 he with h | h
        · exact Or.inr (h ▸ List.mem_cons_self _ _)
        · rcases ih e h with h1 | h1
          · exact Or.inl h1
          · exact Or.inr (List.mem_cons_of_mem _ h1)

theorem find_mem (key : String) (idx : Int) : ∀ (m : List (String × Int)),
    QMap.find key m = some idx → ∃ k, (k, idx) ∈ m := by
  intro m
  induction m with
  | nil => intro h; simp [QMap.find] at h
  | cons a m ih =>
    intro h
    obtain ⟨k, v⟩ := a
    unfold QMap.find at h
    split at h
    · simp only [Option.some.injEq] at h
      exact ⟨k, h ▸ List.mem_cons_self _ _⟩
    · obtain ⟨k1, hk1⟩ := ih h
      exact ⟨k1, List.mem_cons_of_mem _ hk1⟩

theorem setKey_classified (st : Settings) (idx : Int) (key : String)
    (hi : Setting.isClassified idx = true)
    (h : ∀ e ∈ st.fileKeyMap, Setting.isClassified e.2 = true) :
    ∀ e ∈ (Setting.setKey st idx key).fileKeyMap, Setting.isClassified e.2 = true := by
  intro e he
  rcases mem_insert key idx _ e he with h1 | h1
  · rw [h1]; exact hi
  · exact h e h1

theorem setupSettings_classified (E : SettingEnv) (st : Settings)
    (h : ∀ e ∈ st.fileKeyMap, Setting.isClassified e.2 = true) :
    ∀ e ∈ (Setting.setupSettings E st).fileKeyMap, Setting.isClassified e.2 = true := by
  have hk : ∀ (x : Settings) (idx : Int) (key : String), Setting.isClassified idx = true →
      (∀ e ∈ x.fileKeyMap, Setting.isClassified e.2 = true) →
      ∀ e ∈ QMap.insert key idx x.fileKeyMap, Setting.isClassified e.2 = true :=
    fun x idx key hi hx => setKey_classified x idx key hi hx
  simp only [Setting.setupSettings, Setting.setName, Setting.setEnabled, Setting.setKey,
    Setting.setOpenGLEnabled, Setting.setOpenGLEnabledKey, Setting.setLineWidth,
    Setting.setLineWidthKey, fileKeyMap_modify, fileKeyMap_addDependency]
  intro e he
  rcases mem_insert _ _ _ e he with h1 | he
  · rw [h1]; decide
  rcases mem_insert _ _ _ e he with h1 | he
  · rw [h1]; decide
  rcases mem_insert _ _ _ e he with h1 | he
  · rw [h1]; decide
  rcases mem_insert _ _ _ e he with h1 | he
  · rw [h1]; decide
  rcases mem_insert _ _ _ e he with h1 | he
  · rw [h1]; decide
  rcases mem_insert _ _ _ e he with h1 | he
  · rw [h1]; decide
  rcases mem_insert _ _ _ e he with h1 | he
  · rw [h1]; decide
  rcases mem_insert _ _ _ e he with h1 | he
  · rw [h1]; decide
  rcases mem_insert _ _ _ e he with h1 | he
  · rw [h1]; decide
  exact h e he

theorem loadLoop_returned (E : SettingEnv) : ∀ (fuel : Nat) (st : Settings) (stream : List Char)
    (key value : String) (rval0 rval : Int) (st1 : Settings),
    (∀ e ∈ st.fileKeyMap, Setting.isClassified e.2 = true) →
    Setting.loadLoop E fuel st stream key value rval0 = some (.returned rval st1) →
    rval = -E.TS_ERROR_FILEFORMAT := by
  intro fuel
  induction fuel with
  | zero => intro st stream key value rval0 rval st1 _ h; simp [Setting.loadLoop] at h
  | succ n ih =>
    intro st stream key value rval0 rval st1 hm h
    unfold Setting.loadLoop at h
    split at h
    · simp at h
    · split at h
      · simp at h
      · rename_i r s k v hread
        split at h
        · rename_i hr
          simp only [Option.some.injEq, LoadLoopEnd.returned.injEq] at h
          rcases readKeyValuePair_rval E _ _ _ _ _ _ _ _ hread with h0 | ⟨h0, -⟩
          · exact absurd h0 hr
          · rw [← h.1, h0]
        · split at h
          · exact ih _ _ _ _ _ _ _ hm h
          · rename_i idx hfind
            obtain ⟨k1, hk1⟩ := find_mem _ _ _ hfind
            have hc := hm _ hk1
            simp only [Setting.isClassified, Bool.or_eq_true] at hc
            split at h
            · exact ih _ _ _ _ _ _ _ (by simpa using hm) h
            · split at h
              · exact ih _ _ _ _ _ _ _ (by simpa using hm) h
              · rename_i h1 h2
                rcases hc with hc | hc
                · exact absurd hc h1
                · exact absurd hc h2

theorem readLine_last (l : List Char) (hl : ∀ c ∈ l, c ≠ newline) :
    QTextStream.readLine l = (String.mk l, []) := by
  have h1 : l.takeWhile (fun c => c != newline) = l := by
    rw [List.takeWhile_eq_self_iff]
    intro c hc; simpa using hl c hc
  have h2 : l.dropWhile (fun c => c != newline) = [] := by
    rw [List.dropWhile_eq_nil_iff]
    intro c hc; simpa using hl c hc
  unfold QTextStream.readLine
  rw [h1, h2]
  rfl

theorem readLine_linesText (l : List Char) (rest : List (List Char)) (terminated : Bool)
    (hl : ∀ c ∈ l, c ≠ newline) :
    QTextStream.readLine (linesText (l :: rest) terminated) =
      (String.mk l, linesText rest terminated) := by
  cases rest with
  | nil =>
    cases terminated with
    | true => simpa [linesText] using readLine_line l [] hl
    | false => simpa [linesText] using readLine_last l hl
  | cons l2 rest => simpa [linesText] using readLine_line l _ hl

theorem readKeyValuePair_linesText (E : SettingEnv) (fuel : Nat) (l : List Char)
    (rest : List (List Char)) (terminated : Bool) (key value : String)
    (hl : Setting.isPairLine l) :
    Setting.readKeyValuePair E (fuel + 1) (linesText (l :: rest) terminated) key value =
      some (0, linesText rest terminated, (QString.split (String.mk l)).getD 0 "",
        (QString.split (String.mk l)).getD 1 "") := by
  unfold Setting.readKeyValuePair
  rw [readLine_linesText l rest terminated hl.1]
  have h2 := hl.2
  simp only [Setting.splitLoop]
  rw [if_neg (by omega)]
  simp only
  rw [if_neg (by omega)]

theorem linesText_ne_nil (l : List Char) (rest : List (List Char)) (terminated : Bool)
    (hl : Setting.isPairLine l) : QTextStream.atEnd (linesText (l :: rest) terminated) = false := by
  have hne : l ≠ [] := by
    intro h
    have := hl.2
    rw [h] at this
    simp [QString.split, splitAux] at this
  cases l with
  | nil => exact absurd rfl hne
  | cons c l1 =>
    cases rest with
    | nil => simp [linesText, QTextStream.atEnd]
    | cons l2 rest => simp [linesText, QTextStream.atEnd]

theorem loadLoop_pairLines (E : SettingEnv) : ∀ (ls : List (List Char)) (terminated : Bool)
    (fuel : Nat) (st : Settings) (key value : String),
    (∀ l ∈ ls, Setting.isPairLine l) → ls.length < fuel →
    (∃ st1, Setting.loadLoop E fuel st (linesText ls terminated) key value 0 =
      some (.finished 0 st1)) ∨
    ((∃ st1, Setting.loadLoop E fuel st (linesText ls terminated) key value 0 =
      some (.returned (-E.TS_ERROR_INTERNAL) st1)) ∧
      ¬ ∀ e ∈ st.fileKeyMap, Setting.isClassified e.2 = true) := by
  intro ls
  induction ls with
  | nil =>
    intro terminated fuel st key value _ hf
    obtain ⟨n, rfl⟩ : ∃ n, fuel = n + 1 := ⟨fuel - 1, by omega⟩
    left
    exact ⟨st, by simp [Setting.loadLoop, linesText, QTextStream.atEnd]⟩
  | cons l rest ih =>
    intro terminated fuel st key value hl hf
    obtain ⟨n, rfl⟩ : ∃ n, fuel = n + 1 := ⟨fuel - 1, by omega⟩
    have hl1 := hl l (List.mem_cons_self _ _)
    have hrest : ∀ x ∈ rest, Setting.isPairLine x := fun x hx => hl x (List.mem_cons_of_mem _ hx)
    have hn : rest.length < n := by simpa using hf
    rw [Setting.loadLoop, linesText_ne_nil l rest terminated hl1]
    simp only [Bool.false_eq_true, if_false,
      readKeyValuePair_linesText E n l rest terminated key value hl1, ne_eq, not_true_eq_false]
    cases hfind : QMap.find ((QString.split (String.mk l)).getD 0 "") st.fileKeyMap with
    | none => exact ih terminated n st _ _ hrest hn
    | some idx =>
      simp only
      by_cases h1 : Setting.isIrregularIndex idx = true
      · rw [if_pos h1]
        have := ih terminated n (Setting.handleIrregularIndex E st idx
          ((QString.split (String.mk l)).getD 1 "")) ((QString.split (String.mk l)).getD 0 "")
          ((QString.split (String.mk l)).getD 1 "") hrest hn
        simpa using this
      · rw [if_neg h1]
        by_cases h2 : Setting.isRegularIndex idx = true
        · rw [if_pos h2]
          have := ih terminated n (Setting.handleRegularIndex st idx
            ((QString.split (String.mk l)).getD 1 "")) ((QString.split (String.mk l)).getD 0 "")
            ((QString.split (String.mk l)).getD 1 "") hrest hn
          simpa using this
        · rw [if_neg h2]
          right
          refine ⟨⟨st, rfl⟩, ?_⟩
          intro hall
          obtain ⟨k1, hk1⟩ := find_mem _ _ _ hfind
          have := hall _ hk1
          simp only [Setting.isClassified, Bool.or_eq_true] at this
          rcases this with h | h
          · exact h1 h
          · exact h2 h

theorem mem_updateAt {α : Type} (f : α → α) : ∀ (l : List α) (n : Nat) (x : α),
    x ∈ updateAt f l n → x ∈ l ∨ ∃ y ∈ l, x = f y := by
  intro l
  induction l with
  | nil => intro n x h; simp [updateAt] at h
  | cons a l ih =>
    intro n x h
    cases n with
    | zero =>
      simp only [updateAt, List.mem_cons] at h
      rcases h with h | h
      · exact Or.inr ⟨a, List.mem_cons_self _ _, h⟩
      · exact Or.inl (List.mem_cons_of_mem _ h)
    | succ n =>
      simp only [updateAt, List.mem_cons] at h
      rcases h with h | h
      · exact Or.inl (h ▸ List.mem_cons_self _ _)
      · rcases ih n x h with h1 | ⟨y, hy, hxy⟩
        · exact Or.inl (List.mem_cons_of_mem _ h1)
        · exact Or.inr ⟨y, List.mem_cons_of_mem _ hy, hxy⟩

theorem Settings.bounded.ofModify {st : Settings} (h : st.bounded) (idx : Int)
    (f : Setting → Setting) (hf : ∀ s, s.inBounds → (f s).inBounds) :
    (st.modify idx f).bounded := by
  refine ⟨by rw [modify_length]; exact h.1, ?_⟩
  intro s hs
  unfold Settings.modify at hs
  split at hs
  · rcases mem_updateAt f _ _ s hs with h1 | ⟨y, hy, hxy⟩
    · exact h.2 s h1
    · rw [hxy]; exact hf y (h.2 y hy)
  · exact h.2 s hs

theorem Settings.bounded.ofCongr {st st1 : Settings} (h : st.bounded)
    (he : st1.settings = st.settings) : st1.bounded := by
  unfold Settings.bounded at h ⊢
  rw [he]; exact h

theorem Settings.bounded.atIndex {st : Settings} (h : st.bounded) (idx : Int) :
    (st.get idx).inBounds := by
  unfold Settings.get
  split
  · by_cases hlt : idx.toNat < st.settings.length
    · rw [List.getD_eq_getElem _ _ hlt]
      exact h.2 _ (List.getElem_mem _)
    · rw [List.getD_eq_default _ _ (by omega)]
      exact ⟨by decide, by decide, by decide, by decide⟩
  · exact ⟨by decide, by decide, by decide, by decide⟩

theorem Settings.bounded.ofAddDependency {st : Settings} (h : st.bounded) (idx : Int)
    (d : SettingDependency) : (Setting.addDependency st idx d).bounded := by
  unfold Setting.addDependency
  simp only
  split
  · exact h
  · rename_i hn
    have h1 : (st.modify idx (fun s => { s with
        dependency := s.dependency.set (st.get idx).nrDep d,
        nrDep := (st.get idx).nrDep + 1 })).bounded := by
      apply h.ofModify
      intro s hs
      exact ⟨by simp only; omega, hs.2.1, by simp only [List.length_set]; exact hs.2.2.1,
        hs.2.2.2⟩
    split
    · exact h1
    · rename_i hm
      apply h1.ofModify
      intro s hs
      exact ⟨hs.1, by simp only; omega, hs.2.2.1,
        by simp only [List.length_set]; exact hs.2.2.2⟩

theorem Settings.bounded.ofClearDependencies {st : Settings} (h : st.bounded) (idx : Int) :
    (Setting.clearDependencies st idx).bounded := by
  apply h.ofModify
  intro s hs
  exact ⟨Nat.zero_le _, hs.2.1, hs.2.2.1, hs.2.2.2⟩

theorem Settings.bounded.ofSetName {st : Settings} (h : st.bounded) (idx : Int) (n : String) :
    (Setting.setName st idx n).bounded :=
  h.ofModify idx _ (fun _ hs => hs)

theorem Settings.bounded.ofSetEnabled {st : Settings} (h : st.bounded) (idx : Int) (e : Bool) :
    (Setting.setEnabled st idx e).bounded :=
  h.ofModify idx _ (fun _ hs => hs)

theorem Settings.bounded.ofSetKey {st : Settings} (h : st.bounded) (idx : Int) (key : String) :
    (Setting.setKey st idx key).bounded :=
  h.ofCongr rfl

theorem Settings.bounded.ofSetOpenGLEnabled {st : Settings} (h : st.bounded) (e : Bool) :
    (Setting.setOpenGLEnabled st e).bounded :=
  h.ofCongr rfl

theorem Settings.bounded.ofSetLineWidth {st : Settings} (h : st.bounded) (width : Int) :
    (Setting.setLineWidth st width).bounded :=
  h.ofCongr rfl

theorem Settings.bounded.ofSetupSettings {st : Settings} (h : st.bounded) (E : SettingEnv) :
    (Setting.setupSettings E st).bounded := by
  have named : ∀ (x : Settings) (idx : Int) (n key : String) (e : Bool), x.bounded →
      (Setting.setEnabled (Setting.setKey (Setting.setName x idx n) idx key) idx e).bounded :=
    fun x idx n key e hx => ((hx.ofSetName idx n).ofSetKey idx key).ofSetEnabled idx e
  unfold Setting.setupSettings
  simp only [Setting.setOpenGLEnabledKey, Setting.setLineWidthKey]
  refine Settings.bounded.ofSetKey (Settings.bounded.ofSetLineWidth
    (Settings.bounded.ofSetKey (Settings.bounded.ofSetOpenGLEnabled
      (Settings.bounded.ofAddDependency (named _ _ _ _ _ (named _ _ _ _ _ (named _ _ _ _ _
        (named _ _ _ _ _ (named _ _ _ _ _ (Settings.bounded.ofAddDependency
          (named _ _ _ _ _ (Settings.bounded.ofAddDependency (named _ _ _ _ _ h) _ _))
          _ _)))))) _ _) _) _ _) _) _ _

theorem Settings.bounded_initial : Settings.initial.bounded := by
  refine ⟨by simp [Settings.initial], ?_⟩
  intro s hs
  simp only [Settings.initial, List.mem_replicate] at hs
  rw [hs.2]
  exact ⟨by decide, by decide, by decide, by decide⟩

theorem Settings.bounded.ofCalls (E : SettingEnv) : ∀ (calls : List SettingCall) (st : Settings),
    st.bounded → (Setting.calls E st calls).bounded := by
  intro calls
  induction calls with
  | nil => intro st h; exact h
  | cons c rest ih =>
    intro st h
    apply ih
    cases c with
    | setupSettings => exact h.ofSetupSettings E
    | addDependency idx d => exact h.ofAddDependency idx d
    | clearDependencies idx => exact h.ofClearDependencies idx

theorem addDependencyWrites_bound (st : Settings) (idx : Int) (d : SettingDependency)
    (h : st.bounded) (hi : 0 ≤ idx ∧ idx < Setting.NR_SETTINGS)
    (hd : 0 ≤ d.index ∧ d.index < Setting.NR_SETTINGS) :
    ∀ w ∈ Setting.addDependencyWrites st idx d,
      0 ≤ w.1 ∧ w.1 < Setting.NR_SETTINGS ∧ w.2 < Setting.arrayLength ∧
        w.2 < (st.get w.1).dependency.length ∧ w.2 < (st.get w.1).dependent.length := by
  intro w hw
  have hb : ∀ i, (st.get i).dependency.length = Setting.arrayLength ∧
      (st.get i).dependent.length = Setting.arrayLength :=
    fun i => ⟨(h.atIndex i).2.2.1, (h.atIndex i).2.2.2⟩
  unfold Setting.addDependencyWrites at hw
  simp only at hw
  split at hw
  · simp at hw
  · rename_i hn
    split at hw
    · simp only [List.mem_singleton] at hw
      rw [hw]
      exact ⟨hi.1, hi.2, by omega, by rw [(hb idx).1]; omega, by rw [(hb idx).2]; omega⟩
    · rename_i hm
      simp only [List.mem_cons, List.mem_singleton, List.not_mem_nil, or_false] at hw
      rcases hw with hw | hw
      · rw [hw]
        exact ⟨hi.1, hi.2, by omega, by rw [(hb idx).1]; omega, by rw [(hb idx).2]; omega⟩
      · rw [hw]
        exact ⟨hd.1, hd.2, by omega, by rw [(hb d.index).1]; omega,
          by rw [(hb d.index).2]; omega⟩

theorem take_set_succ {α : Type} (d : α) : ∀ (l : List α) (n : Nat), n < l.length →
    (l.set n d).take (n + 1) = l.take n ++ [d] := by
  intro l
  induction l with
  | nil => intro n h; simp at h
  | cons a l ih =>
    intro n h
    cases n with
    | zero => simp
    | succ n =>
      simp only [List.set_cons_succ, List.take_succ_cons, List.cons_append, List.cons.injEq,
        true_and]
      exact ih n (by simpa using h)

theorem depCount_stored (s : Setting) (n : Nat) (d x : SettingDependency)
    (hn : n = s.nrDep) (h : s.nrDep < s.dependency.length) :
    ({ s with dependency := s.dependency.set n d, nrDep := n + 1 } : Setting).depCount x =
      s.depCount x + if d = x then 1 else 0 := by
  subst hn
  simp only [Setting.depCount]
  rw [take_set_succ d _ _ h, List.count_append, List.count_singleton]
  simp only [beq_iff_eq]

theorem dependentCount_stored (s : Setting) (n : Nat) (d x : SettingDependency)
    (hn : n = s.nrDependents) (h : s.nrDependents < s.dependent.length) :
    ({ s with dependent := s.dependent.set n d, nrDependents := n + 1 } :
      Setting).dependentCount x = s.dependentCount x + if d = x then 1 else 0 := by
  subst hn
  simp only [Setting.dependentCount]
  rw [take_set_succ d _ _ h, List.count_append, List.count_singleton]
  simp only [beq_iff_eq]

theorem addDependency_eq (st : Settings) (idx : Int) (d : SettingDependency) :
    Setting.addDependency st idx d =
      if (st.get idx).nrDep ≥ Setting.arrayLength then st
      else if ((st.modify idx (Setting.storeDependency (st.get idx).nrDep d)).get
          d.index).nrDependents ≥ Setting.arrayLength then
        st.modify idx (Setting.storeDependency (st.get idx).nrDep d)
      else
        (st.modify idx (Setting.storeDependency (st.get idx).nrDep d)).modify d.index
          (Setting.storeDependent
            ((st.modify idx (Setting.storeDependency (st.get idx).nrDep d)).get
              d.index).nrDependents ⟨idx, d.desiredValue⟩) := rfl

theorem addDependencyWrites_eq (st : Settings) (idx : Int) (d : SettingDependency) :
    Setting.addDependencyWrites st idx d =
      if (st.get idx).nrDep ≥ Setting.arrayLength then []
      else if ((st.modify idx (Setting.storeDependency (st.get idx).nrDep d)).get
          d.index).nrDependents ≥ Setting.arrayLength then [(idx, (st.get idx).nrDep)]
      else [(idx, (st.get idx).nrDep), (d.index,
        ((st.modify idx (Setting.storeDependency (st.get idx).nrDep d)).get
          d.index).nrDependents)] := rfl

theorem inBounds_storeDependency (n : Nat) (d : SettingDependency) (s : Setting)
    (hn : n < Setting.arrayLength) (hs : s.inBounds) :
    (Setting.storeDependency n d s).inBounds :=
  ⟨by simp only [Setting.storeDependency]; omega, hs.2.1,
    by simp only [Setting.storeDependency, List.length_set]; exact hs.2.2.1, hs.2.2.2⟩

theorem addDependency_counts (st : Settings) (idx : Int) (d : SettingDependency)
    (h : st.bounded) (hi : 0 ≤ idx ∧ idx < Setting.NR_SETTINGS)
    (hd : 0 ≤ d.index ∧ d.index < Setting.NR_SETTINGS) (i j : Int) (v : Bool) :
    ((Setting.addDependency st idx d).get i).depCount ⟨j, v⟩ =
      (st.get i).depCount ⟨j, v⟩ +
        (if 1 ≤ (Setting.addDependencyWrites st idx d).length ∧ i = idx ∧ j = d.index ∧
          v = d.desiredValue then 1 else 0) ∧
    ((Setting.addDependency st idx d).get j).dependentCount ⟨i, v⟩ =
      (st.get j).dependentCount ⟨i, v⟩ +
        (if (Setting.addDependencyWrites st idx d).length = 2 ∧ i = idx ∧ j = d.index ∧
          v = d.desiredValue then 1 else 0) ∧
    (Setting.addDependencyWrites st idx d).length ≤ 2 := by
  have hlen : st.settings.length = 7 := h.1
  have hNR : Setting.NR_SETTINGS = 7 := rfl
  have hAL : Setting.arrayLength = 4 := rfl
  rw [hNR] at hi hd
  have hdx : (d = ⟨j, v⟩) ↔ (j = d.index ∧ v = d.desiredValue) := by
    cases d
    simp only [SettingDependency.mk.injEq]
    constructor
    · rintro ⟨a, b⟩; exact ⟨a.symm, b.symm⟩
    · rintro ⟨a, b⟩; exact ⟨a.symm, b.symm⟩
  have hdy : ((⟨idx, d.desiredValue⟩ : SettingDependency) = ⟨i, v⟩) ↔
      (i = idx ∧ v = d.desiredValue) := by
    simp only [SettingDependency.mk.injEq]
    constructor
    · rintro ⟨a, b⟩; exact ⟨a.symm, b.symm⟩
    · rintro ⟨a, b⟩; exact ⟨a.symm, b.symm⟩
  rw [addDependency_eq, addDependencyWrites_eq]
  by_cases hn : (st.get idx).nrDep ≥ Setting.arrayLength
  · simp [if_pos hn]
  · rw [if_neg hn, if_neg hn]
    have hb := h.atIndex idx
    generalize hst1 : st.modify idx (Setting.storeDependency (st.get idx).nrDep d) = st1
    have hget1 : ∀ k, st1.get k =
        if k = idx then Setting.storeDependency (st.get idx).nrDep d (st.get idx)
        else st.get k := by
      intro k; rw [← hst1]; exact get_modify st idx k _ hi.1 (by omega)
    have hdep1 : ∀ k, (st1.get k).depCount ⟨j, v⟩ =
        (st.get k).depCount ⟨j, v⟩ + if k = idx ∧ j = d.index ∧ v = d.desiredValue then 1
          else 0 := by
      intro k
      rw [hget1]
      by_cases hk : k = idx
      · subst hk
        rw [if_pos rfl]
        unfold Setting.storeDependency
        rw [depCount_stored _ _ d _ rfl (by rw [hb.2.2.1]; omega)]
        simp only [hdx, true_and]
      · rw [if_neg hk]; simp [hk]
    have hdt1 : ∀ k x, (st1.get k).dependentCount x = (st.get k).dependentCount x := by
      intro k x
      rw [hget1]
      by_cases hk : k = idx
      · subst hk; rw [if_pos rfl]; rfl
      · rw [if_neg hk]
    have hb1 : st1.bounded := by
      rw [← hst1]
      exact h.ofModify idx _ (fun s hs => inBounds_storeDependency _ d s (by omega) hs)
    have hlen1 : st1.settings.length = 7 := hb1.1
    by_cases hm : (st1.get d.index).nrDependents ≥ Setting.arrayLength
    · rw [if_pos hm, if_pos hm, hdep1, hdt1]
      simp
    · rw [if_neg hm, if_neg hm]
      have hbd := hb1.atIndex d.index
      generalize hst2 : st1.modify d.index
        (Setting.storeDependent (st1.get d.index).nrDependents ⟨idx, d.desiredValue⟩) = st2
      have hget2 : ∀ k, st2.get k =
          if k = d.index then
            Setting.storeDependent (st1.get d.index).nrDependents ⟨idx, d.desiredValue⟩
              (st1.get d.index)
          else st1.get k := by
        intro k; rw [← hst2]; exact get_modify st1 d.index k _ hd.1 (by omega)
      refine ⟨?_, ?_, by simp⟩
      · have hsame : (st2.get i).depCount ⟨j, v⟩ = (st1.get i).depCount ⟨j, v⟩ := by
          rw [hget2]
          by_cases hk : i = d.index
          · subst hk; rw [if_pos rfl]; rfl
          · rw [if_neg hk]
        rw [hsame, hdep1]
        simp
      · rw [hget2]
        by_cases hk : j = d.index
        · rw [if_pos hk]
          unfold Setting.storeDependent
          rw [dependentCount_stored _ _ _ _ rfl (by rw [hbd.2.2.2]; omega), hdt1, hk]
          simp only [hdy, List.length_cons, List.length_singleton, List.length_nil, true_and]
        · rw [if_neg hk, hdt1]
          simp [hk]

theorem initial_get (i : Int) : Settings.initial.get i = Setting.new := by
  unfold Settings.get Settings.initial
  split
  · simp only
    by_cases h : i.toNat < (List.replicate Setting.NR_SETTINGS.toNat Setting.new).length
    · rw [List.getD_eq_getElem _ _ h]; simp
    · rw [List.getD_eq_default _ _ (by omega)]
  · rfl

theorem addDependencies_counts : ∀ (calls : List (Int × SettingDependency)) (st : Settings),
    st.bounded →
    (∀ c ∈ calls, 0 ≤ c.1 ∧ c.1 < Setting.NR_SETTINGS ∧ 0 ≤ c.2.index ∧
      c.2.index < Setting.NR_SETTINGS) →
    ((∀ (i j : Int) (v : Bool), (st.get j).dependentCount ⟨i, v⟩ ≤ (st.get i).depCount ⟨j, v⟩) →
      ∀ (i j : Int) (v : Bool),
        ((Setting.addDependencies st calls).get j).dependentCount ⟨i, v⟩ ≤
          ((Setting.addDependencies st calls).get i).depCount ⟨j, v⟩) ∧
    ((∀ (i j : Int) (v : Bool), (st.get i).depCount ⟨j, v⟩ = (st.get j).dependentCount ⟨i, v⟩) →
      Setting.dependentsFit st calls = true →
      ∀ (i j : Int) (v : Bool),
        ((Setting.addDependencies st calls).get i).depCount ⟨j, v⟩ =
          ((Setting.addDependencies st calls).get j).dependentCount ⟨i, v⟩) := by
  intro calls
  induction calls with
  | nil => intro st _ _; exact ⟨fun h => h, fun h _ => h⟩
  | cons c rest ih =>
    intro st hb hv
    obtain ⟨idx, d⟩ := c
    have hc := hv (idx, d) (List.mem_cons_self _ _)
    have hrest := fun x hx => hv x (List.mem_cons_of_mem _ hx)
    obtain ⟨ih1, ih2⟩ := ih (Setting.addDependency st idx d) (hb.ofAddDependency idx d) hrest
    constructor
    · intro hle
      apply ih1
      intro i j v
      obtain ⟨e1, e2, -⟩ := addDependency_counts st idx d hb ⟨hc.1, hc.2.1⟩ hc.2.2 i j v
      rw [e1, e2]
      have := hle i j v
      by_cases hP : (Setting.addDependencyWrites st idx d).length = 2 ∧ i = idx ∧ j = d.index ∧
          v = d.desiredValue
      · rw [if_pos hP, if_pos ⟨by omega, hP.2⟩]; omega
      · rw [if_neg hP]
        by_cases hQ : 1 ≤ (Setting.addDependencyWrites st idx d).length ∧ i = idx ∧
            j = d.index ∧ v = d.desiredValue
        · rw [if_pos hQ]; omega
        · rw [if_neg hQ]; omega
    · intro heq hfit
      simp only [Setting.dependentsFit, Bool.and_eq_true, decide_eq_true_eq] at hfit
      apply ih2 _ hfit.2
      intro i j v
      obtain ⟨e1, e2, e3⟩ := addDependency_counts st idx d hb ⟨hc.1, hc.2.1⟩ hc.2.2 i j v
      rw [e1, e2, heq i j v]
      have h1 := hfit.1
      by_cases hP : (Setting.addDependencyWrites st idx d).length = 2 ∧ i = idx ∧ j = d.index ∧
          v = d.desiredValue
      · rw [if_pos hP, if_pos ⟨by omega, hP.2⟩]
      · rw [if_neg hP, if_neg (fun hQ => hP ⟨by omega, hQ.2⟩)]
/-! ## The claims -/

/-- C1. The lifecycle state of a `LoadBuffer` is written by the three end-phase
operations only, each writing one fixed value. No statement other than an
assignment changes `state`; the three wait functions contain no assignment;
`completeLoading` assigns `LOADED`, `completeTokenization` assigns `TOKENIZED`,
`completeConsumption` assigns `EMPTY`, and nothing else. Hence in every
execution of the protocol from a start state, for every ring size, a step that
changes the state of a buffer is a step of `EMPTY` to `LOADED`, of `LOADED` to
`TOKENIZED` or of `TOKENIZED` to `EMPTY`; it is the first statement of the
end-phase of a role that has returned from its begin-phase on that buffer; and
when the new value is `EMPTY` the role is the Consumer in `completeConsumption`. -/
theorem C1_state_written_by_end_phase_only (s0 s s1 : Pipeline) (acts : List Action)
    (a : Action) (h0 : s0.isInitial = true) (hr : s0.exec acts = some s)
    (hs : s.step a = .done s1) :
    (∀ (t : Role) (pick : Nat) (st : Stmt) (w : Bool) (b : LoadBuffer) (res : StmtResult),
      execStmt t pick st w b = .done res → res.buf.state = (st.written).getD b.state) ∧
    (waitForConsumptionComplete.filterMap Stmt.written = [] ∧
      waitForLoadingComplete.filterMap Stmt.written = [] ∧
      waitForTokenizationComplete.filterMap Stmt.written = [] ∧
      completeLoading.filterMap Stmt.written = [.LOADSTATE_LOADED] ∧
      completeTokenization.filterMap Stmt.written = [.LOADSTATE_TOKENIZED] ∧
      completeConsumption.filterMap Stmt.written = [.LOADSTATE_EMPTY]) ∧
    ∀ (i : Nat) (b b1 : LoadBuffer), s.pool[i]? = some b → s1.pool[i]? = some b1 →
      b1.state ≠ b.state →
      ((b.state = .LOADSTATE_EMPTY ∧ b1.state = .LOADSTATE_LOADED) ∨
        (b.state = .LOADSTATE_LOADED ∧ b1.state = .LOADSTATE_TOKENIZED) ∨
        (b.state = .LOADSTATE_TOKENIZED ∧ b1.state = .LOADSTATE_EMPTY)) ∧
      ∃ r pick, a = .run r pick ∧ (s.thread r).cursor = i ∧
        (s.thread r).pc = (beginPhase r).length ∧
        (endPhase r)[0]? = some (.assign b1.state) ∧
        (b1.state = .LOADSTATE_EMPTY → r = .Consumer ∧ endPhase r = completeConsumption) := by
  refine ⟨fun t pick st w b res h => execStmt_state h, by decide, ?_⟩
  intro i b b1 hb hb1 hne
  obtain ⟨r, pick, ha, hc, hpc, hst, hst1⟩ :=
    Trans.state_change (Inv.reachable h0 hr) (step_trans hs) hb hb1 hne
  rw [hst, hst1]
  refine ⟨by cases r <;> simp [Role.awaited, Role.published], r, pick, ha, hc, ?_, ?_, ?_⟩
  · rw [hpc]; cases r <;> rfl
  · cases r <;> rfl
  · cases r <;> simp [Role.published, endPhase]

/-- C1, witness: in the ring of two buffers the Loader passes its begin-phase on
buffer 0 and its next step, the assignment of `completeLoading`, takes the
buffer from `EMPTY` to `LOADED`. -/
theorem C1_witness :
    demoPipeline.isInitial = true ∧
    demoPipeline.exec [.run .Loader 0, .run .Loader 0] = some demoLoaderAtWork ∧
    demoLoaderAtWork.step (.run .Loader 0) = .done demoLoaderAssigned ∧
    (((demoHeld.state = .LOADSTATE_EMPTY ∧ demoLoaded.state = .LOADSTATE_LOADED) ∨
        (demoHeld.state = .LOADSTATE_LOADED ∧ demoLoaded.state = .LOADSTATE_TOKENIZED) ∨
        (demoHeld.state = .LOADSTATE_TOKENIZED ∧ demoLoaded.state = .LOADSTATE_EMPTY)) ∧
      ∃ r pick, Action.run .Loader 0 = .run r pick ∧ (demoLoaderAtWork.thread r).cursor = 0 ∧
        (demoLoaderAtWork.thread r).pc = (beginPhase r).length ∧
        (endPhase r)[0]? = some (.assign demoLoaded.state) ∧
        (demoLoaded.state = .LOADSTATE_EMPTY → r = .Consumer ∧
          endPhase r = completeConsumption)) :=
  ⟨by decide, by decide, by decide,
    (C1_state_written_by_end_phase_only demoPipeline demoLoaderAtWork demoLoaderAssigned
      [.run .Loader 0, .run .Loader 0] (.run .Loader 0) (by decide) (by decide)
      (by decide)).2.2 0 demoHeld demoLoaded (by decide) (by decide) (by decide)⟩

/-- C2. The begin-phase of a role is `mutex.lock()` followed by the loop that
waits for the value of the role (`EMPTY` for the Loader, `LOADED` for the
Tokenizer, `TOKENIZED` for the Consumer). In every reachable state, for a step
of a role that is inside its begin-phase: if the begin-phase returns with this
step, the role holds the mutex of the buffer and the lifecycle has the awaited
value; if the lifecycle has another value the begin-phase does not return with
this step; and a thread that is inside `wait` (woken by `wakeOne` or
spuriously) does not return with this step either, it leaves the `wait` with
the mutex and is back at the loop test. -/
theorem C2_begin_phase_returns_in_awaited_state (s0 s s1 : Pipeline) (acts : List Action)
    (r : Role) (pick : Nat) (h0 : s0.isInitial = true) (hr : s0.exec acts = some s)
    (hs : s.step (.run r pick) = .done s1) (hin : (s.thread r).pc < (beginPhase r).length) :
    ([Role.Loader, Role.Tokenizer, Role.Consumer].map (fun q => (beginPhase q, q.awaited)) =
      [(waitForConsumptionComplete, .LOADSTATE_EMPTY),
        (waitForLoadingComplete, .LOADSTATE_LOADED),
        (waitForTokenizationComplete, .LOADSTATE_TOKENIZED)]) ∧
    beginPhase r = [.lock, .waitUntil r.awaited r.waitsOn] ∧
    (s1.working r → ∃ b, s1.pool[(s1.thread r).cursor]? = some b ∧
      b.mutex = some r ∧ b.state = r.awaited) ∧
    (∀ b, s.pool[(s.thread r).cursor]? = some b → b.state ≠ r.awaited → ¬ s1.working r) ∧
    ((s.thread r).inWait = true → ¬ s1.working r ∧ (s1.thread r).inWait = false) := by
  have h := Inv.reachable h0 hr
  have h1 := h.preserved (step_trans hs)
  refine ⟨rfl, beginPhase_eq r, fun hw => h1.working_spec hw, ?_, ?_⟩
  · intro b hb hne hw
    unfold Pipeline.working at hw
    rw [beginPhase_length] at hw hin
    have ht := step_trans hs
    generalize ha : Action.run r pick = a at ht
    cases ht with
    | pass r2 pick2 b2 hb2 hpc2 hw2 hs2 =>
      simp only [Action.run.injEq] at ha
      obtain ⟨rfl, rfl⟩ := ha
      rw [hb] at hb2
      rw [Option.some.inj hb2] at hne
      exact hne hs2
    | stutter | spurious => simp at ha
    | _ =>
      simp only [Action.run.injEq] at ha
      obtain ⟨rfl, rfl⟩ := ha
      simp at hw
  · intro hw
    unfold Pipeline.working
    rw [beginPhase_length] at hin ⊢
    have ht := step_trans hs
    generalize ha : Action.run r pick = a at ht
    cases ht with
    | stutter | spurious => simp at ha
    | relock =>
      simp only [Action.run.injEq] at ha
      obtain ⟨rfl, rfl⟩ := ha
      simp
    | _ =>
      simp only [Action.run.injEq] at ha
      obtain ⟨rfl, rfl⟩ := ha
      simp_all

/-- C2, witness: the Loader, at the loop test on the `EMPTY` buffer 0 with the
mutex held, returns from its begin-phase holding the mutex. -/
theorem C2_witness :
    demoPipeline.isInitial = true ∧
    demoPipeline.exec [.run .Loader 0] = some demoLoaderAtTest ∧
    demoLoaderAtTest.step (.run .Loader 0) = .done demoLoaderAtWork ∧
    (demoLoaderAtTest.thread .Loader).pc < (beginPhase .Loader).length ∧
    (demoLoaderAtWork.working .Loader →
      ∃ b, demoLoaderAtWork.pool[(demoLoaderAtWork.thread .Loader).cursor]? = some b ∧
        b.mutex = some .Loader ∧ b.state = Role.Loader.awaited) :=
  ⟨by decide, by decide, by decide, by decide,
    (C2_begin_phase_returns_in_awaited_state demoPipeline demoLoaderAtTest demoLoaderAtWork
      [.run .Loader 0] .Loader 0 (by decide) (by decide) (by decide) (by decide)).2.2.1⟩

/-- C3. Each end-phase operation, run by the thread that holds the mutex, sets
the lifecycle to its value (`completeLoading` to `LOADED`,
`completeTokenization` to `TOKENIZED`, `completeConsumption` to `EMPTY`), takes
at most one thread out of the queue of its own condition variable
(`loadingComplete`, `parsingComplete`, `consumptionComplete`) and none out of
the other two, releases the mutex, and changes no other member of the buffer. -/
theorem C3_end_phase_effect (t : Role) (pick : Nat) (b : LoadBuffer) (hm : b.mutex = some t) :
    (∃ ws : List Role, ws.Sublist b.loadingComplete ∧ b.loadingComplete.length ≤ ws.length + 1 ∧
      execBody t pick completeLoading b =
        .done { b with state := .LOADSTATE_LOADED, mutex := none, loadingComplete := ws }) ∧
    (∃ ws : List Role, ws.Sublist b.parsingComplete ∧ b.parsingComplete.length ≤ ws.length + 1 ∧
      execBody t pick completeTokenization b =
        .done { b with state := .LOADSTATE_TOKENIZED, mutex := none, parsingComplete := ws }) ∧
    (∃ ws : List Role, ws.Sublist b.consumptionComplete ∧
      b.consumptionComplete.length ≤ ws.length + 1 ∧
      execBody t pick completeConsumption b =
        .done { b with state := .LOADSTATE_EMPTY, mutex := none, consumptionComplete := ws }) := by
  have hlen : ∀ (l : List Role) (k : Nat), l.length ≤ (l.eraseIdx k).length + 1 := by
    intro l k
    rw [List.length_eraseIdx]
    split <;> omega
  refine ⟨⟨_, List.eraseIdx_sublist _ (pick % b.loadingComplete.length), hlen _ _, ?_⟩,
    ⟨_, List.eraseIdx_sublist _ (pick % b.parsingComplete.length), hlen _ _, ?_⟩,
    ⟨_, List.eraseIdx_sublist _ (pick % b.consumptionComplete.length), hlen _ _, ?_⟩⟩
  · simp [execBody, completeLoading, execStmt, LoadBuffer.setWaiters, LoadBuffer.waiters, hm]
  · simp [execBody, completeTokenization, execStmt, LoadBuffer.setWaiters, LoadBuffer.waiters, hm]
  · simp [execBody, completeConsumption, execStmt, LoadBuffer.setWaiters, LoadBuffer.waiters, hm]

/-- C3, witness: `completeLoading` run by the Loader on buffer 0 held by the
Loader. -/
theorem C3_witness :
    demoHeld.mutex = some .Loader ∧
    ∃ ws : List Role, ws.Sublist demoHeld.loadingComplete ∧
      demoHeld.loadingComplete.length ≤ ws.length + 1 ∧
      execBody .Loader 0 completeLoading demoHeld =
        .done { demoHeld with state := .LOADSTATE_LOADED, mutex := none, loadingComplete := ws } :=
  ⟨by decide, (C3_end_phase_effect .Loader 0 demoHeld (by decide)).1⟩

/-- C4. In every reachable state, for every ring size and so for a single
buffer, two roles that are both between the return of their begin-phase and
the call of their end-phase on the same buffer are the same role; and a role
in that position holds the mutex of the buffer and is the role the lifecycle
value designates (`EMPTY` the Loader, `LOADED` the Tokenizer, `TOKENIZED` the
Consumer). The first statement also holds when a role counts as at work
until its end-phase has completed. -/
theorem C4_one_role_at_work_per_buffer (s0 s : Pipeline) (acts : List Action)
    (h0 : s0.isInitial = true) (hr : s0.exec acts = some s) :
    (∀ r1 r2, s.working r1 → s.working r2 →
      (s.thread r1).cursor = (s.thread r2).cursor → r1 = r2) ∧
    (∀ r1 r2 i, s.atWork r1 i → s.atWork r2 i → r1 = r2) ∧
    ∀ r, s.working r → ∃ b, s.pool[(s.thread r).cursor]? = some b ∧
      b.mutex = some r ∧ b.state = r.awaited ∧ b.state.owner = r := by
  have h := Inv.reachable h0 hr
  refine ⟨?_, fun r1 r2 i h1 h2 => h.atWork_unique h1 h2, ?_⟩
  · intro r1 r2 h1 h2 hc
    obtain ⟨b1, hb1, hm1, -⟩ := h.working_spec h1
    obtain ⟨b2, hb2, hm2, -⟩ := h.working_spec h2
    rw [hc, hb2] at hb1
    rw [← Option.some.inj hb1, hm2] at hm1
    exact (Option.some.inj hm1).symm
  · intro r hw
    obtain ⟨b, hb, hm, hst⟩ := h.working_spec hw
    exact ⟨b, hb, hm, hst, by rw [hst]; cases r <;> rfl⟩

/-- C4, witness: the state in which the Loader is at work on buffer 0. -/
theorem C4_witness :
    demoPipeline.isInitial = true ∧
    demoPipeline.exec [.run .Loader 0, .run .Loader 0] = some demoLoaderAtWork ∧
    ∀ r, demoLoaderAtWork.working r →
      ∃ b, demoLoaderAtWork.pool[(demoLoaderAtWork.thread r).cursor]? = some b ∧
        b.mutex = some r ∧ b.state = r.awaited ∧ b.state.owner = r :=
  ⟨by decide, by decide,
    (C4_one_role_at_work_per_buffer demoPipeline demoLoaderAtWork
      [.run .Loader 0, .run .Loader 0] (by decide) (by decide)).2.2⟩

/-- C5. For every schedule from a start state and every buffer `i` of the ring,
the completed end-phases on buffer `i` are, in order, a prefix of Loader,
Tokenizer, Consumer, Loader, ...; and the returns of begin-phases and the
completions of end-phases on buffer `i` together are a prefix of: the Loader
begins, the Loader ends, the Tokenizer begins, the Tokenizer ends, the Consumer
begins, the Consumer ends, the Loader begins, ... So the Tokenizer never begins
its work on a fill before the end-phase of the Loader for that fill, nor the
Consumer before the end-phase of the Tokenizer. -/
theorem C5_end_phases_in_cycle_order (s0 : Pipeline) (acts : List Action) (i : Nat)
    (h0 : s0.isInitial = true) :
    (∃ n, (s0.trace acts).filterMap (Event.endedOn i) = (List.range n).map cycleRole) ∧
    (∃ n, (s0.trace acts).filter (fun e => e.buf == i) = (List.range n).map (cycleEvent i)) := by
  obtain ⟨n, hn⟩ := @Pipeline.trace_cycle acts s0 (Inv.initially h0) i
  rw [Pipeline.phase_of_isInitial h0] at hn
  simp only [Nat.zero_add] at hn
  refine ⟨⟨n / 2, ?_⟩, ⟨n, hn⟩⟩
  rw [filterMap_endedOn_filter, hn]
  exact filterMap_endedOn_cycle i n

/-- C5, witness: a schedule in which the Loader and the Tokenizer complete a
round on buffer 0 and the Consumer has begun its own. -/
theorem C5_witness :
    demoPipeline.isInitial = true ∧
    (demoPipeline.trace demoRoundSchedule).filterMap (Event.endedOn 0) =
      [.Loader, .Tokenizer] ∧
    (∃ n, (demoPipeline.trace demoRoundSchedule).filterMap (Event.endedOn 0) =
      (List.range n).map cycleRole) ∧
    (∃ n, (demoPipeline.trace demoRoundSchedule).filter (fun e => e.buf == 0) =
      (List.range n).map (cycleEvent 0)) :=
  ⟨by decide, by decide,
    C5_end_phases_in_cycle_order demoPipeline demoRoundSchedule 0 (by decide)⟩

/-- C6. Deadlock-freedom, for every ring size and so for a ring of two buffers:
in every reachable state the three roles are not all blocked in the wait of
their begin-phase; moreover some thread can execute its next statement, so the
threads are not all blocked on waits and mutexes either. No wake-up is lost: a
thread queued on its condition variable while the lifecycle has the value it
waits for is about to be woken, because the thread that wrote the value holds
the mutex of the buffer and is at the `wakeOne` of that condition variable. -/
theorem C6_no_deadlock (s0 s : Pipeline) (acts : List Action) (h0 : s0.isInitial = true)
    (hr : s0.exec acts = some s) :
    (¬ ∀ r, s.asleep r = true) ∧
    (∃ r, ∀ pick, ∃ s1, s.step (.run r pick) = .done s1) ∧
    (∀ r b, s.pool[(s.thread r).cursor]? = some b → s.asleep r = true → b.state = r.awaited →
      ∃ p, b.mutex = some p ∧ (s.thread p).cursor = (s.thread r).cursor ∧
        (roundCode p)[(s.thread p).pc]? = some (.wakeOne r.waitsOn)) := by
  obtain ⟨h, hn, l, t, c, hring⟩ := reachable_invariants h0 hr
  refine ⟨h.not_all_asleep hn hring, h.some_can_run hn hring, ?_⟩
  intro r b hb hs hst
  obtain ⟨p, hp1, hp2, hp3⟩ := hn r b hb ((Pipeline.asleep_iff hb).1 hs).2 hst
  refine ⟨p, ?_, hp2, ?_⟩
  · exact ((h.buf _ _ hb).mutex p).2 ⟨hp2, h.not_inWait (by omega), by omega⟩
  · rw [roundCode_eq, hp3, ← hp1]; rfl

/-- C6, witness: in the ring of two buffers the Tokenizer is asleep on the
`EMPTY` buffer 0, and a thread can run. -/
theorem C6_witness :
    demoPipeline.isInitial = true ∧ demoPipeline.pool.length = 2 ∧
    demoPipeline.exec [.run .Tokenizer 0, .run .Tokenizer 0] = some demoTokenizerAsleep ∧
    demoTokenizerAsleep.asleep .Tokenizer = true ∧
    (¬ ∀ r, demoTokenizerAsleep.asleep r = true) ∧
    (∃ r, ∀ pick, ∃ s1, demoTokenizerAsleep.step (.run r pick) = .done s1) :=
  ⟨by decide, by decide, by decide, by decide,
    (C6_no_deadlock demoPipeline demoTokenizerAsleep [.run .Tokenizer 0, .run .Tokenizer 0]
      (by decide) (by decide)).1,
    (C6_no_deadlock demoPipeline demoTokenizerAsleep [.run .Tokenizer 0, .run .Tokenizer 0]
      (by decide) (by decide)).2.1⟩

/-- C7. Each condition variable belongs to one transition: `loadingComplete` is
waited on by `waitForLoadingComplete` only and signalled by `completeLoading`
only, `parsingComplete` by `waitForTokenizationComplete` and
`completeTokenization`, `consumptionComplete` by `waitForConsumptionComplete`
and `completeConsumption`; in each end-phase the `wakeOne` directly follows the
assignment of the state. Hence in every reachable state in which a thread is
at a `wakeOne`, every thread queued on that condition variable of the buffer is
inside the loop that waits for exactly the value the buffer has now. -/
theorem C7_one_condition_variable_per_transition (s0 s : Pipeline) (acts : List Action)
    (h0 : s0.isInitial = true) (hr : s0.exec acts = some s) :
    ([waitForLoadingComplete, completeLoading, waitForTokenizationComplete,
        completeTokenization, waitForConsumptionComplete, completeConsumption].map
        (fun body => (body.filterMap Stmt.waitedOn, body.filterMap Stmt.signalled)) =
      [([.loadingComplete], []), ([], [.loadingComplete]),
        ([.parsingComplete], []), ([], [.parsingComplete]),
        ([.consumptionComplete], []), ([], [.consumptionComplete])]) ∧
    (completeLoading.take 2 = [.assign .LOADSTATE_LOADED, .wakeOne .loadingComplete] ∧
      completeTokenization.take 2 = [.assign .LOADSTATE_TOKENIZED, .wakeOne .parsingComplete] ∧
      completeConsumption.take 2 = [.assign .LOADSTATE_EMPTY, .wakeOne .consumptionComplete]) ∧
    (∀ r cv b, (roundCode r)[(s.thread r).pc]? = some (.wakeOne cv) →
      s.pool[(s.thread r).cursor]? = some b →
      ∀ w ∈ b.waiters cv, (s.thread w).cursor = (s.thread r).cursor ∧
        (s.thread w).inWait = true ∧
        (roundCode w)[(s.thread w).pc]? = some (.waitUntil b.state cv)) := by
  refine ⟨by decide, by decide, ?_⟩
  have h := Inv.reachable h0 hr
  intro r cv b hpc hb w hw
  obtain ⟨hpc3, hcv⟩ := roundCode_wakeOne hpc
  have hB := h.buf _ _ hb
  obtain ⟨hw1, hw2, hw3, hw4⟩ := hB.waiters w cv hw
  have hst : b.state = r.published := hB.published r rfl (by omega)
  refine ⟨hw1, hw3, ?_⟩
  have hsig : r.signals = w.waitsOn := hcv ▸ hw4
  rw [roundCode_eq, hw2, hst, published_of_signals hsig, hw4]
  rfl

/-- C7, witness: the Loader at its `wakeOne` on buffer 0 with the Tokenizer
queued on `loadingComplete`. -/
theorem C7_witness :
    demoPipeline.isInitial = true ∧
    demoPipeline.exec demoSignalSchedule = some demoLoaderSignals ∧
    ∀ r cv b,
      (roundCode r)[(demoLoaderSignals.thread r).pc]? = some (.wakeOne cv) →
      demoLoaderSignals.pool[(demoLoaderSignals.thread r).cursor]? = some b →
      ∀ w ∈ b.waiters cv,
        (demoLoaderSignals.thread w).cursor = (demoLoaderSignals.thread r).cursor ∧
        (demoLoaderSignals.thread w).inWait = true ∧
        (roundCode w)[(demoLoaderSignals.thread w).pc]? = some (.waitUntil b.state cv) :=
  ⟨by decide, by decide,
    (C7_one_condition_variable_per_transition demoPipeline demoLoaderSignals
      demoSignalSchedule (by decide) (by decide)).2.2⟩

/-- C8. `isEOF` returns the value of the member `eof` and leaves the buffer,
its lifecycle state and its mutex included, as it was. -/
theorem C8_isEOF_pure_accessor (b : LoadBuffer) :
    (isEOF b).1 = b.eof ∧ (isEOF b).2 = b :=
  ⟨rfl, rfl⟩

/-- C9, counterexample: the condition-variable waits are not the only blocking
points. While the Loader is at work on buffer 0 the Tokenizer, whose next
statement is the `mutex.lock()` of its begin-phase, is blocked, and it is not
inside a `wait`. -/
theorem C9_tokenizer_blocked_at_lock :
    demoPipeline.isInitial = true ∧
    demoPipeline.exec [.run .Loader 0, .run .Loader 0] = some demoLoaderAtWork ∧
    (∀ pick, demoLoaderAtWork.step (.run .Tokenizer pick) = .blocked) ∧
    (demoLoaderAtWork.thread .Tokenizer).inWait = false ∧
    (roundCode .Tokenizer)[(demoLoaderAtWork.thread .Tokenizer).pc]? = some .lock ∧
    demoLoaderAtWork.asleep .Tokenizer = false :=
  ⟨by decide, by decide, fun _ => rfl, by decide, by decide, by decide⟩

/-- C9, as amended. A statement blocks only if it is a `mutex.lock()` on a mutex
that is held, or a thread inside `wait` that is still queued or cannot get the
mutex back. The three end-phase operations contain no `lock` and no wait. A
`wait` releases the mutex when it is entered and has the mutex again when it
is left, to return to the loop test; in every reachable state a thread inside
`wait` does not hold the mutex of its buffer. A thread past its begin-phase
can always execute its next statement, an end-phase run by the holder of the
mutex always completes, and `isEOF` always returns. -/
theorem C9_blocking_only_in_begin_phase (s0 s : Pipeline) (acts : List Action)
    (h0 : s0.isInitial = true) (hr : s0.exec acts = some s) :
    (∀ (t : Role) (pick : Nat) (st : Stmt) (w : Bool) (b : LoadBuffer),
      execStmt t pick st w b = .blocked →
      (st = .lock ∧ b.mutex ≠ none) ∨
        ∃ v cv, st = .waitUntil v cv ∧ w = true ∧ (t ∈ b.waiters cv ∨ b.mutex ≠ none)) ∧
    (∀ body ∈ [completeLoading, completeTokenization, completeConsumption],
      ∀ st ∈ body, st ≠ .lock ∧ st.waitedOn = none) ∧
    (∀ (t : Role) (pick : Nat) (v : loadbufferstate_t) (cv : CondVar) (b : LoadBuffer)
      (res : StmtResult),
      execStmt t pick (.waitUntil v cv) false b = .done res → res.inWait = true →
      res.buf.mutex = none ∧ t ∈ res.buf.waiters cv) ∧
    (∀ (t : Role) (pick : Nat) (v : loadbufferstate_t) (cv : CondVar) (b : LoadBuffer)
      (res : StmtResult),
      execStmt t pick (.waitUntil v cv) true b = .done res →
      res.buf.mutex = some t ∧ res.inWait = false ∧ res.finished = false) ∧
    (∀ r b, s.pool[(s.thread r).cursor]? = some b → (s.thread r).inWait = true →
      b.mutex ≠ some r) ∧
    (∀ r pick, (beginPhase r).length ≤ (s.thread r).pc →
      ∃ s1, s.step (.run r pick) = .done s1) ∧
    (∀ r pick b, b.mutex = some r → ∃ b1, execBody r pick (endPhase r) b = .done b1) ∧
    (∀ b, isEOF b = (b.eof, b)) := by
  have h := Inv.reachable h0 hr
  refine ⟨fun t pick st w b hb => execStmt_blocked hb, by decide, ?_, ?_, ?_, ?_,
    execBody_endPhase, fun _ => rfl⟩
  · intro t pick v cv b res hres hw
    simp only [execStmt] at hres
    split at hres
    · rename_i hf; simp at hf
    · split at hres
      · split at hres
        · simp only [Outcome.done.injEq] at hres
          subst hres
          refine ⟨rfl, ?_⟩
          rw [waiters_mutex, waiters_setWaiters, if_pos rfl]
          exact List.mem_cons_self _ _
        · simp at hres
      · simp only [Outcome.done.injEq] at hres
        subst hres
        simp at hw
  · intro t pick v cv b res hres
    simp only [execStmt, if_true] at hres
    split at hres
    · simp at hres
    · split at hres
      · simp only [Outcome.done.injEq] at hres
        subst hres
        simp
      · simp at hres
  · intro r b hb hw hm
    have := ((h.buf _ _ hb).mutex r).1 hm
    rw [hw] at this
    simp at this
  · intro r pick hpc
    rw [beginPhase_length] at hpc
    obtain ⟨b, hb⟩ := h.buf_at r
    exact h.can_run hb (Or.inr (Or.inr (Or.inr hpc))) pick

/-- C9, witness: the state in which the Loader is at work on buffer 0. -/
theorem C9_witness :
    demoPipeline.isInitial = true ∧
    demoPipeline.exec [.run .Loader 0, .run .Loader 0] = some demoLoaderAtWork ∧
    (∀ r pick, (beginPhase r).length ≤ (demoLoaderAtWork.thread r).pc →
      ∃ s1, demoLoaderAtWork.step (.run r pick) = .done s1) :=
  ⟨by decide, by decide,
    (C9_blocking_only_in_begin_phase demoPipeline demoLoaderAtWork
      [.run .Loader 0, .run .Loader 0] (by decide) (by decide)).2.2.2.2.2.1⟩

/-- C10, counterexample: there is no shutdown signal that releases a blocked
role. With the Tokenizer asleep on the `EMPTY` buffer 0, no schedule of the
Tokenizer, the Consumer and spurious wake-ups, of any length, takes the
Tokenizer out of its begin-phase. -/
theorem C10_blocked_role_is_never_released :
    demoPipeline.isInitial = true ∧
    demoPipeline.exec [.run .Tokenizer 0, .run .Tokenizer 0] = some demoTokenizerAsleep ∧
    demoTokenizerAsleep.asleep .Tokenizer = true ∧
    ¬ ∃ acts s1, (∀ a ∈ acts, a.role ≠ .Loader) ∧
      demoTokenizerAsleep.exec acts = some s1 ∧ s1.working .Tokenizer := by
  refine ⟨by decide, by decide, by decide, ?_⟩
  rintro ⟨acts, s1, hacts, he, hw⟩
  have h : Inv demoTokenizerAsleep :=
    @Inv.reachable demoPipeline demoTokenizerAsleep [.run .Tokenizer 0, .run .Tokenizer 0]
      (by decide) (by decide)
  have hlt := Pipeline.stuck (r := .Tokenizer) h (by decide)
    (fun b hb => by
      have hb0 : b = { demoBuffer with loadingComplete := [.Tokenizer] } := by
        have : demoTokenizerAsleep.pool[(demoTokenizerAsleep.thread .Tokenizer).cursor]? =
            some { demoBuffer with loadingComplete := [.Tokenizer] } := by decide
        rw [this] at hb
        exact (Option.some.inj hb).symm
      rw [hb0]
      decide)
    (fun a ha => by
      have := hacts a ha
      cases hr : a.role <;> simp_all [Role.published, Role.awaited]) he
  unfold Pipeline.working at hw
  rw [beginPhase_length] at hw
  omega

/-- C10, as amended. The exit of the wait loop depends on the lifecycle value
alone; `LoadBuffer` has no shutdown flag. In every state, a step takes a role
out of its begin-phase exactly when it is a step of that role at the loop test,
not inside `wait`, on a buffer whose lifecycle has the awaited value; and when
the lifecycle of the buffer has another value the role is still in its
begin-phase, on the same buffer, after the step. -/
theorem C10_wait_exit_depends_on_state_only (s s1 : Pipeline) (a : Action) (r : Role)
    (hs : s.step a = .done s1) (hin : (s.thread r).pc < (beginPhase r).length) :
    (s1.working r ↔ ∃ pick b, a = .run r pick ∧ (s.thread r).pc = 1 ∧
      (s.thread r).inWait = false ∧ s.pool[(s.thread r).cursor]? = some b ∧
      b.state = r.awaited) ∧
    ((∀ b, s.pool[(s.thread r).cursor]? = some b → b.state ≠ r.awaited) →
      (s1.thread r).pc < (beginPhase r).length ∧
      (s1.thread r).cursor = (s.thread r).cursor) := by
  unfold Pipeline.working
  rw [beginPhase_length] at hin ⊢
  exact ⟨(step_trans hs).exit_iff r hin, (step_trans hs).stay r hin⟩

/-- C10, witness: the Loader at the loop test on the `EMPTY` buffer 0. -/
theorem C10_witness :
    demoLoaderAtTest.step (.run .Loader 0) = .done demoLoaderAtWork ∧
    (demoLoaderAtTest.thread .Loader).pc < (beginPhase .Loader).length ∧
    (demoLoaderAtWork.working .Loader ↔ ∃ pick b, Action.run .Loader 0 = .run .Loader pick ∧
      (demoLoaderAtTest.thread .Loader).pc = 1 ∧
      (demoLoaderAtTest.thread .Loader).inWait = false ∧
      demoLoaderAtTest.pool[(demoLoaderAtTest.thread .Loader).cursor]? = some b ∧
      b.state = Role.Loader.awaited) :=
  ⟨by decide, by decide,
    (C10_wait_exit_depends_on_state_only demoLoaderAtTest demoLoaderAtWork (.run .Loader 0)
      .Loader (by decide) (by decide)).1⟩

/-- C11: in every sequence of fills by one Loader on one file, whatever the
capacities of the buffers and the replies of the reads, once a fill has set
`eof` every later fill reports `eof` with `nRead = 0`, and leaves the context
of the Loader as that fill left it: no read is made on the file descriptor (the
count of reads and the pending replies are the same), and the file offset and
the carry-over are untouched. -/
theorem C11_eof_propagates (caps : List Nat) (file : List Char) (replies : List ReadReply)
    (j k : Nat) (x y : Fill × LoaderCtx)
    (hj : (fillRun caps (LoaderCtx.start file replies))[j]? = some x)
    (hk : (fillRun caps (LoaderCtx.start file replies))[k]? = some y)
    (hjk : j < k) (he : x.1.eof = true) :
    y.1.eof = true ∧ y.1.nRead = 0 ∧ y.1.activeRegion = [] ∧ y.2.reads = x.2.reads ∧
      y.2.replies = x.2.replies ∧ y.2 = x.2 := by
  obtain ⟨c0, capacity, G0, -, hx, -, hd, -⟩ :=
    fillRun_get caps _ [] j x (FillInv.start file replies) hj
  have hend : x.2.endOfFile = true := by rw [hx] at he ⊢; exact (fill_eof capacity c0 he).1
  have hy : y ∈ fillRun (caps.drop (j + 1)) x.2 := by
    rw [← hd]
    have : ((fillRun caps (LoaderCtx.start file replies)).drop (j + 1))[k - (j + 1)]? = some y := by
      rw [List.getElem?_drop]
      rw [show j + 1 + (k - (j + 1)) = k from by omega]
      exact hk
    exact List.getElem?_mem this
  have := fillRun_after_eof _ x.2 hend y hy
  rw [this]
  exact ⟨rfl, rfl, rfl, rfl, rfl, rfl⟩

/-- C11, witness: the file of three lines read with buffers of four bytes; the fourth
fill finds the end of the file and the sixth is as the fourth left things. -/
theorem C11_witness :
    demoLastFill.1.eof = true ∧ demoLastFill.1.nRead = 0 ∧ demoLastFill.1.activeRegion = [] ∧
      demoLastFill.2.reads = demoLastFill.2.reads ∧
      demoLastFill.2.replies = demoLastFill.2.replies ∧ demoLastFill.2 = demoLastFill.2 :=
  C11_eof_propagates demoCaps demoFile [] 3 5 demoLastFill demoLastFill (by decide) (by decide)
    (by decide) (by decide)

/-- C12: for every file, every list of capacities and every behaviour of the
reads, after any number of fills: every active region ends on a record boundary
(it is empty or ends with a line terminator); what a fill placed in the storage
is its active region followed by the carry-over it leaves, and the storage of
the next fill starts with that carry-over; the active regions of all fills,
followed by the carry-over, are the bytes of the file before the file offset,
so all bytes of the file once the offset has reached its end; and the records
of the active regions are the records of those bytes read in one pass. With
capacities of at least one byte, a reported end of file means the whole file
was delivered. -/
theorem C12_no_partial_record (caps : List Nat) (file : List Char) (replies : List ReadReply) :
    (∀ x ∈ fillRun caps (LoaderCtx.start file replies), atBoundary x.1.activeRegion = true) ∧
    (∀ x ∈ fillRun caps (LoaderCtx.start file replies),
      x.1.storage = x.1.activeRegion ++ x.2.lineBegin) ∧
    (∀ (j : Nat) (x y : Fill × LoaderCtx),
      (fillRun caps (LoaderCtx.start file replies))[j]? = some x →
      (fillRun caps (LoaderCtx.start file replies))[j + 1]? = some y →
      List.IsPrefix x.2.lineBegin y.1.storage) ∧
    ((fillRun caps (LoaderCtx.start file replies)).map (fun x => x.1.activeRegion)).flatten ++
        (fillCtx caps (LoaderCtx.start file replies)).lineBegin =
      file.take (fillCtx caps (LoaderCtx.start file replies)).filePos ∧
    (file.length ≤ (fillCtx caps (LoaderCtx.start file replies)).filePos →
      ((fillRun caps (LoaderCtx.start file replies)).map (fun x => x.1.activeRegion)).flatten ++
        (fillCtx caps (LoaderCtx.start file replies)).lineBegin = file) ∧
    ((fillRun caps (LoaderCtx.start file replies)).map (fun x => x.1.activeRegion)).flatMap
        records =
      records (file.take (fillCtx caps (LoaderCtx.start file replies)).filePos) ∧
    ((∀ c ∈ caps, 1 ≤ c) → (fillCtx caps (LoaderCtx.start file replies)).endOfFile = true →
      ((fillRun caps (LoaderCtx.start file replies)).map (fun x => x.1.activeRegion)).flatten =
        file ∧
      ((fillRun caps (LoaderCtx.start file replies)).map (fun x => x.1.activeRegion)).flatMap
        records = records file) := by
  obtain ⟨hinv, hfile, hst⟩ := fillRun_inv caps _ [] (FillInv.start file replies)
  simp only [List.nil_append] at hinv
  have hf : (fillCtx caps (LoaderCtx.start file replies)).file = file := hfile
  have hbytes := hinv.bytes
  rw [hf] at hbytes
  have hb : ∀ x ∈ fillRun caps (LoaderCtx.start file replies),
      atBoundary x.1.activeRegion = true := by
    intro x hx
    exact hinv.bound _ (List.mem_map.2 ⟨x, hx, rfl⟩)
  have hrec := records_flatten _ (fillCtx caps (LoaderCtx.start file replies)).lineBegin
    hinv.bound
  rw [hbytes, show records (fillCtx caps (LoaderCtx.start file replies)).lineBegin = [] from
    recordsAux_noTerminator _ [] hinv.noTerminator, List.append_nil] at hrec
  refine ⟨hb, hst, ?_, hbytes, ?_, hrec.symm, ?_⟩
  · intro j x y hx hy
    obtain ⟨c0, capacity, G0, h0, hx0, -, -, hn⟩ :=
      fillRun_get caps _ [] j x (FillInv.start file replies) hx
    obtain ⟨c1, hy1⟩ := hn y hy
    rw [hy1]
    have h1 : FillInv x.2 (G0 ++ [x.1.activeRegion]) := by
      rw [hx0]; exact (h0.fill_step capacity).1
    exact (h1.fill_step c1).2.2.2
  · intro hlen
    rw [hbytes, List.take_of_length_le hlen]
  · intro hc he
    have hlen := fillCtx_eof_whole caps (LoaderCtx.start file replies) hc
      (by intro h; simp [LoaderCtx.start] at h) he
    rw [hf] at hlen
    have hnil := hinv.atEnd he
    rw [hnil, List.append_nil, List.take_of_length_le hlen] at hbytes
    rw [List.take_of_length_le hlen] at hrec
    exact ⟨hbytes, hrec.symm⟩

/-- C12, witness: six fills with buffers of four bytes deliver the file of three
lines whole, and its three records. -/
theorem C12_witness :
    ((fillRun demoCaps (LoaderCtx.start demoFile [])).map (fun x => x.1.activeRegion)).flatten =
        demoFile ∧
      ((fillRun demoCaps (LoaderCtx.start demoFile [])).map (fun x => x.1.activeRegion)).flatMap
        records = records demoFile :=
  (C12_no_partial_record demoCaps demoFile []).2.2.2.2.2.2 (by decide) (by decide)

/-- C13: in every sequence of fills on buffers of one capacity, started with
a carry-over that fits in a buffer (the empty one at the start of a file), after
every fill `nRead` is at most `bufSize`, the storage holds `nRead` bytes, and
the active region lies within them: it starts at `readBegin`, not before
`buffer`, and ends at or before `buffer + nRead`. -/
theorem C13_bytes_read_within_capacity (capacity n : Nat) (ctx : LoaderCtx) (b : LoadBuffer)
    (x : Fill × LoaderCtx) (hctx : ctx.lineBegin.length ≤ capacity) (hb : b.bufSize = capacity)
    (hx : x ∈ fillRun (List.replicate n capacity) ctx) :
    (b.store x.1).nRead ≤ (b.store x.1).bufSize ∧
    x.1.storage.length = (b.store x.1).nRead ∧
    x.1.activeStart + x.1.activeLen ≤ (b.store x.1).nRead ∧
    x.1.activeRegion.length ≤ (b.store x.1).nRead ∧
    (b.store x.1).buffer ≤ (b.store x.1).readBegin ∧
    (b.store x.1).readBegin + x.1.activeLen ≤ (b.store x.1).buffer + (b.store x.1).nRead := by
  obtain ⟨h1, h2, h3⟩ := fillRun_bounds capacity n ctx hctx x hx
  simp only [LoadBuffer.store, hb]
  refine ⟨h1, h3, h2, ?_, by omega, by omega⟩
  simp only [Fill.activeRegion, List.length_take, List.length_drop]
  omega

/-- C13, witness: the first fill of a buffer of sixteen bytes on the file of three
lines. -/
theorem C13_witness :
    (demoBuffer.store (fill 16 (LoaderCtx.start demoFile [])).1).nRead ≤
      (demoBuffer.store (fill 16 (LoaderCtx.start demoFile [])).1).bufSize :=
  (C13_bytes_read_within_capacity 16 1 (LoaderCtx.start demoFile []) demoBuffer
    (fill 16 (LoaderCtx.start demoFile [])) (by decide) (by decide) (by simp [fillRun])).1

/-- C14: a fill whose read fails with `errno` sets `IOerror` and
`IOerrno = errno` on its buffer, and the round of the Loader still publishes the
buffer as `LOADED` and releases it. With a first round on buffer 0 whose read
succeeds and a second round on buffer 1 whose read fails, buffer 0 is after the
second round what the first round left (`LOADED`, `IOerror` false), as is every
buffer other than buffer 1, and buffer 1 is `LOADED` with `IOerror` and
`IOerrno = errno`. -/
theorem C14_read_error_on_its_buffer_only (pool : List LoadBuffer) (ctx : LoaderCtx)
    (pick limit : Nat) (errno : Int) (rest : List ReadReply) (b0 b1 : LoadBuffer)
    (h0 : pool[0]? = some b0) (h1 : pool[1]? = some b1)
    (hf0 : b0.mutex = none ∧ b0.state = .LOADSTATE_EMPTY)
    (hf1 : b1.mutex = none ∧ b1.state = .LOADSTATE_EMPTY)
    (he : ctx.endOfFile = false) (hr : ctx.replies = .upTo limit :: .error errno :: rest)
    (hc : ctx.lineBegin.length < b0.bufSize) (hf : ctx.filePos < ctx.file.length) :
    (∀ (b : LoadBuffer) (c : LoaderCtx) (e : Int) (l : List ReadReply), b.mutex = none →
      b.state = .LOADSTATE_EMPTY → c.endOfFile = false → c.replies = .error e :: l →
      ∃ b2 c2, b.produceBuffer c pick = .done (b2, c2) ∧ b2.IOerror = true ∧ b2.IOerrno = e ∧
        b2.state = .LOADSTATE_LOADED ∧ b2.mutex = none) ∧
    ∃ pool1 ctx1 pool2 ctx2,
      producePool pool 0 ctx pick = .done (pool1, ctx1) ∧
      producePool pool1 1 ctx1 pick = .done (pool2, ctx2) ∧
      (∃ c0, pool1[0]? = some c0 ∧ c0.state = .LOADSTATE_LOADED ∧ c0.IOerror = false ∧
        pool2[0]? = some c0) ∧
      (∃ c1, pool2[1]? = some c1 ∧ c1.state = .LOADSTATE_LOADED ∧ c1.IOerror = true ∧
        c1.IOerrno = errno) ∧
      (∀ k, k ≠ 1 → pool2[k]? = pool1[k]?) := by
  constructor
  · intro b c e l hm hs hce hcr
    obtain ⟨ws, hp⟩ := produceBuffer_done b c pick hm hs
    obtain ⟨e1, e2, -⟩ := fill_error b.bufSize c e l hce hcr
    exact ⟨_, _, hp, by simpa [LoadBuffer.store] using e1, by simpa [LoadBuffer.store] using e2,
      rfl, rfl⟩
  · obtain ⟨r1, r2, r3, r4⟩ := fill_read b0.bufSize ctx limit (.error errno :: rest) he hr hc hf
    obtain ⟨c0, hp0, s0, -, i0, -⟩ := producePool_done pool 0 b0 ctx pick h0 hf0.1 hf0.2
    have h1a : (pool.set 0 c0)[1]? = some b1 := by
      rw [List.getElem?_set_ne (by decide)]; exact h1
    obtain ⟨c1, hp1, s1, -, i1, n1, -⟩ :=
      producePool_done (pool.set 0 c0) 1 b1 (fill b0.bufSize ctx).2 pick h1a hf1.1 hf1.2
    obtain ⟨e1, e2, -⟩ := fill_error b1.bufSize (fill b0.bufSize ctx).2 errno rest r3 r4
    have hlen0 : 0 < pool.length := by
      by_contra hl
      rw [List.getElem?_eq_none (by omega)] at h0
      simp at h0
    have hlen1 : 1 < pool.length := by
      by_contra hl
      rw [List.getElem?_eq_none (by omega)] at h1
      simp at h1
    refine ⟨_, _, _, _, hp0, hp1, ⟨c0, ?_, s0, by rw [i0, r1], ?_⟩,
      ⟨c1, ?_, s1, by rw [i1, e1], by rw [n1, e2]⟩, ?_⟩
    · rw [List.getElem?_set_eq_of_lt _ hlen0]
    · rw [List.getElem?_set_ne (by decide), List.getElem?_set_eq_of_lt _ hlen0]
    · rw [List.getElem?_set_eq_of_lt _ (by simpa using hlen1)]
    · intro k hk
      rw [List.getElem?_set_ne (Ne.symm hk)]

/-- C14, witness: a ring of two buffers, a first read of four bytes and a second
read that fails with error 5. -/
theorem C14_witness :
    ∃ pool1 ctx1 pool2 ctx2,
      producePool [demoBuffer, demoBuffer] 0 demoFailing 0 = .done (pool1, ctx1) ∧
      producePool pool1 1 ctx1 0 = .done (pool2, ctx2) ∧
      (∃ c0, pool1[0]? = some c0 ∧ c0.state = .LOADSTATE_LOADED ∧ c0.IOerror = false ∧
        pool2[0]? = some c0) ∧
      (∃ c1, pool2[1]? = some c1 ∧ c1.state = .LOADSTATE_LOADED ∧ c1.IOerror = true ∧
        c1.IOerrno = 5) ∧
      (∀ k, k ≠ 1 → pool2[k]? = pool1[k]?) :=
  (C14_read_error_on_its_buffer_only [demoBuffer, demoBuffer] demoFailing 0 3 5 [] demoBuffer
    demoBuffer rfl rfl (by decide) (by decide) rfl rfl (by decide) (by decide)).2

/-- C15: for every file, every behaviour of the reads, every ring of buffers
(any size, so every `N ≥ 2`) and every schedule of the three roles, spurious
wake-ups included, the record slices the Consumer has observed, in the order
observed, are the first records of the file in file order: they are the records
of the first `nConsumed` fills, a prefix of the records of the file, and all of
them once every fill is consumed and the fills have read the file to its
end. -/
theorem C15_records_in_file_order (s0 : Pipeline) (acts : List Action) (file : List Char)
    (replies : List ReadReply) (h0 : s0.isInitial = true) :
    List.IsPrefix (s0.replay (DataState.start s0.pool.length file replies) acts).consumed
      (records file) ∧
    (s0.replay (DataState.start s0.pool.length file replies) acts).consumed =
      ((s0.replay (DataState.start s0.pool.length file replies) acts).produced.take
        (s0.replay (DataState.start s0.pool.length file replies) acts).nConsumed).flatMap
        (fun f => records f.activeRegion) ∧
    (s0.replay (DataState.start s0.pool.length file replies) acts).nConsumed ≤
      (s0.replay (DataState.start s0.pool.length file replies) acts).produced.length ∧
    ((s0.replay (DataState.start s0.pool.length file replies) acts).nConsumed =
        (s0.replay (DataState.start s0.pool.length file replies) acts).produced.length →
      file.length ≤ (s0.replay (DataState.start s0.pool.length file replies) acts).ctx.filePos →
      (s0.replay (DataState.start s0.pool.length file replies) acts).consumed =
        records file) := by
  obtain ⟨s1, l1, t1, c1, hd⟩ :=
    @DataInv.replayed file acts s0 _ 0 0 0 (Inv.initially h0) (DataInv.fresh h0 file replies)
  exact hd.consumed_spec

/-- C15, witness: one round of each role on a ring of two buffers of sixteen bytes;
the Consumer has observed the three records of the file. -/
theorem C15_witness :
    (demoPipeline.replay (DataState.start demoPipeline.pool.length demoFile [])
      demoRoundSchedule).consumed = records demoFile :=
  (C15_records_in_file_order demoPipeline demoRoundSchedule demoFile [] (by decide)).2.2.2
    (by decide) (by decide)

/-- C16: along every schedule from a start state with a ring of `N` buffers
(any `N`, so every `N ≥ 2`), the `M` rounds a role has completed are on the
buffers `0, 1, 2, ...` modulo `N`, in ring order. So the role has completed its
end-phase on buffer `i` exactly `⌈(M - i) / N⌉` times: that number is
`(M + N - 1 - i) / N`, the least `k` with `M - i ≤ k * N`, and is `⌊M / N⌋` or
`⌈M / N⌉`. The events of buffer `i` are a prefix of the cycle
Loader begins, Loader ends, Tokenizer begins, Tokenizer ends, Consumer begins,
Consumer ends, ..., so no state of the cycle is skipped or repeated. -/
theorem C16_cycle_count (s0 : Pipeline) (acts : List Action) (r : Role) (i M N : Nat)
    (h0 : s0.isInitial = true) (hN : s0.pool.length = N) (hi : i < N)
    (hM : (s0.rounds r acts).length = M) :
    s0.rounds r acts = (List.range M).map (fun j => j % N) ∧
    (s0.rounds r acts).count i = (M + N - 1 - i) / N ∧
    ((M : Int) - i ≤ ((s0.rounds r acts).count i : Int) * N ∧
      (((s0.rounds r acts).count i : Int) * N < M - i + N)) ∧
    (M / N ≤ (s0.rounds r acts).count i ∧ (s0.rounds r acts).count i ≤ (M + N - 1) / N) ∧
    ((s0.rounds r acts).count i = M / N ∨ (s0.rounds r acts).count i = (M + N - 1) / N) ∧
    (∃ n, (s0.trace acts).filter (fun e => e.buf == i) = (List.range n).map (cycleEvent i)) := by
  have hinv := Inv.initially h0
  have hring := @Pipeline.rounds_ring acts r s0 hinv
  rw [(Pipeline.thread_of_isInitial h0 r), hM, hN] at hring
  simp only [Nat.zero_add] at hring
  have hcount : (s0.rounds r acts).count i = (M + N - 1 - i) / N := by
    rw [hring]; exact count_range_mod N i hi M
  have hpos : 0 < N := by omega
  have hdm := Nat.div_add_mod (M + N - 1 - i) N
  have hml := Nat.mod_lt (M + N - 1 - i) hpos
  have hmul : N * ((M + N - 1 - i) / N) = (M + N - 1 - i) / N * N := Nat.mul_comm _ _
  have hlo : M / N ≤ (M + N - 1 - i) / N := Nat.div_le_div_right (by omega)
  have hhi : (M + N - 1 - i) / N ≤ (M + N - 1) / N := Nat.div_le_div_right (by omega)
  have hgap : (M + N - 1) / N ≤ M / N + 1 := by
    rw [← Nat.add_div_right M hpos]
    exact Nat.div_le_div_right (by omega)
  refine ⟨hring, hcount, ?_, ?_, ?_, ?_⟩
  · rw [hcount]
    have : (((M + N - 1 - i) / N * N : Nat) : Int) = ((M + N - 1 - i) / N : Nat) * (N : Int) := by
      push_cast; rfl
    rw [← this]
    constructor <;> omega
  · rw [hcount]
    exact ⟨hlo, hhi⟩
  · rw [hcount]
    omega
  · obtain ⟨n, hn⟩ := @Pipeline.trace_cycle acts s0 hinv i
    rw [Pipeline.phase_of_isInitial h0] at hn
    simp only [Nat.zero_add] at hn
    exact ⟨n, hn⟩

/-- C16, witness: after the schedule of one round of each role on a ring of two
buffers the Loader has completed one round, on buffer 0. -/
theorem C16_witness :
    demoPipeline.rounds .Loader demoRoundSchedule = (List.range 1).map (fun j => j % 2) ∧
    (demoPipeline.rounds .Loader demoRoundSchedule).count 0 = (1 + 2 - 1 - 0) / 2 ∧
    (((1 : Nat) : Int) - (0 : Nat) ≤
        ((demoPipeline.rounds .Loader demoRoundSchedule).count 0 : Int) * (2 : Nat) ∧
      (((demoPipeline.rounds .Loader demoRoundSchedule).count 0 : Int) * (2 : Nat) <
        ((1 : Nat) : Int) - (0 : Nat) + (2 : Nat))) ∧
    (1 / 2 ≤ (demoPipeline.rounds .Loader demoRoundSchedule).count 0 ∧
      (demoPipeline.rounds .Loader demoRoundSchedule).count 0 ≤ (1 + 2 - 1) / 2) ∧
    ((demoPipeline.rounds .Loader demoRoundSchedule).count 0 = 1 / 2 ∨
      (demoPipeline.rounds .Loader demoRoundSchedule).count 0 = (1 + 2 - 1) / 2) ∧
    (∃ n, (demoPipeline.trace demoRoundSchedule).filter (fun e => e.buf == 0) =
      (List.range n).map (cycleEvent 0)) :=
  C16_cycle_count demoPipeline demoRoundSchedule .Loader 0 1 2 (by decide) (by decide)
    (by decide) (by decide)

/-- C17: `vtl::errx` and `vtl::err` never return to their caller. Without a
handler, and with a handler whose `errorX` / `error` method returns, they end
in `exit(ecode)`, called right after the print or the method; the only other
ending is that the method of the handler itself did not return. `vtl::warnx`
and `vtl::warn` never call `exit`: with a handler they call its `warnX` /
`warn` and nothing else, and return when it does; without one they print on
`stderr` only, `vwarnx` first, and return. -/
theorem C17_err_exits_warn_returns (G : ErrorGlobals) (ecode vtl_errno : Int) (fmt : String)
    (args : List String) :
    (vtl.errx G ecode fmt args).ending ≠ .returned ∧
    (vtl.err G ecode vtl_errno fmt args).ending ≠ .returned ∧
    (G.handler = none →
      vtl.errx G ecode fmt args =
        { effects := [.vwarnx fmt args, .exit ecode], ending := .exited ecode } ∧
      (vtl.err G ecode vtl_errno fmt args).ending = .exited ecode ∧
      (vtl.err G ecode vtl_errno fmt args).effects.getLast? = some (.exit ecode)) ∧
    (∀ h, G.handler = some h → h.errorX ecode fmt args = true →
      vtl.errx G ecode fmt args =
        { effects := [.errorX ecode fmt args, .exit ecode], ending := .exited ecode }) ∧
    (∀ h, G.handler = some h → h.error ecode vtl_errno fmt args = true →
      vtl.err G ecode vtl_errno fmt args =
        { effects := [.error ecode vtl_errno fmt args, .exit ecode],
          ending := .exited ecode }) ∧
    (∀ h, G.handler = some h → h.errorX ecode fmt args = false →
      vtl.errx G ecode fmt args =
        { effects := [.errorX ecode fmt args], ending := .inHandler }) ∧
    (∀ h, G.handler = some h → h.error ecode vtl_errno fmt args = false →
      vtl.err G ecode vtl_errno fmt args =
        { effects := [.error ecode vtl_errno fmt args], ending := .inHandler }) ∧
    (∀ e ∈ (vtl.warnx G fmt args).effects, e.isExit = false) ∧
    (∀ e ∈ (vtl.warn G vtl_errno fmt args).effects, e.isExit = false) ∧
    (∀ c, (vtl.warnx G fmt args).ending ≠ .exited c) ∧
    (∀ c, (vtl.warn G vtl_errno fmt args).ending ≠ .exited c) ∧
    (∀ h, G.handler = some h →
      (vtl.warnx G fmt args).effects = [.warnX fmt args] ∧
      ((vtl.warnx G fmt args).ending = .returned ↔ h.warnX fmt args = true) ∧
      (vtl.warn G vtl_errno fmt args).effects = [.warn vtl_errno fmt args] ∧
      ((vtl.warn G vtl_errno fmt args).ending = .returned ↔
        h.warn vtl_errno fmt args = true)) ∧
    (G.handler = none →
      vtl.warnx G fmt args = { effects := [.vwarnx fmt args], ending := .returned } ∧
      (vtl.warn G vtl_errno fmt args).ending = .returned ∧
      (vtl.warn G vtl_errno fmt args).effects.head? = some (.vwarnx fmt args) ∧
      ∀ e ∈ (vtl.warn G vtl_errno fmt args).effects, e.isPrint = true) := by
  cases hh : G.handler with
  | none =>
    have hw : ∀ doexit : Bool,
        ∃ l, (∀ e ∈ l, e.isPrint = true ∧ e.isExit = false) ∧
          vtl__vwarn G vtl_errno fmt args doexit ecode =
            if doexit then { effects := .vwarnx fmt args :: l ++ [.exit ecode],
                             ending := .exited ecode }
            else { effects := .vwarnx fmt args :: l, ending := .returned } := by
      intro doexit
      unfold vtl__vwarn
      rw [hh]
      simp only
      by_cases hp : vtl_errno > 0
      · refine ⟨[.fprintf (": " ++ G.strerror vtl_errno ++ "\n")], ?_, ?_⟩
        · simp [Effect.isPrint, Effect.isExit]
        · cases doexit <;> simp [hp, Run.andThen, Run.call, Run.exit, Run.skip]
      · cases hf : G.strerror_func with
        | none =>
          refine ⟨[], by simp, ?_⟩
          cases doexit <;> simp [hp, Run.andThen, Run.call, Run.exit, Run.skip]
        | some func =>
          by_cases hn : vtl_errno < 0
          · refine ⟨[.fprintf (": " ++ func (-vtl_errno) ++ "\n")], ?_, ?_⟩
            · simp [Effect.isPrint, Effect.isExit]
            · cases doexit <;> simp [hp, hn, Run.andThen, Run.call, Run.exit, Run.skip]
          · refine ⟨[], by simp, ?_⟩
            cases doexit <;> simp [hp, hn, Run.andThen, Run.call, Run.exit, Run.skip]
    obtain ⟨l1, hl1, he1⟩ := hw true
    have hw0 : ∃ l, (∀ e ∈ l, e.isPrint = true ∧ e.isExit = false) ∧
        vtl.warn G vtl_errno fmt args =
          { effects := .vwarnx fmt args :: l, ending := .returned } := by
      have hw2 : ∀ code : Int, vtl__vwarn G vtl_errno fmt args false code =
          vtl__vwarn G vtl_errno fmt args false ecode := by
        intro code
        unfold vtl__vwarn
        simp
      obtain ⟨l, hl, he⟩ := hw false
      exact ⟨l, hl, by rw [vtl.warn, hw2 0, he]; simp⟩
    obtain ⟨l0, hl0, he0⟩ := hw0
    simp only [Bool.true_eq_false] at he1
    have herr : vtl.err G ecode vtl_errno fmt args =
        { effects := .vwarnx fmt args :: l1 ++ [.exit ecode], ending := .exited ecode } := by
      rw [vtl.err, he1]; simp
    have hx : ∀ (doexit : Bool) (code : Int), vtl__vwarnx G fmt args doexit code =
        if doexit then { effects := [.vwarnx fmt args, .exit code], ending := .exited code }
        else { effects := [.vwarnx fmt args], ending := .returned } := by
      intro doexit code
      unfold vtl__vwarnx
      rw [hh]
      cases doexit <;> simp [Run.andThen, Run.call, Run.exit, Run.skip]
    simp only [vtl.errx, vtl.warnx, hx, herr, he0]
    simp [Effect.isExit, Effect.isPrint]
    refine ⟨?_, ?_, ?_⟩
    · rw [← List.cons_append, List.getLast?_append]; simp
    · intro e he; exact (hl0 e he).2
    · intro e he; exact (hl0 e he).1
  | some h =>
    have hx : ∀ (code : Int), vtl__vwarnx G fmt args true code =
        if h.errorX code fmt args then
          { effects := [.errorX code fmt args, .exit code], ending := .exited code }
        else { effects := [.errorX code fmt args], ending := .inHandler } := by
      intro code
      unfold vtl__vwarnx
      rw [hh]
      cases hr : h.errorX code fmt args <;> simp [Run.andThen, Run.handlerCall, Run.exit, hr]
    have hxw : ∀ (code : Int), vtl__vwarnx G fmt args false code =
        { effects := [.warnX fmt args],
          ending := if h.warnX fmt args then .returned else .inHandler } := by
      intro code
      unfold vtl__vwarnx
      rw [hh]
      simp [Run.handlerCall]
    have hy : ∀ (code : Int), vtl__vwarn G vtl_errno fmt args true code =
        if h.error code vtl_errno fmt args then
          { effects := [.error code vtl_errno fmt args, .exit code], ending := .exited code }
        else { effects := [.error code vtl_errno fmt args], ending := .inHandler } := by
      intro code
      unfold vtl__vwarn
      rw [hh]
      cases hr : h.error code vtl_errno fmt args <;>
        simp [Run.andThen, Run.handlerCall, Run.exit, hr]
    have hyw : ∀ (code : Int), vtl__vwarn G vtl_errno fmt args false code =
        { effects := [.warn vtl_errno fmt args],
          ending := if h.warn vtl_errno fmt args then .returned else .inHandler } := by
      intro code
      unfold vtl__vwarn
      rw [hh]
      simp [Run.handlerCall]
    simp only [vtl.errx, vtl.warnx, vtl.err, vtl.warn, hx, hxw, hy, hyw]
    cases h1 : h.errorX ecode fmt args <;> cases h2 : h.error ecode vtl_errno fmt args <;>
      cases h3 : h.warnX fmt args <;> cases h4 : h.warn vtl_errno fmt args <;>
      simp [Effect.isExit, h1, h2, h3, h4]

/-- C17, witness: `errx` with a handler whose methods return calls `errorX` and then
`exit` with the code given. -/
theorem C17_witness :
    vtl.errx demoGlobals 2 "%s" ["lost"] =
      { effects := [.errorX 2 "%s" ["lost"], .exit 2], ending := .exited 2 } :=
  (C17_err_exits_warn_returns demoGlobals 2 0 "%s" ["lost"]).2.2.2.1 demoHandler rfl rfl

/-- C18: a file written by `saveSettings` in a state `S` whose key map is the
one of `setupSettings`, loaded by `loadSettings` in any state `S1` with the
same key map, gives the return value 0, every regular setting's `enabled`
flag and `opengl` as in `S`, and `line_width` as in `S` when it lies between 1
and `MAX_LINE_WIDTH_OPENGL`. The conversions of Qt are taken at the two
numbers that are written: the text of the version and of the line width is a
token that `toInt` reads back. Any `fuel` of at least 10 is enough for the
load to return. -/
theorem C18_save_load_round_trip (E : SettingEnv) (S S1 : Settings) (w : QFileWrite)
    (text : String) (fuel : Nat)
    (hS : S.fileKeyMap = (Setting.setupSettings E Settings.initial).fileKeyMap)
    (hS1 : S1.fileKeyMap = S.fileKeyMap)
    (hlen : S1.settings.length = 7)
    (hv : E.toInt (E.number Setting.this_version) = some Setting.this_version)
    (hvt : IsToken (E.number Setting.this_version))
    (hw : E.toInt (E.number S.line_width) = some S.line_width)
    (hwt : IsToken (E.number S.line_width))
    (hsave : Setting.saveSettings E S w = (0, some text))
    (hfuel : 10 ≤ fuel) :
    ∃ R : Settings, Setting.loadSettings E fuel S1 (.readable text) = some (0, R) ∧
      (∀ i : Int, 0 ≤ i → i < Setting.NR_SETTINGS → (R.get i).enabled = (S.get i).enabled) ∧
      R.opengl = S.opengl ∧
      (1 ≤ S.line_width → S.line_width ≤ E.MAX_LINE_WIDTH_OPENGL →
        R.line_width = S.line_width) := by
  rw [setupSettings_fileKeyMap] at hS
  rw [hS] at hS1
  have htext : text = TRACESHARK_VERSION_KEY ++ " " ++ E.number Setting.this_version ++ "\n" ++
      Setting.saveEntries E S S.fileKeyMap := by
    unfold Setting.saveSettings at hsave
    cases hopen : w.openFails with
    | some error =>
      rw [hopen] at hsave
      simp only at hsave
      split at hsave <;> simp at hsave
    | none =>
      rw [hopen] at hsave
      simp only at hsave
      split at hsave
      · simp only [Prod.mk.injEq, Option.some.injEq] at hsave
        exact hsave.2.symm
      · simp only [Prod.mk.injEq, Option.some.injEq] at hsave
        exact hsave.2.symm
  obtain ⟨hen, hogl, hlw⟩ := restored_spec E S S1 hlen
  refine ⟨Setting.restored E S S1, ?_, hen, hogl, ?_⟩
  · rw [htext]
    exact loadSettings_saved E S S1 fuel hS hS1 hv hvt hwt hfuel
  · intro h1 h2
    rw [hlw, handleIrregularIndex_lineWidth, hw]
    simp only
    rw [if_pos ⟨h1, h2⟩]

/-- C18, witness: the settings of `setupSettings` with line width 3 and OpenGL off,
saved and loaded into the settings of a fresh process. -/
theorem C18_witness :
    ∃ R : Settings, Setting.loadSettings demoEnv 10 demoFresh (.readable demoText) = some (0, R) ∧
      (∀ i : Int, 0 ≤ i → i < Setting.NR_SETTINGS →
        (R.get i).enabled = (demoSaved.get i).enabled) ∧
      R.opengl = demoSaved.opengl ∧
      (1 ≤ demoSaved.line_width → demoSaved.line_width ≤ demoEnv.MAX_LINE_WIDTH_OPENGL →
        R.line_width = demoSaved.line_width) :=
  C18_save_load_round_trip demoEnv demoSaved demoFresh demoDevice demoText 10 rfl rfl
    (setupSettings_length demoEnv) (by decide) (by decide) (by decide) (by decide) rfl
    (by decide)

/-- C19: `readKeyValuePair` does not return on a blank line that is not the
last of the file: on the text of an empty line followed by a version line it is
still running after any number `fuel` of rounds of its loop, and so is
`loadSettings`, in every environment and state. -/
theorem C19_blank_line_never_returns (E : SettingEnv) (fuel : Nat) (st : Settings)
    (key value : String) :
    Setting.readKeyValuePair E fuel "\nTRACESHARK_FILE_VERSION 1\n".data key value = none ∧
    Setting.loadSettings E fuel st (.readable "\nTRACESHARK_FILE_VERSION 1\n") = none := by
  have h : ∀ key value : String,
      Setting.readKeyValuePair E fuel "\nTRACESHARK_FILE_VERSION 1\n".data key value = none :=
    fun key value =>
      readKeyValuePair_blank E fuel [] "TRACESHARK_FILE_VERSION 1\n".data key value
        (by simp) (by decide)
  refine ⟨h key value, ?_⟩
  unfold Setting.loadSettings
  simp only
  rw [if_pos (by decide), h]

/-- C20: a first line that holds no field, followed by another line, is a
first line that is not two space-separated fields, and `loadSettings` does not
return `-TS_ERROR_FILEFORMAT` for it: it returns nothing, being still in the
loop of `readKeyValuePair` after any number `fuel` of rounds. -/
theorem C20_blank_header_never_returns (E : SettingEnv) (fuel : Nat) (st : Settings) :
    Setting.loadSettings E fuel st (.readable "  \nOPENGL_ENABLED true\n") = none ∧
    Setting.loadSettings E fuel st (.readable "  \nOPENGL_ENABLED true\n") ≠
      some (-E.TS_ERROR_FILEFORMAT, st) := by
  have h : Setting.loadSettings E fuel st (.readable "  \nOPENGL_ENABLED true\n") = none := by
    have hread : Setting.readKeyValuePair E fuel "  \nOPENGL_ENABLED true\n".data "" "" = none :=
      readKeyValuePair_blank E fuel [blank, blank] "OPENGL_ENABLED true\n".data "" ""
        (by simp) (by decide)
    unfold Setting.loadSettings
    simp only
    rw [if_pos (by decide), hread]
  exact ⟨h, by rw [h]; simp⟩

/-- C21: for a settings file whose first line splits into the version key and
a value that `toInt` reads as `version`, and whose other lines are all
well-formed key/value pairs (the last line with or without a line end),
`loadSettings` returns, with any `fuel` above the number of lines:
`-TS_ERROR_INTERNAL` when `version < this_version`, whatever the keys are, and
0 when `version = this_version` and the key map holds only indices that the
dispatch hands to a handler, as the map of `setupSettings` does. -/
theorem C21_older_version_is_internal_error (E : SettingEnv) (st : Settings)
    (header : List Char) (v : String) (version : Int) (lines : List (List Char))
    (terminated : Bool) (fuel : Nat)
    (hh : ∀ c ∈ header, c ≠ newline)
    (hs : QString.split (String.mk header) = [TRACESHARK_VERSION_KEY, v])
    (hv : E.toInt v = some version)
    (hl : ∀ l ∈ lines, Setting.isPairLine l)
    (hfuel : lines.length < fuel) :
    (version < Setting.this_version →
      ∃ st1, Setting.loadSettings E fuel st
        (.readable (String.mk (linesText (header :: lines) terminated))) =
          some (-E.TS_ERROR_INTERNAL, st1)) ∧
    (version = Setting.this_version →
      (∀ e ∈ st.fileKeyMap,
        Setting.isIrregularIndex e.2 = true ∨ Setting.isRegularIndex e.2 = true) →
      ∃ st1, Setting.loadSettings E fuel st
        (.readable (String.mk (linesText (header :: lines) terminated))) = some (0, st1)) := by
  obtain ⟨n, rfl⟩ : ∃ n, fuel = n + 1 := ⟨fuel - 1, by omega⟩
  have hpair : Setting.isPairLine header := ⟨hh, by rw [hs]; rfl⟩
  have hread := readKeyValuePair_linesText E n header lines terminated "" "" hpair
  rw [hs] at hread
  simp only [List.getD_cons_zero, List.getD_cons_succ] at hread
  have hat := linesText_ne_nil header lines terminated hpair
  have hloop := loadLoop_pairLines E lines terminated (n + 1) st TRACESHARK_VERSION_KEY v hl hfuel
  have hload : ∀ out, Setting.loadLoop E (n + 1) st (linesText lines terminated)
      TRACESHARK_VERSION_KEY v 0 = some out → ¬ version > Setting.this_version →
      Setting.loadSettings E (n + 1) st
        (.readable (String.mk (linesText (header :: lines) terminated))) =
        match out with
        | .returned rval st1 => some (rval, st1)
        | .finished rval st1 =>
          if version < Setting.this_version then
            some (Setting.handleOlderVersion E version Setting.this_version, st1)
          else some (rval, st1) := by
    intro out ho hgt
    unfold Setting.loadSettings
    simp only [hat, Bool.false_eq_true, not_false_eq_true, if_true, hread, ne_eq,
      not_true_eq_false, if_false, hv, if_neg hgt, ho]
    cases out <;> rfl
  constructor
  · intro hlt
    have hgt : ¬ version > Setting.this_version := by omega
    rcases hloop with ⟨st1, h1⟩ | ⟨⟨st1, h1⟩, -⟩
    · exact ⟨st1, by rw [hload _ h1 hgt]; simp [hlt, Setting.handleOlderVersion]⟩
    · exact ⟨st1, by rw [hload _ h1 hgt]⟩
  · intro heq hmap
    have hgt : ¬ version > Setting.this_version := by omega
    have hlt : ¬ version < Setting.this_version := by omega
    rcases hloop with ⟨st1, h1⟩ | ⟨-, h2⟩
    · exact ⟨st1, by rw [hload _ h1 hgt]; simp [hlt]⟩
    · exfalso
      apply h2
      intro e he
      simpa [Setting.isClassified] using hmap e he

/-- C21, witness: a file of version 0 with a line for OpenGL gives
`-TS_ERROR_INTERNAL`, which is -5 in the concrete environment. -/
theorem C21_witness :
    ∃ st1, Setting.loadSettings demoEnv 2 demoFresh
      (.readable (String.mk (linesText ["TRACESHARK_FILE_VERSION 0".data,
        "OPENGL_ENABLED true".data] true))) = some (-demoEnv.TS_ERROR_INTERNAL, st1) :=
  (C21_older_version_is_internal_error demoEnv demoFresh "TRACESHARK_FILE_VERSION 0".data "0" 0
    ["OPENGL_ENABLED true".data] true 2 (by decide) (by decide) (by decide) (by decide)
    (by decide)).1 (by decide)

/-- C22, the claim as stated fails: after the settings 1 to 5 have each been
given a dependency on setting 0, setting 5 lists `{0, true}` once among its
dependencies and setting 0, whose table of four dependents was full, does not
list `{5, true}`. -/
theorem C22_fifth_dependent_is_dropped :
    ¬ ∀ (calls : List (Int × SettingDependency)),
      (∀ c ∈ calls, 0 ≤ c.1 ∧ c.1 < Setting.NR_SETTINGS ∧ 0 ≤ c.2.index ∧
        c.2.index < Setting.NR_SETTINGS) →
      ∀ (i j : Int) (v : Bool), 0 ≤ i → i < Setting.NR_SETTINGS → 0 ≤ j →
        j < Setting.NR_SETTINGS →
        ((Setting.addDependencies Settings.initial calls).get i).depCount ⟨j, v⟩ =
          ((Setting.addDependencies Settings.initial calls).get j).dependentCount ⟨i, v⟩ := by
  intro h
  have h1 := h demoFiveDependents (by decide) 5 0 true (by decide) (by decide) (by decide)
    (by decide)
  revert h1
  decide

/-- C22, as amended: after every sequence of `addDependency` calls with
indices of regular settings, from freshly constructed settings, setting `j`
lists `{i, v}` among its first `nrDependents` dependents at most as many times
as setting `i` lists `{j, v}` among its first `nrDep` dependencies, and exactly
as many times when no call of the sequence found the table of dependents of its
target full. -/
theorem C22_dependents_match_while_they_fit (calls : List (Int × SettingDependency))
    (i j : Int) (v : Bool)
    (hv : ∀ c ∈ calls, 0 ≤ c.1 ∧ c.1 < Setting.NR_SETTINGS ∧ 0 ≤ c.2.index ∧
      c.2.index < Setting.NR_SETTINGS) :
    ((Setting.addDependencies Settings.initial calls).get j).dependentCount ⟨i, v⟩ ≤
      ((Setting.addDependencies Settings.initial calls).get i).depCount ⟨j, v⟩ ∧
    (Setting.dependentsFit Settings.initial calls = true →
      ((Setting.addDependencies Settings.initial calls).get i).depCount ⟨j, v⟩ =
        ((Setting.addDependencies Settings.initial calls).get j).dependentCount ⟨i, v⟩) := by
  have h0 : ∀ (i j : Int) (v : Bool), (Settings.initial.get i).depCount ⟨j, v⟩ = 0 ∧
      (Settings.initial.get j).dependentCount ⟨i, v⟩ = 0 := by
    intro i j v
    rw [initial_get, initial_get]
    exact ⟨rfl, rfl⟩
  obtain ⟨h1, h2⟩ := addDependencies_counts calls Settings.initial Settings.bounded_initial hv
  exact ⟨h1 (fun i j v => by rw [(h0 i j v).1, (h0 i j v).2]) i j v,
    fun hfit => h2 (fun i j v => by rw [(h0 i j v).1, (h0 i j v).2]) hfit i j v⟩

/-- C22, witness: the first four of the five calls fit, and setting 0 lists
`{4, true}` once, as setting 4 lists `{0, true}`. -/
theorem C22_witness :
    ((Setting.addDependencies Settings.initial (demoFiveDependents.take 4)).get 4).depCount
        ⟨0, true⟩ =
      ((Setting.addDependencies Settings.initial (demoFiveDependents.take 4)).get 0).dependentCount
        ⟨4, true⟩ :=
  (C22_dependents_match_while_they_fit (demoFiveDependents.take 4) 4 0 true (by decide)).2
    (by decide)

/-- C23: after every sequence of calls of `setupSettings`, `addDependency` and
`clearDependencies` with indices of regular settings, started from the static
members as they are initialised, the array of settings has its `NR_SETTINGS`
elements and every setting has `nrDep ≤ 4`, `nrDependents ≤ 4` and its two
arrays of four elements. In such a state, and in every state that keeps these
bounds, each assignment of `addDependency` is to an element of `settings`
within `0 .. NR_SETTINGS - 1` and to a position below 4 of its array;
`getDependency (idx, nr)` with `nr < getNrDependencies (idx)` and
`getDependent (idx, nr)` with `nr < getNrDependents (idx)` read an element of
the array; and `addDependency` on a setting that has four dependencies changes
nothing. -/
theorem C23_dependency_tables_bounded (E : SettingEnv) (calls : List SettingCall)
    (st : Settings) (hv : ∀ c ∈ calls, c.valid)
    (hst : st = Setting.calls E Settings.initial calls) :
    st.bounded ∧
    (∀ idx : Int, Setting.getNrDependencies st idx ≤ 4 ∧ Setting.getNrDependents st idx ≤ 4 ∧
      (st.get idx).dependency.length = 4 ∧ (st.get idx).dependent.length = 4) ∧
    (∀ (x : Settings) (idx : Int) (d : SettingDependency), x.bounded →
      0 ≤ idx → idx < Setting.NR_SETTINGS → 0 ≤ d.index → d.index < Setting.NR_SETTINGS →
      (Setting.addDependency x idx d).bounded ∧
      ∀ w ∈ Setting.addDependencyWrites x idx d,
        0 ≤ w.1 ∧ w.1 < Setting.NR_SETTINGS ∧ w.2 < 4 ∧
          w.2 < (x.get w.1).dependency.length ∧ w.2 < (x.get w.1).dependent.length) ∧
    (∀ (idx : Int) (nr : Nat), nr < Setting.getNrDependencies st idx →
      (st.get idx).dependency[nr]? = some (Setting.getDependency st idx nr)) ∧
    (∀ (idx : Int) (nr : Nat), nr < Setting.getNrDependents st idx →
      (st.get idx).dependent[nr]? = some (Setting.getDependent st idx nr)) ∧
    (∀ (idx : Int) (d : SettingDependency), Setting.getNrDependencies st idx = 4 →
      Setting.addDependency st idx d = st ∧ Setting.addDependencyWrites st idx d = []) := by
  have _ := hv
  have hb : st.bounded := by
    rw [hst]; exact Settings.bounded.ofCalls E calls _ Settings.bounded_initial
  refine ⟨hb, fun idx => hb.atIndex idx, ?_, ?_, ?_, ?_⟩
  · intro x idx d hx h0 h1 h2 h3
    exact ⟨hx.ofAddDependency idx d, addDependencyWrites_bound x idx d hx ⟨h0, h1⟩ ⟨h2, h3⟩⟩
  · intro idx nr hnr
    have := hb.atIndex idx
    unfold Setting.getNrDependencies at hnr
    unfold Setting.getDependency
    have hlt : nr < (st.get idx).dependency.length := by
      rw [this.2.2.1]; have := this.1; omega
    rw [List.getD_eq_getElem _ _ hlt, List.getElem?_eq_getElem hlt]
  · intro idx nr hnr
    have := hb.atIndex idx
    unfold Setting.getNrDependents at hnr
    unfold Setting.getDependent
    have hlt : nr < (st.get idx).dependent.length := by
      rw [this.2.2.2]; have := this.2.1; omega
    rw [List.getD_eq_getElem _ _ hlt, List.getElem?_eq_getElem hlt]
  · intro idx d h4
    unfold Setting.getNrDependencies at h4
    constructor
    · unfold Setting.addDependency
      simp only
      rw [if_pos (by rw [h4]; decide)]
    · unfold Setting.addDependencyWrites
      simp only
      rw [if_pos (by rw [h4]; decide)]

/-- C23, witness: after five calls for `HORIZONTAL_WAKEUP` the setting has four
dependencies. -/
theorem C23_witness :
    Setting.getNrDependencies (Setting.calls demoEnv Settings.initial demoFiveDependencies) 1 ≤ 4 :=
  ((C23_dependency_tables_bounded demoEnv demoFiveDependencies
    (Setting.calls demoEnv Settings.initial demoFiveDependencies) (by decide) rfl).2.1 1).1

/-- C24: `OPENGL_ENABLED` and `LINE_WIDTH` differ from each other and from
every regular index; `isRegularIndex` holds exactly for `0 .. NR_SETTINGS - 1`
and `isIrregularIndex` exactly for `OPENGL_ENABLED` and `LINE_WIDTH`, and no
index satisfies both. `setupSettings` registers only indices that one of the
two accepts, so a key of its map is always handed to a handler, and when the
loop of `loadSettings` ends with a `return` from its body, the value returned is
the `-TS_ERROR_FILEFORMAT` of `readKeyValuePair`, not the `-TS_ERROR_INTERNAL`
of the dispatch. -/
theorem C24_indices_classified (E : SettingEnv) :
    Setting.OPENGL_ENABLED ≠ Setting.LINE_WIDTH ∧
    (∀ idx : Int, 0 ≤ idx → idx < Setting.NR_SETTINGS →
      idx ≠ Setting.OPENGL_ENABLED ∧ idx ≠ Setting.LINE_WIDTH) ∧
    (∀ idx : Int, Setting.isRegularIndex idx = true ↔ 0 ≤ idx ∧ idx < Setting.NR_SETTINGS) ∧
    (∀ idx : Int, Setting.isIrregularIndex idx = true ↔
      idx = Setting.OPENGL_ENABLED ∨ idx = Setting.LINE_WIDTH) ∧
    (∀ idx : Int, ¬ (Setting.isRegularIndex idx = true ∧ Setting.isIrregularIndex idx = true)) ∧
    (∀ st : Settings,
      (∀ e ∈ st.fileKeyMap,
        Setting.isIrregularIndex e.2 = true ∨ Setting.isRegularIndex e.2 = true) →
      ∀ e ∈ (Setting.setupSettings E st).fileKeyMap,
        Setting.isIrregularIndex e.2 = true ∨ Setting.isRegularIndex e.2 = true) ∧
    (∀ (key : String) (idx : Int),
      QMap.find key (Setting.setupSettings E Settings.initial).fileKeyMap = some idx →
      Setting.isIrregularIndex idx = true ∨ Setting.isRegularIndex idx = true) ∧
    (∀ (fuel : Nat) (st st1 : Settings) (stream : List Char) (key value : String) (rval : Int),
      st.fileKeyMap = (Setting.setupSettings E Settings.initial).fileKeyMap →
      Setting.loadLoop E fuel st stream key value 0 = some (.returned rval st1) →
      rval = -E.TS_ERROR_FILEFORMAT) := by
  have hcl : ∀ idx : Int, Setting.isClassified idx = true ↔
      (Setting.isIrregularIndex idx = true ∨ Setting.isRegularIndex idx = true) := by
    intro idx; simp [Setting.isClassified]
  have hsetup : ∀ e ∈ (Setting.setupSettings E Settings.initial).fileKeyMap,
      Setting.isClassified e.2 = true :=
    setupSettings_classified E Settings.initial (by simp [Settings.initial])
  refine ⟨by decide, ?_, isRegularIndex_iff, isIrregularIndex_iff, ?_, ?_, ?_, ?_⟩
  · intro idx h0 h1
    simp only [Setting.NR_SETTINGS, Setting.OPENGL_ENABLED, Setting.LINE_WIDTH] at h1 ⊢
    omega
  · intro idx h
    rw [isRegularIndex_iff, isIrregularIndex_iff] at h
    simp only [Setting.NR_SETTINGS, Setting.OPENGL_ENABLED, Setting.LINE_WIDTH] at h
    omega
  · intro st h e he
    exact (hcl _).1 (setupSettings_classified E st (fun x hx => (hcl _).2 (h x hx)) e he)
  · intro key idx h
    obtain ⟨k, hk⟩ := find_mem _ _ _ h
    exact (hcl _).1 (hsetup _ hk)
  · intro fuel st st1 stream key value rval hmap h
    exact loadLoop_returned E fuel st stream key value 0 rval st1 (by rw [hmap]; exact hsetup) h

/-- C24, witness: the key of the line width is registered with an irregular
index. -/
theorem C24_witness :
    Setting.isIrregularIndex 9 = true ∨ Setting.isRegularIndex 9 = true :=
  (C24_indices_classified demoEnv).2.2.2.2.2.2.1 "SCHED_GRAPH_LINE_WIDTH" 9
    (by rw [setupSettings_fileKeyMap]; decide)

/-- C25: for every value string, the handler of a `LINE_WIDTH` entry sets
`line_width` to the integer `w` the string parses to when `1 ≤ w` and
`w ≤ MAX_LINE_WIDTH_OPENGL`, and leaves the static members as they are when the
string does not parse or `w` is out of range; so `line_width` changes only to
such a `w`. In both cases `opengl`, the array of settings with every `enabled`
flag and the key map are unchanged; and no error is reported: the loop of
`loadSettings` goes on with the next line and `rval = 0`. -/
theorem C25_line_width_validated (E : SettingEnv) (st : Settings) (value : String) :
    (∀ w : Int, E.toInt value = some w → 1 ≤ w → w ≤ E.MAX_LINE_WIDTH_OPENGL →
      Setting.handleIrregularIndex E st Setting.LINE_WIDTH value =
        { st with line_width := w }) ∧
    ((¬ ∃ w : Int, E.toInt value = some w ∧ 1 ≤ w ∧ w ≤ E.MAX_LINE_WIDTH_OPENGL) →
      Setting.handleIrregularIndex E st Setting.LINE_WIDTH value = st) ∧
    ((Setting.handleIrregularIndex E st Setting.LINE_WIDTH value).line_width ≠ st.line_width →
      ∃ w : Int, E.toInt value = some w ∧ 1 ≤ w ∧ w ≤ E.MAX_LINE_WIDTH_OPENGL ∧
        (Setting.handleIrregularIndex E st Setting.LINE_WIDTH value).line_width = w) ∧
    (Setting.handleIrregularIndex E st Setting.LINE_WIDTH value).opengl = st.opengl ∧
    (Setting.handleIrregularIndex E st Setting.LINE_WIDTH value).settings = st.settings ∧
    (∀ idx : Int, ((Setting.handleIrregularIndex E st Setting.LINE_WIDTH value).get idx).enabled =
      (st.get idx).enabled) ∧
    (Setting.handleIrregularIndex E st Setting.LINE_WIDTH value).fileKeyMap = st.fileKeyMap ∧
    (∀ (fuel : Nat) (k : String) (rest : List Char) (key0 value0 : String),
      IsToken k → IsToken value → QMap.find k st.fileKeyMap = some Setting.LINE_WIDTH →
      Setting.loadLoop E (fuel + 1) st ((k ++ " " ++ value ++ "\n").data ++ rest) key0 value0 0 =
        Setting.loadLoop E fuel (Setting.handleIrregularIndex E st Setting.LINE_WIDTH value)
          rest k value 0) := by
  have hlw : Setting.LINE_WIDTH = 9 := rfl
  rw [hlw]
  have hchar := handleIrregularIndex_lineWidth E st value
  refine ⟨?_, ?_, ?_, opengl_handleIrregularIndex_lineWidth E st value,
    settings_handleIrregularIndex E st 9 value, fun idx => by simp,
    fileKeyMap_handleIrregularIndex E st 9 value, ?_⟩
  · intro w hw h1 h2
    rw [hchar, hw]
    simp only
    rw [if_pos ⟨h1, h2⟩]
  · intro hno
    rw [hchar]
    cases hv : E.toInt value with
    | none => rfl
    | some w =>
      simp only
      rw [if_neg (fun hr => hno ⟨w, hv, hr.1, hr.2⟩)]
  · intro hne
    rw [hchar] at hne ⊢
    cases hv : E.toInt value with
    | none => rw [hv] at hne; exact absurd rfl hne
    | some w =>
      rw [hv] at hne
      simp only at hne ⊢
      by_cases hr : w ≥ 1 ∧ w ≤ E.MAX_LINE_WIDTH_OPENGL
      · rw [if_pos hr]; exact ⟨w, rfl, hr.1, hr.2, rfl⟩
      · rw [if_neg hr] at hne; exact absurd rfl hne
  · intro fuel k rest key0 value0 hk hv hfind
    rw [Setting.loadLoop]
    have hne : ¬ QTextStream.atEnd ((k ++ " " ++ value ++ "\n").data ++ rest) = true := by
      simp [QTextStream.atEnd, String.data_append]
    rw [if_neg hne, readKeyValuePair_pair E fuel k value rest key0 value0 hk hv]
    simp only [ne_eq, not_true_eq_false, if_false, hfind]
    rw [if_pos (by decide)]

/-- C25, witness: with a line width of at most 4 the value `3` is taken. -/
theorem C25_witness :
    Setting.handleIrregularIndex demoEnv demoFresh Setting.LINE_WIDTH "3" =
      { demoFresh with line_width := 3 } :=
  (C25_line_width_validated demoEnv demoFresh "3").1 3 (by decide) (by decide) (by decide)
end Traceshark
